import Mathlib

/-!
QgsImageOperation: the block execution engine, the stack blur line pass, the flip and
the distance transform of a line.

A shallow embedding of `src/qgsimageoperation.h`:

* `ImageBlock`, `ProcessBlockUsingPixelOperation::operator()`,
  `ProcessBlockUsingLineOperation::operator()` (the block execution engine);
* `StackBlurLineOperation::operator()` (one pass of the stack blur).

The header only declares `FlipLineOperation::operator()`, `flipImage` and
`distanceTransform1d`; these three are modelled from the specification, each
under a doc comment that says so.

Modelling conventions.

* The image data is a byte memory addressed by the signed offset from
  `QImage::bits()`; `scanLine(y)` is the offset `y * bytesPerLine`.  Pointers
  are such offsets, so a pointer that runs before the start of the data is a
  negative offset.  A `QRgb` is the four bytes at its offset, least significant
  first; nothing proved here depends on the byte order.
* The buffer carries a trace of what was done to it (operation invocations,
  byte reads, byte writes, accesses to the local `rgba` array), in program
  order, so that statements about which bytes a pass touches can be made.
* `unsigned int` loop counters are natural numbers, `int` values are integers.
  The arithmetic on the accumulators of the stack blur is that of a 32-bit
  `int`: the result of each subtraction, product and sum is reduced to the range
  of `int` by `wrapInt` (two's complement), which is what the compiled code
  computes where the exact result does not fit.  Pointer and index arithmetic
  is exact.  `/` on `int` is `Int.tdiv`, `>>` on `int` is the arithmetic shift,
  and a store to an `unsigned char` keeps the value modulo 256.
* The local array `int rgba[4]` is a map from index to value; the statements
  about a line of pixels assume the channel range within `0..3`, the bounds of
  the array.
* The `double` values of the distance transform are exact rationals.
* A `for` loop whose body does not assign its counter is `forRange`
  (`unsigned int` counter) or `forRangeInt` (`int` counter); `forRange_unfold`
  is the loop rule (test, body, increment).

The definitions come first, then the lemmas, then one theorem for each claim
settled, with a witness at a concrete input where the theorem has
hypotheses.
-/

namespace QgsImageOperation

/-! ## Loops -/

/-- Runs `body i`, `body (i+1)`, ... for `n` consecutive counter values. -/
def forFrom {σ : Type} (body : Nat → σ → σ) : Nat → Nat → σ → σ
  | 0, _, s => s
  | n + 1, i, s => forFrom body n (i + 1) (body i s)

/-- The loop `for (unsigned i = lo; i < hi; ++i) body(i)`. -/
def forRange {σ : Type} (lo hi : Nat) (body : Nat → σ → σ) (s : σ) : σ :=
  forFrom body (hi - lo) lo s

/-- Runs `body i`, `body (i+1)`, ... for `n` consecutive values of an `int` counter. -/
def forFromInt {σ : Type} (body : Int → σ → σ) : Nat → Int → σ → σ
  | 0, _, s => s
  | n + 1, i, s => forFromInt body n (i + 1) (body i s)

/-- The loop `for (int i = lo; i < hi; ++i) body(i)`. -/
def forRangeInt {σ : Type} (lo hi : Int) (body : Int → σ → σ) (s : σ) : σ :=
  forFromInt body (hi - lo).toNat lo s

/-! ## Data model -/

/-- The enum `LineOperationDirection`. -/
inductive LineOperationDirection
  | ByRow
  | ByColumn
  deriving DecidableEq, Repr

/-- One observable step of an operation on the image data. -/
inductive Event
  | pixelOp (ref : Int) (x y : Nat)
  | lineOp (startRef : Int) (lineLength : Int) (bytesPerLine : Int)
  | read (addr : Int)
  | write (addr : Int)
  | rgba (index : Int)
  deriving DecidableEq, Repr

/-- The image data: the byte at every offset from `bits()`, and the trace of
the steps performed so far (oldest first). -/
structure Buffer where
  bits : Int → Nat
  trace : List Event

/-- The part of `QImage` the operations use: dimensions, row stride and data. -/
structure QImage where
  width : Nat
  height : Nat
  bytesPerLine : Nat
  buffer : Buffer

/-- The data model's invariant on the row stride: `bytesPerLine ≥ 4 * width`. -/
def QImage.WellFormed (img : QImage) : Prop := 4 * img.width ≤ img.bytesPerLine

instance QImage.decidableWellFormed (img : QImage) : Decidable img.WellFormed :=
  inferInstanceAs (Decidable (4 * img.width ≤ img.bytesPerLine))

/-- The offset `QImage::scanLine(y) - QImage::bits()`. -/
def QImage.scanLine (img : QImage) (y : Nat) : Int := (y : Int) * (img.bytesPerLine : Int)

/-- The struct `ImageBlock`; the `image` pointer is the image passed alongside. -/
structure ImageBlock where
  beginLine : Nat
  endLine : Nat
  lineLength : Nat
  deriving DecidableEq, Repr

namespace Buffer

/-- Appends an event to the trace. -/
def log (b : Buffer) (e : Event) : Buffer := { b with trace := b.trace ++ [e] }

/-- Reads the `unsigned char` at offset `a`: the value, and the buffer with the read logged. -/
def read (b : Buffer) (a : Int) : Int × Buffer := ((b.bits a : Int), b.log (Event.read a))

/-- Stores the `int` value `v` into the `unsigned char` at offset `a`. -/
def write (b : Buffer) (a : Int) (v : Int) : Buffer :=
  { bits := fun c => if c = a then (v % 256).toNat else b.bits c
    trace := b.trace ++ [Event.write a] }

/-- The `QRgb` (32-bit word, least significant byte first) at offset `a`. -/
def pixel (b : Buffer) (a : Int) : Nat :=
  b.bits a % 256 + 256 * (b.bits (a + 1) % 256) + 65536 * (b.bits (a + 2) % 256)
    + 16777216 * (b.bits (a + 3) % 256)

/-- Stores the `QRgb` value `v` at offset `a`. -/
def setPixel (b : Buffer) (a : Int) (v : Nat) : Buffer :=
  { b with bits := fun c =>
      if c = a then v % 256
      else if c = a + 1 then v / 256 % 256
      else if c = a + 2 then v / 65536 % 256
      else if c = a + 3 then v / 16777216 % 256
      else b.bits c }

/-- The call `mOperation( ref[x], x, y )` of a pixel operation that is a function
of its arguments: the pixel at offset `a` is replaced by `op pixel x y`. -/
def applyPixelOp (op : Nat → Nat → Nat → Nat) (a : Int) (x y : Nat) (b : Buffer) : Buffer :=
  (b.setPixel a (op (b.pixel a) x y)).log (Event.pixelOp a x y)

end Buffer

/-! ## ProcessBlockUsingPixelOperation -/

/-- The inner loop of `ProcessBlockUsingPixelOperation::operator()` on the row at `ref`. -/
def ProcessBlockUsingPixelOperation.row (op : Nat → Nat → Nat → Nat) (lineLength : Nat)
    (ref : Int) (y : Nat) (b : Buffer) : Buffer :=
  forRange 0 lineLength (fun x b => b.applyPixelOp op (ref + 4 * (x : Int)) x y) b

/-- The method `ProcessBlockUsingPixelOperation::operator()( ImageBlock &block )`. -/
def ProcessBlockUsingPixelOperation.call (op : Nat → Nat → Nat → Nat) (block : ImageBlock)
    (img : QImage) : QImage :=
  let b : Buffer :=
    forRange block.beginLine block.endLine
      (fun y b => ProcessBlockUsingPixelOperation.row op block.lineLength (img.scanLine y) y b)
      img.buffer
  { img with buffer := b }

/-! ## ProcessBlockUsingLineOperation -/

/-- What `ProcessBlockUsingLineOperation` needs of its `LineOperation` template
parameter: `direction()` and `operator()( QRgb *startRef, int lineLength, int bytesPerLine )`. -/
structure LineOperation where
  direction : LineOperationDirection
  call : Int → Int → Int → Buffer → Buffer

/-- The call `mOperation( ref, block.lineLength, bpl )`, logged in the trace. -/
def LineOperation.invoke (op : LineOperation) (ref : Int) (lineLength : Nat) (bpl : Int)
    (b : Buffer) : Buffer :=
  op.call ref (lineLength : Int) bpl (b.log (Event.lineOp ref (lineLength : Int) bpl))

/-- The method `ProcessBlockUsingLineOperation::operator()( ImageBlock &block )`. -/
def ProcessBlockUsingLineOperation.call (op : LineOperation) (block : ImageBlock)
    (img : QImage) : QImage :=
  let bpl : Int := (img.bytesPerLine : Int)
  if op.direction = LineOperationDirection.ByRow then
    let b : Buffer :=
      forRange block.beginLine block.endLine
        (fun y b => op.invoke (img.scanLine y) block.lineLength bpl b) img.buffer
    { img with buffer := b }
  else
    let st : Int × Buffer :=
      forRange block.beginLine block.endLine
        (fun _ (st : Int × Buffer) => (st.1 + 4, op.invoke st.1 block.lineLength bpl st.2))
        (img.scanLine 0 + 4 * (block.beginLine : Int), img.buffer)
    { img with buffer := st.2 }

/-! ## StackBlurLineOperation -/

/-- The value a 32-bit `int` holds for the exact result `x`: `x` itself when it lies in
`-2^31 .. 2^31 - 1`, otherwise `x` reduced modulo `2^32` into that range. -/
def wrapInt (x : Int) : Int := (x + 2147483648) % 4294967296 - 2147483648


/-- The class `StackBlurLineOperation`. -/
structure StackBlurLineOperation where
  mAlpha : Int
  mDirection : LineOperationDirection
  mForwardDirection : Bool
  mi1 : Int
  mi2 : Int

namespace StackBlurLineOperation

/-- The local variables `p` and `rgba` of `operator()`, with the image data. -/
structure Locals where
  p : Int
  rgba : Int → Int
  buffer : Buffer

/-- The statement `rgba[i] = p[i] << 4;`. -/
def seed (i : Int) (st : Locals) : Locals :=
  let r := st.buffer.read (st.p + i)
  { st with
    rgba := fun k => if k = i then r.1 <<< (4 : Int) else st.rgba k
    buffer := r.2.log (Event.rgba i) }

/-- The statement `p[i] = ( rgba[i] += ( ( p[i] << 4 ) - rgba[i] ) * mAlpha / 16 ) >> 4;`:
the difference, the product and the sum are `int` results. -/
def step (alpha : Int) (i : Int) (st : Locals) : Locals :=
  let r := st.buffer.read (st.p + i)
  let acc :=
    wrapInt (st.rgba i + (wrapInt (wrapInt ((r.1 <<< (4 : Int)) - st.rgba i) * alpha)).tdiv 16)
  { st with
    rgba := fun k => if k = i then acc else st.rgba k
    buffer := (r.2.log (Event.rgba i)).write (st.p + i) (acc >>> (4 : Nat)) }

/-- The method `operator()( QRgb *startRef, int lineLength, int bytesPerLine )`. -/
def call (op : StackBlurLineOperation) (startRef : Int) (lineLength : Int) (bytesPerLine : Int)
    (b : Buffer) : Buffer :=
  let p : Int := startRef
  let increment : Int := if op.mDirection = LineOperationDirection.ByRow then 4 else bytesPerLine
  let p : Int := if op.mForwardDirection then p else p + (lineLength - 1) * increment
  let increment : Int := if op.mForwardDirection then increment else -increment
  let st : Locals := forRangeInt op.mi1 (op.mi2 + 1) seed { p := p, rgba := fun _ => 0, buffer := b }
  let st : Locals := { st with p := st.p + increment }
  let st : Locals :=
    forRangeInt 1 lineLength
      (fun _ st =>
        let st := forRangeInt op.mi1 (op.mi2 + 1) (step op.mAlpha) st
        { st with p := st.p + increment })
      st
  st.buffer

/-- A `StackBlurLineOperation` as the `LineOperation` template argument. -/
def toLineOperation (op : StackBlurLineOperation) : LineOperation :=
  { direction := op.mDirection, call := op.call }

end StackBlurLineOperation

/-! ## Partitions -/

/-- The blocks `bs`, in order, cut the line range `[lo, hi)` into contiguous ranges
without gap or overlap, each block having line length `len`. -/
def IsPartition : List ImageBlock → Nat → Nat → Nat → Prop
  | [], lo, hi, _ => lo = hi
  | b :: bs, lo, hi, len =>
      b.beginLine = lo ∧ b.beginLine ≤ b.endLine ∧ b.lineLength = len ∧
        IsPartition bs b.endLine hi len

instance IsPartition.decidable : ∀ (bs : List ImageBlock) (lo hi len : Nat),
    Decidable (IsPartition bs lo hi len)
  | [], lo, hi, _ => inferInstanceAs (Decidable (lo = hi))
  | b :: bs, lo, hi, len =>
      have : Decidable (IsPartition bs b.endLine hi len) := IsPartition.decidable bs b.endLine hi len
      inferInstanceAs (Decidable (b.beginLine = lo ∧ b.beginLine ≤ b.endLine ∧ b.lineLength = len ∧
        IsPartition bs b.endLine hi len))

/-- The start pointer `ProcessBlockUsingLineOperation::operator()` passes for line `k`:
`scanLine(k)` by row, `scanLine(0) + 4 * k` by column. -/
def lineRef (dir : LineOperationDirection) (bpl : Nat) (k : Nat) : Int :=
  match dir with
  | LineOperationDirection.ByRow => (k : Int) * (bpl : Int)
  | LineOperationDirection.ByColumn => 4 * (k : Int)

/-! ## Footprints -/

/-- The function `f` acts within the byte set `S`: it leaves every byte outside `S`
unchanged, and the bytes of `S` after `f` are determined by the bytes of `S` before. -/
def Buffer.ActsWithin (S : Int → Prop) (f : Buffer → Buffer) : Prop :=
  (∀ b a, ¬ S a → (f b).bits a = b.bits a) ∧
  (∀ b b', (∀ a, S a → b.bits a = b'.bits a) → ∀ a, S a → (f b).bits a = (f b').bits a)

/-- The bytes of the rows `[lo, hi)`, padding included, of an image of row stride `bpl`. -/
def rowBytes (bpl lo hi : Nat) (a : Int) : Prop :=
  (lo : Int) * (bpl : Int) ≤ a ∧ a < (hi : Int) * (bpl : Int)

instance rowBytes.decidable (bpl lo hi : Nat) (a : Int) : Decidable (rowBytes bpl lo hi a) :=
  inferInstanceAs (Decidable ((lo : Int) * (bpl : Int) ≤ a ∧ a < (hi : Int) * (bpl : Int)))

/-- The bytes of the columns `[lo, hi)`, in every row, of an image of row stride `bpl`. -/
def columnBytes (bpl lo hi : Nat) (a : Int) : Prop :=
  4 * (lo : Int) ≤ a % (bpl : Int) ∧ a % (bpl : Int) < 4 * (hi : Int)

instance columnBytes.decidable (bpl lo hi : Nat) (a : Int) : Decidable (columnBytes bpl lo hi a) :=
  inferInstanceAs (Decidable (4 * (lo : Int) ≤ a % (bpl : Int) ∧ a % (bpl : Int) < 4 * (hi : Int)))

/-! ## The stack blur pass, seen from its first pixel -/

/-- The accumulator update `rgba[i] += ( ( p[i] << 4 ) - rgba[i] ) * mAlpha / 16`:
the new accumulator, from the old one `acc` and the byte `v` read at `p[i]`. -/
def StackBlurLineOperation.next (alpha acc v : Int) : Int :=
  wrapInt (acc + (wrapInt (wrapInt ((v <<< (4 : Int)) - acc) * alpha)).tdiv 16)

/-- The body of the loop over `j` in `StackBlurLineOperation::operator()`, with the
pointer step `p += increment` that ends it. -/
def StackBlurLineOperation.pixelStep (alpha mi1 mi2 increment : Int)
    (st : StackBlurLineOperation.Locals) : StackBlurLineOperation.Locals :=
  let st := forRangeInt mi1 (mi2 + 1) (StackBlurLineOperation.step alpha) st
  { st with p := st.p + increment }

/-- The pass of `StackBlurLineOperation::operator()` once the direction is resolved:
`p0` is the pointer to the pixel the accumulators are seeded from, `increment` the signed
pointer step. -/
def StackBlurLineOperation.pass (alpha mi1 mi2 p0 increment lineLength : Int) (b : Buffer) :
    Buffer :=
  let st : StackBlurLineOperation.Locals :=
    forRangeInt mi1 (mi2 + 1) StackBlurLineOperation.seed { p := p0, rgba := fun _ => 0, buffer := b }
  let st : StackBlurLineOperation.Locals := { st with p := st.p + increment }
  let st : StackBlurLineOperation.Locals :=
    forRangeInt 1 lineLength (fun _ st => StackBlurLineOperation.pixelStep alpha mi1 mi2 increment st) st
  st.buffer

/-- The unsigned pointer step of a pass: 4 bytes by row, one row stride by column. -/
def StackBlurLineOperation.stride (op : StackBlurLineOperation) (bytesPerLine : Int) : Int :=
  if op.mDirection = LineOperationDirection.ByRow then 4 else bytesPerLine

/-- The pointer to the pixel a pass starts from: the first pixel of the line when
forward, the last when backward. -/
def StackBlurLineOperation.start (op : StackBlurLineOperation) (startRef lineLength bytesPerLine : Int) :
    Int :=
  if op.mForwardDirection then startRef else startRef + (lineLength - 1) * op.stride bytesPerLine

/-- The signed pointer step of a pass. -/
def StackBlurLineOperation.increment (op : StackBlurLineOperation) (bytesPerLine : Int) : Int :=
  if op.mForwardDirection then op.stride bytesPerLine else -(op.stride bytesPerLine)

/-- Two images are the same buffer: same dimensions, same row stride, same bytes
(the traces of how they were produced may differ). -/
def QImage.SameBuffer (a b : QImage) : Prop :=
  a.width = b.width ∧ a.height = b.height ∧ a.bytesPerLine = b.bytesPerLine ∧
    a.buffer.bits = b.buffer.bits

/-- The line ranges of two blocks have no line in common. -/
def ImageBlock.Disjoint (a b : ImageBlock) : Prop :=
  ∀ k, ¬ ((a.beginLine ≤ k ∧ k < a.endLine) ∧ (b.beginLine ≤ k ∧ k < b.endLine))

/-! ## Traces -/

/-- The trace of `b'` is the trace of `b` followed by events that all satisfy `P`. -/
def Buffer.Appends (P : Event → Prop) (b b' : Buffer) : Prop :=
  ∃ evs : List Event, b'.trace = b.trace ++ evs ∧ ∀ e, e ∈ evs → P e

/-- The event is no write to the image data: neither a byte write nor a pixel operation. -/
def Event.IsNoWrite : Event → Prop
  | Event.write _ => False
  | Event.pixelOp _ _ _ => False
  | _ => True

/-! ## The recurrence of the specification -/

/-- The accumulator of the specification, for the channel values `inp 0, inp 1, ...` met
along the pass: `acc_0 = in_0 << 4` and
`acc_j = acc_(j-1) + ((in_j << 4) - acc_(j-1)) * alpha / 16`, the division truncating
toward zero. -/
def accSpec (alpha : Int) (inp : Nat → Int) : Nat → Int
  | 0 => inp 0 <<< (4 : Int)
  | j + 1 =>
      accSpec alpha inp j + (((inp (j + 1) <<< (4 : Int)) - accSpec alpha inp j) * alpha).tdiv 16

/-- The byte the specification stores for the accumulator `acc`: `(acc >> 4) mod 256`. -/
def accByte (acc : Int) : Nat := ((acc >>> (4 : Nat)) % 256).toNat

/-- The value fits a 32-bit `int`. -/
def FitsInt (x : Int) : Prop := -2147483648 ≤ x ∧ x ≤ 2147483647

instance FitsInt.decidable (x : Int) : Decidable (FitsInt x) :=
  inferInstanceAs (Decidable (-2147483648 ≤ x ∧ x ≤ 2147483647))

/-- The recurrence of the specification stays within `int` along the first `n` pixels:
for every `j` with `1 ≤ j < n` the difference `(in_j << 4) - acc_(j-1)`, its product by
`alpha` and the new accumulator `acc_j` fit a 32-bit `int`. -/
def RecurrenceFits (alpha : Int) (inp : Nat → Int) (n : Nat) : Prop :=
  ∀ j, j < n - 1 →
    FitsInt ((inp (j + 1) <<< (4 : Int)) - accSpec alpha inp j) ∧
    FitsInt (((inp (j + 1) <<< (4 : Int)) - accSpec alpha inp j) * alpha) ∧
    FitsInt (accSpec alpha inp (j + 1))

instance RecurrenceFits.decidable (alpha : Int) (inp : Nat → Int) (n : Nat) :
    Decidable (RecurrenceFits alpha inp n) :=
  inferInstanceAs (Decidable (∀ j, j < n - 1 →
    FitsInt ((inp (j + 1) <<< (4 : Int)) - accSpec alpha inp j) ∧
    FitsInt (((inp (j + 1) <<< (4 : Int)) - accSpec alpha inp j) * alpha) ∧
    FitsInt (accSpec alpha inp (j + 1))))

/-- The accumulator of the code after the `j`-th pixel met by a pass, for the channel
values `inp 0, inp 1, ...` met along the pass: seeded with `inp 0 << 4`, then updated by
`StackBlurLineOperation.next` at every pixel. -/
def accCode (alpha : Int) (inp : Nat → Int) : Nat → Int
  | 0 => inp 0 <<< (4 : Int)
  | j + 1 => StackBlurLineOperation.next alpha (accCode alpha inp j) (inp (j + 1))

/-- The byte the code leaves in the `j`-th pixel met by a pass, for the channel values
`inp 0, inp 1, ...` met along the pass: the first pixel keeps its value, pixel `j ≥ 1`
receives the low byte of `accCode >> 4`. -/
def channelCode (alpha : Int) (inp : Nat → Nat) (j : Nat) : Nat :=
  if j = 0 then inp 0 else accByte (accCode alpha (fun k => (inp k : Int)) j)

/-- The rank, in the order of a pass over a line of `n` pixels, of pixel `k` of the line:
`k` when the pass runs forward, `n - 1 - k` when it runs backward. -/
def StackBlurLineOperation.rank (op : StackBlurLineOperation) (n k : Nat) : Nat :=
  if op.mForwardDirection then k else n - 1 - k

/-! ## Lines of an image -/

/-- The number of lines an operation of direction `dir` has to process: the rows of the
image by row, its columns by column. -/
def QImage.lineCount (img : QImage) (dir : LineOperationDirection) : Nat :=
  match dir with
  | LineOperationDirection.ByRow => img.height
  | LineOperationDirection.ByColumn => img.width

/-- The number of pixels of a line of direction `dir`: the width of the image by row,
its height by column. -/
def QImage.lineLength (img : QImage) (dir : LineOperationDirection) : Nat :=
  match dir with
  | LineOperationDirection.ByRow => img.width
  | LineOperationDirection.ByColumn => img.height

/-! ## Concrete inputs -/

/-- An image of 2 columns and 4 rows without padding, byte `a` holding `37 * a mod 256`. -/
def exampleImage : QImage :=
  { width := 2, height := 4, bytesPerLine := 8,
    buffer := { bits := fun a => (a * 37 % 256).toNat, trace := [] } }

/-- A pixel operation that is a function of its arguments. -/
def examplePixelOp (pixel x y : Nat) : Nat := (pixel + 3 * x + 5 * y) % 4294967296

/-- A forward vertical pass on all four channels whose `alpha` makes the products leave
the range of `int`. -/
def exampleSteepBlur : StackBlurLineOperation :=
  { mAlpha := 1000003, mDirection := LineOperationDirection.ByColumn, mForwardDirection := true,
    mi1 := 0, mi2 := 3 }

/-- A forward horizontal pass on all four channels. -/
def exampleRowBlur : StackBlurLineOperation :=
  { mAlpha := 8, mDirection := LineOperationDirection.ByRow, mForwardDirection := true,
    mi1 := 0, mi2 := 3 }

/-- A backward vertical pass on all four channels. -/
def exampleColumnBlur : StackBlurLineOperation :=
  { mAlpha := 5, mDirection := LineOperationDirection.ByColumn, mForwardDirection := false,
    mi1 := 0, mi2 := 3 }

/-- A backward horizontal pass on the alpha channel alone (byte 3 of a pixel). -/
def exampleAlphaBlur : StackBlurLineOperation :=
  { mAlpha := 8, mDirection := LineOperationDirection.ByRow, mForwardDirection := false,
    mi1 := 3, mi2 := 3 }

/-- The bytes of `exampleImage` with every channel but channel 2 of each pixel cleared. -/
def exampleChannelBuffer : Buffer :=
  { bits := fun a => if a % 4 = 2 then exampleImage.buffer.bits a else 0, trace := [] }

/-! ## Bytes -/

/-- Every byte of the buffer is an `unsigned char`: a value below 256. -/
def Buffer.Valid (b : Buffer) : Prop := ∀ a, b.bits a < 256

/-- The locals of `StackBlurLineOperation::operator()` after the seeding of the
accumulators and the first `m` rounds of the loop over `j`. -/
def StackBlurLineOperation.stateAfter (op : StackBlurLineOperation)
    (startRef lineLength bytesPerLine : Int) (b : Buffer) (m : Nat) :
    StackBlurLineOperation.Locals :=
  forFromInt
    (fun _ st => StackBlurLineOperation.pixelStep op.mAlpha op.mi1 op.mi2
      (op.increment bytesPerLine) st)
    m 1
    { forRangeInt op.mi1 (op.mi2 + 1) StackBlurLineOperation.seed
        { p := op.start startRef lineLength bytesPerLine, rgba := fun _ => 0, buffer := b } with
      p := (forRangeInt op.mi1 (op.mi2 + 1) StackBlurLineOperation.seed
        { p := op.start startRef lineLength bytesPerLine, rgba := fun _ => 0, buffer := b }).p
          + op.increment bytesPerLine }

/-- A forward horizontal pass on all four channels with `alpha = 16`. -/
def exampleSharpBlur : StackBlurLineOperation :=
  { mAlpha := 16, mDirection := LineOperationDirection.ByRow, mForwardDirection := true,
    mi1 := 0, mi2 := 3 }

/-! ## Scan order -/

/-- The pixel operation calls of a block in row-major scan order: rows from `beginLine` to
`endLine - 1`, and in each row the columns from `0` to `lineLength - 1`, the pixel
`(x, y)` being at offset `y * bpl + 4 * x`. -/
def pixelScan (bpl : Nat) (block : ImageBlock) : List Event :=
  (List.range' block.beginLine (block.endLine - block.beginLine)).flatMap (fun y =>
    (List.range' 0 block.lineLength).map (fun (x : Nat) =>
      Event.pixelOp ((y : Int) * (bpl : Int) + 4 * (x : Int)) x y))

/-! ## Accesses within bounds -/

/-- The bytes `bits` with the pixels of a line in reverse order: the line has `n` pixels,
starts at `ref` and has its pixels `stride ≥ 4` bytes apart; the byte of channel `c < 4` of
pixel `k < n` becomes the byte of channel `c` of pixel `n - 1 - k`, every other byte stays. -/
def reverseLine (ref stride : Int) (n : Nat) (bits : Int → Nat) (a : Int) : Nat :=
  if 0 ≤ (a - ref) / stride ∧ (a - ref) / stride < (n : Int) ∧ (a - ref) % stride < 4 then
    bits (ref + ((n : Int) - 1 - (a - ref) / stride) * stride + (a - ref) % stride)
  else bits a

/-- The enum `FlipType`. -/
inductive FlipType
  | FlipHorizontal
  | FlipVertical
  deriving DecidableEq, Repr

/-- The class `FlipLineOperation`. -/
structure FlipLineOperation where
  mDirection : LineOperationDirection

/-- Modelled from the spec: the exchange of the pixel at `p` with the pixel at `q`, four
bytes each, the step of the "in-place swap-from-both-ends" of the flip, whose code is
missing; the bytes are copied as they are. -/
def FlipLineOperation.swapPixels (p q : Int) (b : Buffer) : Buffer :=
  { bits := fun c =>
      if p ≤ c ∧ c < p + 4 then b.bits (c - p + q)
      else if q ≤ c ∧ c < q + 4 then b.bits (c - q + p)
      else b.bits c
    trace := b.trace ++ (List.range 4).flatMap (fun (i : Nat) =>
      [Event.read (p + (i : Int)), Event.read (q + (i : Int)),
        Event.write (p + (i : Int)), Event.write (q + (i : Int))]) }

/-- Modelled from the spec: `FlipLineOperation::operator()( QRgb *startRef, int lineLength,
int bytesPerLine )`, whose body is missing from the header: it "reverses the pixel order
within" the line "via in-place swap-from-both-ends within the line", pixel `k` being
exchanged with pixel `lineLength - 1 - k` for every `k < lineLength / 2`; the pixels of the
line are 4 bytes apart by row and `bytesPerLine` bytes apart by column. -/
def FlipLineOperation.call (op : FlipLineOperation) (startRef : Int) (lineLength : Int)
    (bytesPerLine : Int) (b : Buffer) : Buffer :=
  let increment : Int := if op.mDirection = LineOperationDirection.ByRow then 4 else bytesPerLine
  forRangeInt 0 (lineLength / 2)
    (fun k b =>
      FlipLineOperation.swapPixels (startRef + k * increment)
        (startRef + (lineLength - 1 - k) * increment) b)
    b

/-- A `FlipLineOperation` as the `LineOperation` template argument. -/
def FlipLineOperation.toLineOperation (op : FlipLineOperation) : LineOperation :=
  { direction := op.mDirection, call := op.call }

/-- Modelled from the spec: `flipImage( QImage &image, FlipType type )`, whose body is
missing from the header: the flip is "a Line Operation that reverses the pixel order within
each row (horizontal flip) or, executed with the axis swapped, within each column (vertical
flip)"; it is run here on the single block of all the lines, which by the engine's
partition property is what any partition into blocks gives. -/
def flipImage (img : QImage) (type : FlipType) : QImage :=
  let dir : LineOperationDirection :=
    match type with
    | FlipType.FlipHorizontal => LineOperationDirection.ByRow
    | FlipType.FlipVertical => LineOperationDirection.ByColumn
  ProcessBlockUsingLineOperation.call (FlipLineOperation.mk dir).toLineOperation
    ⟨0, img.lineCount dir, img.lineLength dir⟩ img

/-- The bytes `bits` with the first `m` and the last `m` pixels of a line of `n` pixels
exchanged end for end: the state of the flip of the line after `m` exchanges. -/
def reversePart (ref stride : Int) (n m : Nat) (bits : Int → Nat) (a : Int) : Nat :=
  if 0 ≤ (a - ref) / stride ∧ (a - ref) / stride < (n : Int) ∧ (a - ref) % stride < 4 ∧
      ((a - ref) / stride < (m : Int) ∨ (n : Int) - (m : Int) ≤ (a - ref) / stride) then
    bits (ref + ((n : Int) - 1 - (a - ref) / stride) * stride + (a - ref) % stride)
  else bits a

/-- The pointer step of the flip: 4 bytes by row, one row stride by column. -/
def FlipLineOperation.stride (op : FlipLineOperation) (bytesPerLine : Int) : Int :=
  if op.mDirection = LineOperationDirection.ByRow then 4 else bytesPerLine

/-! ## Distance transform of a line

The header declares `distanceTransform1d( double *f, int n, int *v, double *z, double *d )`
without its body; it is modelled from the specification, the `double` values being exact
rationals. -/

/-- Modelled from the spec: the scratch arrays of `distanceTransform1d` (its body is not in
the header), the "winning source indices `v[]`" and the "break-points `z[]`": `v[0..k]` are the indices of the parabolas
of the lower envelope, `z[j]` and `z[j+1]` the break-points between which parabola `v[j]`
is the lowest. -/
structure Envelope where
  k : Nat
  v : Nat → Nat
  z : Nat → ℚ

/-- Modelled from the spec: the "parabola intersection point" of the parabolas rooted at
`p` and at `q`, the abscissa where `f(p) + (x-p)²` and `f(q) + (x-q)²` meet. -/
def parabolaIntersection (f : Nat → ℚ) (p q : Nat) : ℚ :=
  ((f q + (q : ℚ) ^ 2) - (f p + (p : ℚ) ^ 2)) / (2 * (q : ℚ) - 2 * (p : ℚ))

/-- Modelled from the spec: the loop that removes from the "monotonic sequence" the
parabolas the new parabola `q` hides, `while (s <= z[k]) k--`; `none` when `k` would run
below 0, which the sentinel `z[0] = -INF` is there to exclude. -/
def lowerIndex (f : Nat → ℚ) (v : Nat → Nat) (z : Nat → ℚ) (q : Nat) : Nat → Option Nat
  | 0 => if parabolaIntersection f (v 0) q ≤ z 0 then none else some 0
  | k + 1 =>
      if parabolaIntersection f (v (k + 1)) q ≤ z (k + 1) then lowerIndex f v z q k
      else some (k + 1)

/-- Modelled from the spec: the scratch arrays before the first parabola is added:
`k = 0`, `v[0] = 0`, `z[0] = -INF`, `z[1] = +INF`. -/
def Envelope.init (inf : ℚ) : Envelope :=
  { k := 0, v := fun _ => 0, z := fun j => if j = 0 then -inf else inf }

/-- Modelled from the spec: one round of the construction of the lower envelope: the
parabolas hidden by parabola `q` are removed, then `q` is appended with its break-point,
`k++; v[k] = q; z[k] = s; z[k+1] = +INF`. -/
def Envelope.insert (inf : ℚ) (f : Nat → ℚ) (q : Nat) (e : Envelope) : Option Envelope :=
  (lowerIndex f e.v e.z q e.k).map (fun k =>
    { k := k + 1
      v := fun j => if j = k + 1 then q else e.v j
      z := fun j =>
        if j = k + 1 then parabolaIntersection f (e.v k) q
        else if j = k + 2 then inf
        else e.z j })

/-- Modelled from the spec: the lower envelope of the parabolas of `f[0..n-1]`. -/
def envelope (inf : ℚ) (f : Nat → ℚ) (n : Nat) : Option Envelope :=
  forRange 1 n (fun q st => st.bind (Envelope.insert inf f q)) (some (Envelope.init inf))

/-- Modelled from the spec: the loop that moves to the parabola that is the lowest at `q`,
`while (z[k+1] < q) k++`, from index `k` with `fuel` parabolas above it; `none` when `k`
would run past the last parabola, which the sentinel `z[k+1] = +INF` is there to exclude. -/
def raiseIndex (z : Nat → ℚ) (q : Nat) : Nat → Nat → Option Nat
  | 0, k => if z (k + 1) < (q : ℚ) then none else some k
  | fuel + 1, k => if z (k + 1) < (q : ℚ) then raiseIndex z q fuel (k + 1) else some k

/-- Modelled from the spec: `distanceTransform1d`, the "classic lower-envelope-of-parabolas
method": the envelope is built by "maintaining a monotonic sequence of parabola intersection
points (break-points `z[]`) and the set of winning source indices `v[]`", then every output
index `q` receives `(q - v[k])² + f[v[k]]` for the parabola `v[k]` that is the lowest at
`q`.  `inf` is the sentinel `INF`; the result is `none` when a scratch index leaves its
array. -/
def distanceTransform1d (inf : ℚ) (f : Nat → ℚ) (n : Nat) : Option (Nat → ℚ) :=
  (envelope inf f n).bind (fun e =>
    (forRange 0 n
      (fun q st => st.bind (fun (kd : Nat × (Nat → ℚ)) =>
        (raiseIndex e.z q (e.k - kd.1) kd.1).map (fun k =>
          (k, fun i => if i = q then ((q : ℚ) - (e.v k : ℚ)) ^ 2 + f (e.v k) else kd.2 i))))
      (some (0, fun _ => 0))).map Prod.snd)

/-- The least of `g 0, ..., g m`. -/
def minUpTo (g : Nat → ℚ) : Nat → ℚ
  | 0 => g 0
  | m + 1 => min (minUpTo g m) (g (m + 1))

/-- The reference of the specification: "the minimum over input indices `p` of
`f(p) + (q-p)²`", for a field of length `n ≥ 1`. -/
def distanceReference (f : Nat → ℚ) (n q : Nat) : ℚ :=
  minUpTo (fun p => f p + ((q : ℚ) - (p : ℚ)) ^ 2) (n - 1)

/-- The parabola rooted at `p` less the term `x²` common to all: the line
`f(p) + p² - 2 p x`. -/
def envelopeLine (f : Nat → ℚ) (p : Nat) (x : ℚ) : ℚ :=
  f p + (p : ℚ) ^ 2 - 2 * (p : ℚ) * x

/-- A field with two sources, at 1 and at 4, among six cells. -/
def exampleField (p : Nat) : ℚ := if p = 1 ∨ p = 4 then 0 else 1000

/-- The invariant of the construction of the lower envelope once the parabolas `0..q-1`
are in: the sentinels stand at both ends, the break-points increase, and between `z[j]`
and `z[j+1]` (and below the sentinel) parabola `v[j]` is the lowest of all. -/
def Envelope.Lowest (inf : ℚ) (f : Nat → ℚ) (q : Nat) (e : Envelope) : Prop :=
  e.z 0 = -inf ∧ e.z (e.k + 1) = inf ∧ (∀ j, j ≤ e.k → e.v j < q) ∧
  (∀ j, j < e.k → e.z j ≤ e.z (j + 1)) ∧
  ∀ j, j ≤ e.k → ∀ x, e.z j ≤ x → x ≤ e.z (j + 1) → x ≤ inf → ∀ p, p < q →
    envelopeLine f (e.v j) x ≤ envelopeLine f p x

/-! ## Arithmetic of the pass -/

/-- The shift `v << 4` of an `int` is the product by 16. -/
theorem shiftLeft_four (v : Int) : v <<< (4 : Int) = v * 16 := by
  have := Int.shiftLeft_eq_mul_pow v 4
  simpa using this

/-- The shift `v >> 4` of an `int` is the quotient by 16 rounded down (arithmetic shift). -/
theorem shiftRight_four (v : Int) : v >>> (4 : Nat) = v / 16 := by
  have := Int.shiftRight_eq_div_pow v 4
  simpa using this

/-- The accumulator update in plain arithmetic; `tdiv` truncates toward zero as the
division of two `int` does. -/
theorem StackBlurLineOperation.next_eq (alpha acc v : Int) :
    StackBlurLineOperation.next alpha acc v
      = wrapInt (acc + (wrapInt (wrapInt (v * 16 - acc) * alpha)).tdiv 16) := by
  unfold StackBlurLineOperation.next
  rw [shiftLeft_four]

/-- A value within the range of `int` is the value the `int` holds. -/
theorem wrapInt_of_fits (x : Int) (h : FitsInt x) : wrapInt x = x := by
  unfold FitsInt at h
  unfold wrapInt
  omega

/-- The `int` held for any exact result is within the range of `int`. -/
theorem fitsInt_wrapInt (x : Int) : FitsInt (wrapInt x) := by
  unfold FitsInt wrapInt
  omega

/-! ## Loop lemmas -/

theorem forFrom_add {σ : Type} (body : Nat → σ → σ) (m n i : Nat) (s : σ) :
    forFrom body (m + n) i s = forFrom body n (i + m) (forFrom body m i s) := by
  induction m generalizing i s with
  | zero => simp [forFrom]
  | succ m ih =>
    have h : m + 1 + n = (m + n) + 1 := by omega
    rw [h]
    simp only [forFrom]
    rw [ih]
    congr 1
    omega

theorem forRange_split {σ : Type} (lo mid hi : Nat) (h1 : lo ≤ mid) (h2 : mid ≤ hi)
    (body : Nat → σ → σ) (s : σ) :
    forRange lo hi body s = forRange mid hi body (forRange lo mid body s) := by
  unfold forRange
  have h : hi - lo = (mid - lo) + (hi - mid) := by omega
  rw [h, forFrom_add]
  congr 1
  omega

theorem forRange_empty {σ : Type} (lo hi : Nat) (h : hi ≤ lo) (body : Nat → σ → σ) (s : σ) :
    forRange lo hi body s = s := by
  unfold forRange
  have h0 : hi - lo = 0 := by omega
  rw [h0]
  rfl

/-- The loop rule of `for (i = lo; i < hi; ++i)`: test, body, increment. -/
theorem forRange_unfold {σ : Type} (lo hi : Nat) (body : Nat → σ → σ) (s : σ) :
    forRange lo hi body s = if lo < hi then forRange (lo + 1) hi body (body lo s) else s := by
  by_cases h : lo < hi
  · rw [if_pos h]
    unfold forRange
    have h1 : hi - lo = (hi - (lo + 1)) + 1 := by omega
    rw [h1]
    rfl
  · rw [if_neg h]
    exact forRange_empty lo hi (by omega) body s

theorem forFrom_induction {σ : Type} (body : Nat → σ → σ) (Inv : Nat → σ → Prop) (n i : Nat)
    (s : σ) (h0 : Inv 0 s)
    (hstep : ∀ k t, k < n → Inv k t → Inv (k + 1) (body (i + k) t)) :
    Inv n (forFrom body n i s) := by
  induction n generalizing i s Inv with
  | zero => exact h0
  | succ n ih =>
    simp only [forFrom]
    apply ih (fun k t => Inv (k + 1) t)
    · have := hstep 0 s (by omega) h0
      simpa using this
    · intro k t hk hinv
      have := hstep (k + 1) t (by omega) hinv
      have e : i + (k + 1) = i + 1 + k := by omega
      rw [e] at this
      exact this

theorem forRange_induction {σ : Type} (lo hi : Nat) (body : Nat → σ → σ) (Inv : Nat → σ → Prop)
    (s : σ) (h0 : Inv lo s)
    (hstep : ∀ k t, lo ≤ k → k < hi → Inv k t → Inv (k + 1) (body k t)) :
    Inv (max lo hi) (forRange lo hi body s) := by
  unfold forRange
  have h := forFrom_induction body (fun k t => Inv (lo + k) t) (hi - lo) lo s (by simpa using h0)
    (by
      intro k t hk hinv
      have := hstep (lo + k) t (by omega) (by omega) hinv
      simpa [Nat.add_assoc] using this)
  have e : lo + (hi - lo) = max lo hi := by omega
  simpa [e] using h

theorem forFromInt_induction {σ : Type} (body : Int → σ → σ) (Inv : Nat → σ → Prop) (n : Nat)
    (i : Int) (s : σ) (h0 : Inv 0 s)
    (hstep : ∀ (k : Nat) t, k < n → Inv k t → Inv (k + 1) (body (i + (k : Int)) t)) :
    Inv n (forFromInt body n i s) := by
  induction n generalizing i s Inv with
  | zero => exact h0
  | succ n ih =>
    simp only [forFromInt]
    apply ih (fun k t => Inv (k + 1) t)
    · have := hstep 0 s (by omega) h0
      simpa using this
    · intro k t hk hinv
      have := hstep (k + 1) t (by omega) hinv
      have e : i + ((k + 1 : Nat) : Int) = i + 1 + (k : Int) := by push_cast; ring
      rw [e] at this
      exact this


/-! ## Partitioned execution -/

theorem IsPartition.le {bs : List ImageBlock} {lo hi len : Nat} (h : IsPartition bs lo hi len) :
    lo ≤ hi := by
  induction bs generalizing lo with
  | nil => exact Nat.le_of_eq h
  | cons b bs ih =>
    obtain ⟨h1, h2, _, h4⟩ := h
    have := ih h4
    omega

theorem ProcessBlockUsingPixelOperation.pixelCall_empty (op : Nat → Nat → Nat → Nat)
    (block : ImageBlock) (img : QImage) (h : block.endLine ≤ block.beginLine) :
    ProcessBlockUsingPixelOperation.call op block img = img := by
  unfold ProcessBlockUsingPixelOperation.call
  simp only [forRange_empty _ _ h]

theorem ProcessBlockUsingPixelOperation.pixelCall_split (op : Nat → Nat → Nat → Nat)
    (lo mid hi len : Nat) (h1 : lo ≤ mid) (h2 : mid ≤ hi) (img : QImage) :
    ProcessBlockUsingPixelOperation.call op ⟨mid, hi, len⟩
        (ProcessBlockUsingPixelOperation.call op ⟨lo, mid, len⟩ img)
      = ProcessBlockUsingPixelOperation.call op ⟨lo, hi, len⟩ img := by
  unfold ProcessBlockUsingPixelOperation.call
  simp only [QImage.scanLine]
  rw [forRange_split lo mid hi h1 h2]

theorem ProcessBlockUsingPixelOperation.pixelFoldl_partition (op : Nat → Nat → Nat → Nat)
    (blocks : List ImageBlock) (lo hi len : Nat) (img : QImage)
    (h : IsPartition blocks lo hi len) :
    blocks.foldl (fun im b => ProcessBlockUsingPixelOperation.call op b im) img
      = ProcessBlockUsingPixelOperation.call op ⟨lo, hi, len⟩ img := by
  induction blocks generalizing lo img with
  | nil =>
    have e : lo = hi := h
    subst e
    rw [List.foldl_nil, ProcessBlockUsingPixelOperation.pixelCall_empty op _ img (le_refl _)]
  | cons b bs ih =>
    obtain ⟨bl, be, bn⟩ := b
    obtain ⟨h1, h2, h3, h4⟩ := h
    simp only at h1 h2 h3 h4
    subst h1 h3
    rw [List.foldl_cons, ih be _ h4]
    exact ProcessBlockUsingPixelOperation.pixelCall_split op bl be hi bn h2 (IsPartition.le h4) img


theorem columnLoop_eq (op : LineOperation) (len : Nat) (bpl : Int) (n i : Nat) (r : Int)
    (b : Buffer) :
    forFrom (fun _ (st : Int × Buffer) => (st.1 + 4, op.invoke st.1 len bpl st.2)) n i
        (r + 4 * (i : Int), b)
      = (r + 4 * ((i + n : Nat) : Int),
          forFrom (fun x b => op.invoke (r + 4 * (x : Int)) len bpl b) n i b) := by
  induction n generalizing i b with
  | zero => simp [forFrom]
  | succ n ih =>
    simp only [forFrom]
    have e : r + 4 * (i : Int) + 4 = r + 4 * ((i + 1 : Nat) : Int) := by push_cast; ring
    rw [e, ih]
    have e2 : i + 1 + n = i + (n + 1) := by omega
    rw [e2]

/-- Both branches of `ProcessBlockUsingLineOperation::operator()` as one loop over the
lines of the block, line `k` being processed from the start pointer `lineRef k`. -/
theorem ProcessBlockUsingLineOperation.call_eq (op : LineOperation) (block : ImageBlock)
    (img : QImage) :
    ProcessBlockUsingLineOperation.call op block img
      = { img with buffer :=
            forRange block.beginLine block.endLine (fun k b =>
              op.invoke (lineRef op.direction img.bytesPerLine k) block.lineLength
                (img.bytesPerLine : Int) b) img.buffer } := by
  unfold ProcessBlockUsingLineOperation.call
  cases hd : op.direction with
  | ByRow => simp [lineRef, QImage.scanLine]
  | ByColumn =>
    simp only [lineRef, QImage.scanLine, forRange]
    have h := columnLoop_eq op block.lineLength (img.bytesPerLine : Int)
      (block.endLine - block.beginLine) block.beginLine 0 img.buffer
    simp only [zero_add] at h
    simp [h]

theorem ProcessBlockUsingLineOperation.lineCall_empty (op : LineOperation)
    (block : ImageBlock) (img : QImage) (h : block.endLine ≤ block.beginLine) :
    ProcessBlockUsingLineOperation.call op block img = img := by
  rw [ProcessBlockUsingLineOperation.call_eq]
  simp only [forRange_empty _ _ h]

theorem ProcessBlockUsingLineOperation.lineCall_split (op : LineOperation)
    (lo mid hi len : Nat) (h1 : lo ≤ mid) (h2 : mid ≤ hi) (img : QImage) :
    ProcessBlockUsingLineOperation.call op ⟨mid, hi, len⟩
        (ProcessBlockUsingLineOperation.call op ⟨lo, mid, len⟩ img)
      = ProcessBlockUsingLineOperation.call op ⟨lo, hi, len⟩ img := by
  simp only [ProcessBlockUsingLineOperation.call_eq]
  rw [forRange_split lo mid hi h1 h2]

theorem ProcessBlockUsingLineOperation.lineFoldl_partition (op : LineOperation)
    (blocks : List ImageBlock) (lo hi len : Nat) (img : QImage)
    (h : IsPartition blocks lo hi len) :
    blocks.foldl (fun im b => ProcessBlockUsingLineOperation.call op b im) img
      = ProcessBlockUsingLineOperation.call op ⟨lo, hi, len⟩ img := by
  induction blocks generalizing lo img with
  | nil =>
    have e : lo = hi := h
    subst e
    rw [List.foldl_nil, ProcessBlockUsingLineOperation.lineCall_empty op _ img (le_refl _)]
  | cons b bs ih =>
    obtain ⟨bl, be, bn⟩ := b
    obtain ⟨h1, h2, h3, h4⟩ := h
    simp only at h1 h2 h3 h4
    subst h1 h3
    rw [List.foldl_cons, ih be _ h4]
    exact ProcessBlockUsingLineOperation.lineCall_split op bl be hi bn h2 (IsPartition.le h4) img


/-! ## Footprint lemmas -/

theorem Buffer.ActsWithin.mono {S T : Int → Prop} {f : Buffer → Buffer}
    (h : Buffer.ActsWithin S f) (hST : ∀ a, S a → T a) : Buffer.ActsWithin T f := by
  refine ⟨fun b a ha => h.1 b a (fun hs => ha (hST a hs)), ?_⟩
  intro b b' hag a _
  by_cases hs : S a
  · exact h.2 b b' (fun c hc => hag c (hST c hc)) a hs
  · rw [h.1 b a hs, h.1 b' a hs]
    exact hag a ‹T a›

theorem Buffer.ActsWithin.comp {S : Int → Prop} {f g : Buffer → Buffer}
    (hf : Buffer.ActsWithin S f) (hg : Buffer.ActsWithin S g) :
    Buffer.ActsWithin S (fun b => g (f b)) := by
  refine ⟨fun b a ha => ?_, fun b b' hag a ha => ?_⟩
  · show (g (f b)).bits a = b.bits a
    rw [hg.1 _ a ha, hf.1 b a ha]
  · exact hg.2 _ _ (fun c hc => hf.2 b b' hag c hc) a ha

theorem Buffer.ActsWithin.forFrom {S : Int → Prop} (body : Nat → Buffer → Buffer) (n i : Nat)
    (h : ∀ k, k < n → Buffer.ActsWithin S (body (i + k))) :
    Buffer.ActsWithin S (forFrom body n i) := by
  induction n generalizing i with
  | zero => exact ⟨fun _ _ _ => rfl, fun _ _ hag a ha => hag a ha⟩
  | succ n ih =>
    have h0 : Buffer.ActsWithin S (body i) := by simpa using h 0 (by omega)
    have h1 : Buffer.ActsWithin S (QgsImageOperation.forFrom body n (i + 1)) := by
      apply ih
      intro k hk
      have := h (k + 1) (by omega)
      have e : i + (k + 1) = i + 1 + k := by omega
      rwa [e] at this
    show Buffer.ActsWithin S (fun b => QgsImageOperation.forFrom body n (i + 1) (body i b))
    exact Buffer.ActsWithin.comp h0 h1

theorem Buffer.ActsWithin.forRange {S : Int → Prop} (body : Nat → Buffer → Buffer) (lo hi : Nat)
    (h : ∀ k, lo ≤ k → k < hi → Buffer.ActsWithin S (body k)) :
    Buffer.ActsWithin S (forRange lo hi body) := by
  apply Buffer.ActsWithin.forFrom
  intro k hk
  exact h (lo + k) (by omega) (by omega)

/-- Two functions acting within disjoint byte sets commute on the bytes. -/
theorem Buffer.ActsWithin.commute_of_disjoint {S T : Int → Prop} {f g : Buffer → Buffer}
    (hf : Buffer.ActsWithin S f) (hg : Buffer.ActsWithin T g) (hdisj : ∀ a, S a → ¬ T a)
    (b : Buffer) : (f (g b)).bits = (g (f b)).bits := by
  funext a
  by_cases hs : S a
  · have ht : ¬ T a := hdisj a hs
    rw [hg.1 (f b) a ht]
    exact hf.2 (g b) b (fun c hc => hg.1 b c (hdisj c hc)) a hs
  · rw [hf.1 (g b) a hs]
    by_cases ht : T a
    · exact hg.2 b (f b) (fun c hc => (hf.1 b c (fun hsc => hdisj c hsc hc)).symm) a ht
    · rw [hg.1 b a ht, hg.1 (f b) a ht, hf.1 b a hs]

theorem Buffer.ActsWithin.of_log (S : Int → Prop) (e : Event) :
    Buffer.ActsWithin S (fun b => b.log e) :=
  ⟨fun _ _ _ => rfl, fun _ _ hag a ha => hag a ha⟩

theorem Buffer.ActsWithin.applyPixelOp (S : Int → Prop) (op : Nat → Nat → Nat → Nat) (a : Int)
    (x y : Nat) (h0 : S a) (h1 : S (a + 1)) (h2 : S (a + 2)) (h3 : S (a + 3)) :
    Buffer.ActsWithin S (Buffer.applyPixelOp op a x y) := by
  refine ⟨fun b c hc => ?_, fun b b' hag c hc => ?_⟩
  · have n0 : c ≠ a := fun e => hc (e ▸ h0)
    have n1 : c ≠ a + 1 := fun e => hc (e ▸ h1)
    have n2 : c ≠ a + 2 := fun e => hc (e ▸ h2)
    have n3 : c ≠ a + 3 := fun e => hc (e ▸ h3)
    simp [Buffer.applyPixelOp, Buffer.setPixel, Buffer.log, n0, n1, n2, n3]
  · have hp : b.pixel a = b'.pixel a := by
      simp only [Buffer.pixel, hag a h0, hag _ h1, hag _ h2, hag _ h3]
    simp only [Buffer.applyPixelOp, Buffer.setPixel, Buffer.log, hp, hag c hc]


/-! ## The stack blur pass -/

theorem StackBlurLineOperation.call_eq_pass (op : StackBlurLineOperation)
    (startRef lineLength bytesPerLine : Int) (b : Buffer) :
    op.call startRef lineLength bytesPerLine b
      = StackBlurLineOperation.pass op.mAlpha op.mi1 op.mi2
          (op.start startRef lineLength bytesPerLine) (op.increment bytesPerLine) lineLength b := by
  rfl

theorem forRangeInt_induction {σ : Type} (lo hi : Int) (body : Int → σ → σ)
    (Inv : Int → σ → Prop) (s : σ) (h0 : Inv lo s)
    (hstep : ∀ k t, lo ≤ k → k < hi → Inv k t → Inv (k + 1) (body k t)) :
    Inv (max lo hi) (forRangeInt lo hi body s) := by
  unfold forRangeInt
  have h := forFromInt_induction body (fun k t => Inv (lo + (k : Int)) t) (hi - lo).toNat lo s
    (by simpa using h0)
    (by
      intro k t hk hinv
      have := hstep (lo + (k : Int)) t (by omega) (by omega) hinv
      have e : lo + ((k + 1 : Nat) : Int) = lo + (k : Int) + 1 := by push_cast; ring
      rw [e]
      exact this)
  have e : lo + (((hi - lo).toNat : Nat) : Int) = max lo hi := by omega
  rw [← e]
  exact h

/-- Effect of the seeding loop `for i in mi1..mi2: rgba[i] = p[i] << 4`. -/
theorem StackBlurLineOperation.seedLoop_spec (mi1 mi2 : Int) (st : StackBlurLineOperation.Locals) :
    let st' := forRangeInt mi1 (mi2 + 1) StackBlurLineOperation.seed st
    st'.p = st.p ∧ st'.buffer.bits = st.buffer.bits ∧
      ∀ i, st'.rgba i
        = if mi1 ≤ i ∧ i ≤ mi2 then (st.buffer.bits (st.p + i) : Int) <<< (4 : Int) else st.rgba i := by
  have h := forRangeInt_induction mi1 (mi2 + 1) StackBlurLineOperation.seed
    (fun k t => t.p = st.p ∧ t.buffer.bits = st.buffer.bits ∧
      ∀ i, t.rgba i
        = if mi1 ≤ i ∧ i < k then (st.buffer.bits (st.p + i) : Int) <<< (4 : Int) else st.rgba i)
    st
    (by
      refine ⟨rfl, rfl, fun i => ?_⟩
      rw [if_neg (by omega)])
    (by
      intro k t hk1 hk2 ⟨hp, hb, hr⟩
      refine ⟨hp, ?_, fun i => ?_⟩
      · simpa [StackBlurLineOperation.seed, Buffer.read, Buffer.log] using hb
      · simp only [StackBlurLineOperation.seed, Buffer.read, hp, hb]
        by_cases hik : i = k
        · subst hik
          rw [if_pos rfl, if_pos (by omega)]
        · rw [if_neg hik, hr i]
          by_cases hc : mi1 ≤ i ∧ i < k
          · rw [if_pos hc, if_pos (by omega)]
          · rw [if_neg hc, if_neg (by omega)])
  obtain ⟨hp, hb, hr⟩ := h
  refine ⟨hp, hb, fun i => ?_⟩
  rw [hr i]
  by_cases hc : mi1 ≤ i ∧ i ≤ mi2
  · rw [if_pos hc, if_pos (by omega)]
  · rw [if_neg hc, if_neg (by omega)]


/-- Effect of the channel loop of one pixel:
`for i in mi1..mi2: p[i] = ( rgba[i] += ( ( p[i] << 4 ) - rgba[i] ) * mAlpha / 16 ) >> 4`. -/
theorem StackBlurLineOperation.stepLoop_spec (alpha mi1 mi2 : Int)
    (st : StackBlurLineOperation.Locals) :
    let st' := forRangeInt mi1 (mi2 + 1) (StackBlurLineOperation.step alpha) st
    st'.p = st.p ∧
      (∀ i, st'.rgba i
        = if mi1 ≤ i ∧ i ≤ mi2 then
            StackBlurLineOperation.next alpha (st.rgba i) (st.buffer.bits (st.p + i))
          else st.rgba i) ∧
      (∀ a, st'.buffer.bits a
        = if mi1 ≤ a - st.p ∧ a - st.p ≤ mi2 then
            ((StackBlurLineOperation.next alpha (st.rgba (a - st.p)) (st.buffer.bits a)
              >>> (4 : Nat)) % 256).toNat
          else st.buffer.bits a) := by
  have h := forRangeInt_induction mi1 (mi2 + 1) (StackBlurLineOperation.step alpha)
    (fun k t => t.p = st.p ∧
      (∀ i, t.rgba i
        = if mi1 ≤ i ∧ i < k then
            StackBlurLineOperation.next alpha (st.rgba i) (st.buffer.bits (st.p + i))
          else st.rgba i) ∧
      (∀ a, t.buffer.bits a
        = if mi1 ≤ a - st.p ∧ a - st.p < k then
            ((StackBlurLineOperation.next alpha (st.rgba (a - st.p)) (st.buffer.bits a)
              >>> (4 : Nat)) % 256).toNat
          else st.buffer.bits a))
    st
    (by
      refine ⟨rfl, fun i => ?_, fun a => ?_⟩
      · rw [if_neg (by omega)]
      · rw [if_neg (by omega)])
    (by
      intro k t hk1 hk2 ⟨hp, hr, hb⟩
      have hrk : t.rgba k = st.rgba k := by rw [hr k, if_neg (by omega)]
      have hbk : t.buffer.bits (st.p + k) = st.buffer.bits (st.p + k) := by
        rw [hb (st.p + k), if_neg (by omega)]
      refine ⟨hp, fun i => ?_, fun a => ?_⟩
      · simp only [StackBlurLineOperation.step, Buffer.read, hp, hbk, hrk]
        by_cases hik : i = k
        · subst hik
          rw [if_pos rfl, if_pos (by omega)]
          rfl
        · rw [if_neg hik, hr i]
          by_cases hc : mi1 ≤ i ∧ i < k
          · rw [if_pos hc, if_pos (by omega)]
          · rw [if_neg hc, if_neg (by omega)]
      · simp only [StackBlurLineOperation.step, Buffer.read, Buffer.write, Buffer.log, hp, hbk, hrk]
        by_cases hak : a = st.p + k
        · subst hak
          have e : st.p + k - st.p = k := by ring
          rw [if_pos rfl, e, if_pos (by omega)]
          rfl
        · rw [if_neg hak, hb a]
          by_cases hc : mi1 ≤ a - st.p ∧ a - st.p < k
          · rw [if_pos hc, if_pos (by omega)]
          · rw [if_neg hc, if_neg (by omega)])
  obtain ⟨hp, hr, hb⟩ := h
  have hm : ∀ x : Int, (mi1 ≤ x ∧ x < max mi1 (mi2 + 1)) ↔ (mi1 ≤ x ∧ x ≤ mi2) := by
    intro x
    omega
  refine ⟨hp, fun i => ?_, fun a => ?_⟩
  · rw [hr i]
    simp only [hm]
  · rw [hb a]
    simp only [hm]


theorem forFromInt_induction₂ {σ : Type} (body : Int → σ → σ) (R : Nat → σ → σ → Prop) (n : Nat)
    (i : Int) (s s' : σ) (h0 : R 0 s s')
    (hstep : ∀ (k : Nat) t t', k < n → R k t t' →
      R (k + 1) (body (i + (k : Int)) t) (body (i + (k : Int)) t')) :
    R n (forFromInt body n i s) (forFromInt body n i s') := by
  induction n generalizing i s s' R with
  | zero => exact h0
  | succ n ih =>
    simp only [forFromInt]
    apply ih (fun k t t' => R (k + 1) t t')
    · have := hstep 0 s s' (by omega) h0
      simpa using this
    · intro k t t' hk hinv
      have := hstep (k + 1) t t' (by omega) hinv
      have e : i + ((k + 1 : Nat) : Int) = i + 1 + (k : Int) := by push_cast; ring
      rw [e] at this
      exact this

theorem forRangeInt_induction₂ {σ : Type} (lo hi : Int) (body : Int → σ → σ)
    (R : Int → σ → σ → Prop) (s s' : σ) (h0 : R lo s s')
    (hstep : ∀ k t t', lo ≤ k → k < hi → R k t t' → R (k + 1) (body k t) (body k t')) :
    R (max lo hi) (forRangeInt lo hi body s) (forRangeInt lo hi body s') := by
  unfold forRangeInt
  have h := forFromInt_induction₂ body (fun k t t' => R (lo + (k : Int)) t t') (hi - lo).toNat lo
    s s' (by simpa using h0)
    (by
      intro k t t' hk hinv
      have := hstep (lo + (k : Int)) t t' (by omega) (by omega) hinv
      have e : lo + ((k + 1 : Nat) : Int) = lo + (k : Int) + 1 := by push_cast; ring
      rw [e]
      exact this)
  have e : lo + (((hi - lo).toNat : Nat) : Int) = max lo hi := by omega
  rw [← e]
  exact h

theorem forRangeInt_empty {σ : Type} (lo hi : Int) (h : hi ≤ lo) (body : Int → σ → σ) (s : σ) :
    forRangeInt lo hi body s = s := by
  unfold forRangeInt
  have h0 : (hi - lo).toNat = 0 := by omega
  rw [h0]
  rfl

/-- Effect of the body of the loop over `j` on the locals and on the bytes. -/
theorem StackBlurLineOperation.pixelStep_spec (alpha mi1 mi2 inc : Int)
    (st : StackBlurLineOperation.Locals) :
    let st' := StackBlurLineOperation.pixelStep alpha mi1 mi2 inc st
    st'.p = st.p + inc ∧
      (∀ i, st'.rgba i
        = if mi1 ≤ i ∧ i ≤ mi2 then
            StackBlurLineOperation.next alpha (st.rgba i) (st.buffer.bits (st.p + i))
          else st.rgba i) ∧
      (∀ a, st'.buffer.bits a
        = if mi1 ≤ a - st.p ∧ a - st.p ≤ mi2 then
            ((StackBlurLineOperation.next alpha (st.rgba (a - st.p)) (st.buffer.bits a)
              >>> (4 : Nat)) % 256).toNat
          else st.buffer.bits a) := by
  obtain ⟨hp, hr, hb⟩ := StackBlurLineOperation.stepLoop_spec alpha mi1 mi2 st
  refine ⟨?_, hr, hb⟩
  show (forRangeInt mi1 (mi2 + 1) (StackBlurLineOperation.step alpha) st).p + inc = st.p + inc
  rw [hp]

/-- A pass whose accesses all fall in the byte set `S` acts within `S`. -/
theorem StackBlurLineOperation.pass_actsWithin (alpha mi1 mi2 p0 inc n : Int) (S : Int → Prop)
    (hS : ∀ j i, 0 ≤ j → j < n → mi1 ≤ i → i ≤ mi2 → S (p0 + j * inc + i)) :
    Buffer.ActsWithin S (StackBlurLineOperation.pass alpha mi1 mi2 p0 inc n) := by
  constructor
  · intro b a ha
    obtain ⟨sp, sb, _⟩ := StackBlurLineOperation.seedLoop_spec mi1 mi2
      { p := p0, rgba := fun _ => 0, buffer := b }
    have h := forRangeInt_induction 1 n
      (fun _ st => StackBlurLineOperation.pixelStep alpha mi1 mi2 inc st)
      (fun k t => t.p = p0 + k * inc ∧ t.buffer.bits a = b.bits a)
      { forRangeInt mi1 (mi2 + 1) StackBlurLineOperation.seed
          { p := p0, rgba := fun _ => 0, buffer := b } with
        p := (forRangeInt mi1 (mi2 + 1) StackBlurLineOperation.seed
          { p := p0, rgba := fun _ => 0, buffer := b }).p + inc }
      (by
        refine ⟨?_, ?_⟩
        · show _ + inc = _
          rw [sp]
          ring
        · show (forRangeInt mi1 (mi2 + 1) StackBlurLineOperation.seed _).buffer.bits a = _
          rw [sb])
      (by
        intro k t hk1 hk2 ⟨hp, hb⟩
        obtain ⟨qp, _, qb⟩ := StackBlurLineOperation.pixelStep_spec alpha mi1 mi2 inc t
        refine ⟨?_, ?_⟩
        · rw [qp, hp]
          ring
        · rw [qb a, if_neg, hb]
          intro hc
          apply ha
          have := hS k (a - t.p) (by omega) hk2 hc.1 hc.2
          have e : p0 + k * inc + (a - t.p) = a := by rw [hp]; ring
          rwa [e] at this)
    exact h.2
  · intro b b' hag a ha
    by_cases hn : n ≤ 1
    · simp only [StackBlurLineOperation.pass]
      rw [forRangeInt_empty 1 n hn, forRangeInt_empty 1 n hn]
      obtain ⟨_, sb, _⟩ := StackBlurLineOperation.seedLoop_spec mi1 mi2
        { p := p0, rgba := fun _ => 0, buffer := b }
      obtain ⟨_, sb', _⟩ := StackBlurLineOperation.seedLoop_spec mi1 mi2
        { p := p0, rgba := fun _ => 0, buffer := b' }
      rw [sb, sb']
      exact hag a ha
    · obtain ⟨sp, sb, sr⟩ := StackBlurLineOperation.seedLoop_spec mi1 mi2
        { p := p0, rgba := fun _ => 0, buffer := b }
      obtain ⟨sp', sb', sr'⟩ := StackBlurLineOperation.seedLoop_spec mi1 mi2
        { p := p0, rgba := fun _ => 0, buffer := b' }
      have h := forRangeInt_induction₂ 1 n
        (fun _ st => StackBlurLineOperation.pixelStep alpha mi1 mi2 inc st)
        (fun k t t' => t.p = p0 + k * inc ∧ t'.p = p0 + k * inc ∧ (∀ i, t.rgba i = t'.rgba i) ∧
          ∀ c, S c → t.buffer.bits c = t'.buffer.bits c)
        { forRangeInt mi1 (mi2 + 1) StackBlurLineOperation.seed
            { p := p0, rgba := fun _ => 0, buffer := b } with
          p := (forRangeInt mi1 (mi2 + 1) StackBlurLineOperation.seed
            { p := p0, rgba := fun _ => 0, buffer := b }).p + inc }
        { forRangeInt mi1 (mi2 + 1) StackBlurLineOperation.seed
            { p := p0, rgba := fun _ => 0, buffer := b' } with
          p := (forRangeInt mi1 (mi2 + 1) StackBlurLineOperation.seed
            { p := p0, rgba := fun _ => 0, buffer := b' }).p + inc }
        (by
          refine ⟨?_, ?_, ?_, ?_⟩
          · show _ + inc = _
            rw [sp]
            ring
          · show _ + inc = _
            rw [sp']
            ring
          · intro i
            show (forRangeInt mi1 (mi2 + 1) StackBlurLineOperation.seed _).rgba i
              = (forRangeInt mi1 (mi2 + 1) StackBlurLineOperation.seed _).rgba i
            rw [sr i, sr' i]
            by_cases hc : mi1 ≤ i ∧ i ≤ mi2
            · rw [if_pos hc, if_pos hc]
              have := hS 0 i (le_refl _) (by omega) hc.1 hc.2
              simp only [zero_mul, add_zero] at this
              rw [hag _ this]
            · rw [if_neg hc, if_neg hc]
          · intro c hc
            show (forRangeInt mi1 (mi2 + 1) StackBlurLineOperation.seed _).buffer.bits c
              = (forRangeInt mi1 (mi2 + 1) StackBlurLineOperation.seed _).buffer.bits c
            rw [sb, sb']
            exact hag c hc)
        (by
          intro k t t' hk1 hk2 ⟨hp, hp', hr, hb⟩
          obtain ⟨qp, qr, qb⟩ := StackBlurLineOperation.pixelStep_spec alpha mi1 mi2 inc t
          obtain ⟨qp', qr', qb'⟩ := StackBlurLineOperation.pixelStep_spec alpha mi1 mi2 inc t'
          have hin : ∀ i, mi1 ≤ i → i ≤ mi2 → t.buffer.bits (t.p + i) = t'.buffer.bits (t'.p + i) := by
            intro i h1 h2
            rw [hp, hp']
            exact hb _ (hS k i (by omega) hk2 h1 h2)
          refine ⟨?_, ?_, ?_, ?_⟩
          · rw [qp, hp]
            ring
          · rw [qp', hp']
            ring
          · intro i
            rw [qr i, qr' i]
            by_cases hc : mi1 ≤ i ∧ i ≤ mi2
            · rw [if_pos hc, if_pos hc, hr i, hin i hc.1 hc.2]
            · rw [if_neg hc, if_neg hc, hr i]
          · intro c hc
            rw [qb c, qb' c, hp, hp']
            by_cases hcc : mi1 ≤ c - (p0 + k * inc) ∧ c - (p0 + k * inc) ≤ mi2
            · rw [if_pos hcc, if_pos hcc, hr, hb c hc]
            · rw [if_neg hcc, if_neg hcc]
              exact hb c hc)
      exact h.2.2.2 a ha


/-! ## Footprints of the blocks -/

theorem rowBytes_of (bpl lo hi y : Nat) (c : Int) (h1 : lo ≤ y) (h2 : y < hi) (h3 : 0 ≤ c)
    (h4 : c < (bpl : Int)) : rowBytes bpl lo hi ((y : Int) * (bpl : Int) + c) := by
  have e1 : (lo : Int) * (bpl : Int) ≤ (y : Int) * (bpl : Int) :=
    Int.mul_le_mul_of_nonneg_right (by exact_mod_cast h1) (by positivity)
  have e2 : ((y : Int) + 1) * (bpl : Int) ≤ (hi : Int) * (bpl : Int) :=
    Int.mul_le_mul_of_nonneg_right (by exact_mod_cast h2) (by positivity)
  have e3 : ((y : Int) + 1) * (bpl : Int) = (y : Int) * (bpl : Int) + (bpl : Int) := by ring
  constructor <;> omega

theorem rowBytes_disjoint (bpl lo hi lo' hi' : Nat)
    (hd : ∀ y, ¬ ((lo ≤ y ∧ y < hi) ∧ (lo' ≤ y ∧ y < hi'))) (a : Int)
    (h : rowBytes bpl lo hi a) : ¬ rowBytes bpl lo' hi' a := by
  intro h'
  obtain ⟨h1, h2⟩ := h
  obtain ⟨h1', h2'⟩ := h'
  have hb : (0 : Int) < (bpl : Int) := by
    rcases Nat.eq_zero_or_pos bpl with h0 | h0
    · subst h0
      simp at h1 h2
      omega
    · exact_mod_cast h0
  have ha : 0 ≤ a := le_trans (by positivity) h1
  have q1 : (lo : Int) ≤ a / (bpl : Int) := Int.le_ediv_of_mul_le hb h1
  have q2 : a / (bpl : Int) < (hi : Int) := Int.ediv_lt_of_lt_mul hb h2
  have q1' : (lo' : Int) ≤ a / (bpl : Int) := Int.le_ediv_of_mul_le hb h1'
  have q2' : a / (bpl : Int) < (hi' : Int) := Int.ediv_lt_of_lt_mul hb h2'
  have q0 : 0 ≤ a / (bpl : Int) := Int.ediv_nonneg ha (le_of_lt hb)
  exact hd (a / (bpl : Int)).toNat ⟨⟨by omega, by omega⟩, ⟨by omega, by omega⟩⟩

theorem columnBytes_of (bpl lo hi x : Nat) (j c : Int) (h1 : lo ≤ x) (h2 : x < hi)
    (h3 : 4 * hi ≤ bpl) (h4 : 0 ≤ c) (h5 : c ≤ 3) :
    columnBytes bpl lo hi (4 * (x : Int) + j * (bpl : Int) + c) := by
  have e : (4 * (x : Int) + j * (bpl : Int) + c) % (bpl : Int) = 4 * (x : Int) + c := by
    have e1 : 4 * (x : Int) + j * (bpl : Int) + c = (4 * (x : Int) + c) + j * (bpl : Int) := by ring
    rw [e1, Int.add_mul_emod_self]
    exact Int.emod_eq_of_lt (by omega) (by omega)
  unfold columnBytes
  rw [e]
  constructor <;> omega

theorem columnBytes_disjoint (bpl lo hi lo' hi' : Nat)
    (hd : ∀ x, ¬ ((lo ≤ x ∧ x < hi) ∧ (lo' ≤ x ∧ x < hi'))) (a : Int)
    (h : columnBytes bpl lo hi a) : ¬ columnBytes bpl lo' hi' a := by
  intro h'
  obtain ⟨h1, h2⟩ := h
  obtain ⟨h1', h2'⟩ := h'
  exact hd ((a % (bpl : Int)) / 4).toNat ⟨⟨by omega, by omega⟩, ⟨by omega, by omega⟩⟩

/-- A stack blur call on a line of `n` pixels acts within any byte set that holds the
selected channel bytes of the `n` pixels of the line. -/
theorem StackBlurLineOperation.call_actsWithin (op : StackBlurLineOperation) (ref : Int) (n : Nat)
    (bpl : Int) (S : Int → Prop)
    (hS : ∀ k i : Int, 0 ≤ k → k < (n : Int) → op.mi1 ≤ i → i ≤ op.mi2 →
      S (ref + k * op.stride bpl + i)) :
    Buffer.ActsWithin S (op.call ref (n : Int) bpl) := by
  have e : op.call ref (n : Int) bpl
      = StackBlurLineOperation.pass op.mAlpha op.mi1 op.mi2 (op.start ref n bpl)
          (op.increment bpl) n := by
    funext b
    exact StackBlurLineOperation.call_eq_pass op ref n bpl b
  rw [e]
  apply StackBlurLineOperation.pass_actsWithin
  intro j i hj1 hj2 hi1 hi2
  unfold StackBlurLineOperation.start StackBlurLineOperation.increment
  cases op.mForwardDirection with
  | true => exact hS j i hj1 hj2 hi1 hi2
  | false =>
    have := hS ((n : Int) - 1 - j) i (by omega) (by omega) hi1 hi2
    have e2 : ref + ((n : Int) - 1 - j) * op.stride bpl + i
        = ref + ((n : Int) - 1) * op.stride bpl + j * -(op.stride bpl) + i := by ring
    rw [e2] at this
    simpa using this

theorem LineOperation.invoke_actsWithin (op : LineOperation) (ref : Int) (n : Nat) (bpl : Int)
    (S : Int → Prop) (h : Buffer.ActsWithin S (op.call ref (n : Int) bpl)) :
    Buffer.ActsWithin S (op.invoke ref n bpl) := by
  show Buffer.ActsWithin S
    (fun b => op.call ref (n : Int) bpl (b.log (Event.lineOp ref (n : Int) bpl)))
  exact Buffer.ActsWithin.comp (Buffer.ActsWithin.of_log S _) h

theorem ProcessBlockUsingLineOperation.call_buffer (op : LineOperation) (block : ImageBlock)
    (img : QImage) :
    (ProcessBlockUsingLineOperation.call op block img).buffer
      = forRange block.beginLine block.endLine (fun k b =>
          op.invoke (lineRef op.direction img.bytesPerLine k) block.lineLength
            (img.bytesPerLine : Int) b) img.buffer := by
  rw [ProcessBlockUsingLineOperation.call_eq]

/-- A block of rows of a by-row stack blur pass acts within the bytes of its rows. -/
theorem StackBlurLineOperation.rows_actsWithin (op : StackBlurLineOperation)
    (hdir : op.mDirection = LineOperationDirection.ByRow) (h1 : 0 ≤ op.mi1) (h2 : op.mi2 ≤ 3)
    (block : ImageBlock) (img : QImage) (hlen : 4 * block.lineLength ≤ img.bytesPerLine) :
    Buffer.ActsWithin (rowBytes img.bytesPerLine block.beginLine block.endLine)
      (fun b => (ProcessBlockUsingLineOperation.call op.toLineOperation block
        { img with buffer := b }).buffer) := by
  simp only [ProcessBlockUsingLineOperation.call_buffer]
  apply Buffer.ActsWithin.forRange
  intro y hy1 hy2
  apply LineOperation.invoke_actsWithin
  apply StackBlurLineOperation.call_actsWithin
  intro k i hk1 hk2 hi1 hi2
  simp only [StackBlurLineOperation.toLineOperation, hdir, lineRef, StackBlurLineOperation.stride,
    if_true]
  have e : (y : Int) * (img.bytesPerLine : Int) + k * 4 + i
      = (y : Int) * (img.bytesPerLine : Int) + (k * 4 + i) := by ring
  rw [e]
  exact rowBytes_of _ _ _ y _ hy1 hy2 (by omega) (by omega)

/-- A block of columns of a by-column stack blur pass acts within the bytes of its columns. -/
theorem StackBlurLineOperation.columns_actsWithin (op : StackBlurLineOperation)
    (hdir : op.mDirection = LineOperationDirection.ByColumn) (h1 : 0 ≤ op.mi1) (h2 : op.mi2 ≤ 3)
    (block : ImageBlock) (img : QImage) (hend : 4 * block.endLine ≤ img.bytesPerLine) :
    Buffer.ActsWithin (columnBytes img.bytesPerLine block.beginLine block.endLine)
      (fun b => (ProcessBlockUsingLineOperation.call op.toLineOperation block
        { img with buffer := b }).buffer) := by
  simp only [ProcessBlockUsingLineOperation.call_buffer]
  apply Buffer.ActsWithin.forRange
  intro x hx1 hx2
  apply LineOperation.invoke_actsWithin
  apply StackBlurLineOperation.call_actsWithin
  intro k i hk1 hk2 hi1 hi2
  simp only [StackBlurLineOperation.toLineOperation, hdir, lineRef, StackBlurLineOperation.stride]
  exact columnBytes_of _ _ _ x k i hx1 hx2 hend (by omega) (by omega)

/-- A block of a pixel operation acts within the bytes of its rows. -/
theorem ProcessBlockUsingPixelOperation.pixelRows_actsWithin (op : Nat → Nat → Nat → Nat)
    (block : ImageBlock) (img : QImage) (hlen : 4 * block.lineLength ≤ img.bytesPerLine) :
    Buffer.ActsWithin (rowBytes img.bytesPerLine block.beginLine block.endLine)
      (fun b => (ProcessBlockUsingPixelOperation.call op block { img with buffer := b }).buffer) := by
  show Buffer.ActsWithin _ (forRange block.beginLine block.endLine (fun y b =>
    forRange 0 block.lineLength (fun x b =>
      b.applyPixelOp op ((y : Int) * (img.bytesPerLine : Int) + 4 * (x : Int)) x y) b))
  apply Buffer.ActsWithin.forRange
  intro y hy1 hy2
  apply Buffer.ActsWithin.forRange
  intro x _ hx2
  have e : ∀ c : Int, (y : Int) * (img.bytesPerLine : Int) + 4 * (x : Int) + c
      = (y : Int) * (img.bytesPerLine : Int) + (4 * (x : Int) + c) := by intro c; ring
  apply Buffer.ActsWithin.applyPixelOp
  · have := rowBytes_of img.bytesPerLine block.beginLine block.endLine y (4 * (x : Int) + 0) hy1 hy2
      (by omega) (by omega)
    simpa [QImage.scanLine, add_assoc] using this
  · simp only [QImage.scanLine, e]
    exact rowBytes_of _ _ _ y _ hy1 hy2 (by omega) (by omega)
  · simp only [QImage.scanLine, e]
    exact rowBytes_of _ _ _ y _ hy1 hy2 (by omega) (by omega)
  · simp only [QImage.scanLine, e]
    exact rowBytes_of _ _ _ y _ hy1 hy2 (by omega) (by omega)


/-! ## Order of the blocks -/

theorem ProcessBlockUsingPixelOperation.commute_blocks (op : Nat → Nat → Nat → Nat) (img : QImage)
    (A B : ImageBlock) (hdisj : A.Disjoint B)
    (hA : 4 * A.lineLength ≤ img.bytesPerLine) (hB : 4 * B.lineLength ≤ img.bytesPerLine) :
    (ProcessBlockUsingPixelOperation.call op B (ProcessBlockUsingPixelOperation.call op A img)).SameBuffer
      (ProcessBlockUsingPixelOperation.call op A (ProcessBlockUsingPixelOperation.call op B img)) := by
  refine ⟨rfl, rfl, rfl, ?_⟩
  have h := Buffer.ActsWithin.commute_of_disjoint
    (ProcessBlockUsingPixelOperation.pixelRows_actsWithin op B img hB)
    (ProcessBlockUsingPixelOperation.pixelRows_actsWithin op A img hA)
    (rowBytes_disjoint _ _ _ _ _ (fun k hk => hdisj k ⟨hk.2, hk.1⟩)) img.buffer
  exact h

theorem StackBlurLineOperation.commute_rows (op : StackBlurLineOperation) (img : QImage)
    (A B : ImageBlock) (hdisj : A.Disjoint B)
    (hdir : op.mDirection = LineOperationDirection.ByRow) (h1 : 0 ≤ op.mi1) (h2 : op.mi2 ≤ 3)
    (hA : 4 * A.lineLength ≤ img.bytesPerLine) (hB : 4 * B.lineLength ≤ img.bytesPerLine) :
    (ProcessBlockUsingLineOperation.call op.toLineOperation B
        (ProcessBlockUsingLineOperation.call op.toLineOperation A img)).SameBuffer
      (ProcessBlockUsingLineOperation.call op.toLineOperation A
        (ProcessBlockUsingLineOperation.call op.toLineOperation B img)) := by
  have eA := ProcessBlockUsingLineOperation.call_eq op.toLineOperation A
  have eB := ProcessBlockUsingLineOperation.call_eq op.toLineOperation B
  refine ⟨by simp only [eA, eB], by simp only [eA, eB], by simp only [eA, eB], ?_⟩
  have h := Buffer.ActsWithin.commute_of_disjoint
    (StackBlurLineOperation.rows_actsWithin op hdir h1 h2 B img hB)
    (StackBlurLineOperation.rows_actsWithin op hdir h1 h2 A img hA)
    (rowBytes_disjoint _ _ _ _ _ (fun k hk => hdisj k ⟨hk.2, hk.1⟩)) img.buffer
  simp only [eA, eB] at h ⊢
  exact h

theorem StackBlurLineOperation.commute_columns (op : StackBlurLineOperation) (img : QImage)
    (A B : ImageBlock) (hdisj : A.Disjoint B)
    (hdir : op.mDirection = LineOperationDirection.ByColumn) (h1 : 0 ≤ op.mi1) (h2 : op.mi2 ≤ 3)
    (hA : 4 * A.endLine ≤ img.bytesPerLine) (hB : 4 * B.endLine ≤ img.bytesPerLine) :
    (ProcessBlockUsingLineOperation.call op.toLineOperation B
        (ProcessBlockUsingLineOperation.call op.toLineOperation A img)).SameBuffer
      (ProcessBlockUsingLineOperation.call op.toLineOperation A
        (ProcessBlockUsingLineOperation.call op.toLineOperation B img)) := by
  have eA := ProcessBlockUsingLineOperation.call_eq op.toLineOperation A
  have eB := ProcessBlockUsingLineOperation.call_eq op.toLineOperation B
  refine ⟨by simp only [eA, eB], by simp only [eA, eB], by simp only [eA, eB], ?_⟩
  have h := Buffer.ActsWithin.commute_of_disjoint
    (StackBlurLineOperation.columns_actsWithin op hdir h1 h2 B img hB)
    (StackBlurLineOperation.columns_actsWithin op hdir h1 h2 A img hA)
    (columnBytes_disjoint _ _ _ _ _ (fun k hk => hdisj k ⟨hk.2, hk.1⟩)) img.buffer
  simp only [eA, eB] at h ⊢
  exact h

theorem addr_inj (s k k' c c' : Int) (hs : 4 ≤ s) (hc1 : 0 ≤ c) (hc2 : c ≤ 3) (hc1' : 0 ≤ c')
    (hc2' : c' ≤ 3) (h : k * s + c = k' * s + c') : k = k' ∧ c = c' := by
  have hk : k = k' := by
    rcases lt_trichotomy k k' with hlt | heq | hgt
    · exfalso
      have : s ≤ (k' - k) * s := by nlinarith
      have e : (k' - k) * s = k' * s - k * s := by ring
      omega
    · exact heq
    · exfalso
      have : s ≤ (k - k') * s := by nlinarith
      have e : (k - k') * s = k * s - k' * s := by ring
      omega
  subst hk
  exact ⟨rfl, by omega⟩


/-! ## Trace lemmas -/

theorem Buffer.Appends.refl (P : Event → Prop) (b : Buffer) : Buffer.Appends P b b :=
  ⟨[], by simp, by simp⟩

theorem Buffer.Appends.trans {P : Event → Prop} {a b c : Buffer}
    (h1 : Buffer.Appends P a b) (h2 : Buffer.Appends P b c) : Buffer.Appends P a c := by
  obtain ⟨e1, t1, p1⟩ := h1
  obtain ⟨e2, t2, p2⟩ := h2
  refine ⟨e1 ++ e2, by rw [t2, t1, List.append_assoc], ?_⟩
  intro e he
  rcases List.mem_append.mp he with h | h
  · exact p1 e h
  · exact p2 e h

theorem Buffer.Appends.by_log {P : Event → Prop} (b : Buffer) (e : Event) (h : P e) :
    Buffer.Appends P b (b.log e) :=
  ⟨[e], rfl, by simpa using h⟩

theorem Buffer.Appends.by_write {P : Event → Prop} (b : Buffer) (a v : Int) (h : P (Event.write a)) :
    Buffer.Appends P b (b.write a v) :=
  ⟨[Event.write a], rfl, by simpa using h⟩

theorem StackBlurLineOperation.seed_appends {P : Event → Prop} (hr : ∀ a, P (Event.read a))
    (hg : ∀ i, P (Event.rgba i)) (i : Int) (st : StackBlurLineOperation.Locals) :
    Buffer.Appends P st.buffer (StackBlurLineOperation.seed i st).buffer :=
  Buffer.Appends.trans (Buffer.Appends.by_log _ _ (hr _)) (Buffer.Appends.by_log _ _ (hg i))

theorem StackBlurLineOperation.step_appends {P : Event → Prop} (hr : ∀ a, P (Event.read a))
    (hg : ∀ i, P (Event.rgba i)) (hw : ∀ a, P (Event.write a)) (alpha i : Int)
    (st : StackBlurLineOperation.Locals) :
    Buffer.Appends P st.buffer (StackBlurLineOperation.step alpha i st).buffer :=
  Buffer.Appends.trans
    (Buffer.Appends.trans (Buffer.Appends.by_log _ _ (hr _)) (Buffer.Appends.by_log _ _ (hg i)))
    (Buffer.Appends.by_write _ _ _ (hw _))

theorem StackBlurLineOperation.seedLoop_appends {P : Event → Prop} (hr : ∀ a, P (Event.read a))
    (hg : ∀ i, P (Event.rgba i)) (mi1 mi2 : Int) (st : StackBlurLineOperation.Locals) :
    Buffer.Appends P st.buffer (forRangeInt mi1 (mi2 + 1) StackBlurLineOperation.seed st).buffer :=
  forRangeInt_induction mi1 (mi2 + 1) StackBlurLineOperation.seed
    (fun _ t => Buffer.Appends P st.buffer t.buffer) st (Buffer.Appends.refl P _)
    (fun k t _ _ h => Buffer.Appends.trans h (StackBlurLineOperation.seed_appends hr hg k t))

theorem StackBlurLineOperation.pixelStep_appends {P : Event → Prop} (hr : ∀ a, P (Event.read a))
    (hg : ∀ i, P (Event.rgba i)) (hw : ∀ a, P (Event.write a)) (alpha mi1 mi2 inc : Int)
    (st : StackBlurLineOperation.Locals) :
    Buffer.Appends P st.buffer (StackBlurLineOperation.pixelStep alpha mi1 mi2 inc st).buffer :=
  forRangeInt_induction mi1 (mi2 + 1) (StackBlurLineOperation.step alpha)
    (fun _ t => Buffer.Appends P st.buffer t.buffer) st (Buffer.Appends.refl P _)
    (fun k t _ _ h => Buffer.Appends.trans h (StackBlurLineOperation.step_appends hr hg hw alpha k t))

/-- A pass only adds byte reads, byte writes and `rgba` accesses to the trace. -/
theorem StackBlurLineOperation.pass_appends {P : Event → Prop} (hr : ∀ a, P (Event.read a))
    (hg : ∀ i, P (Event.rgba i)) (hw : ∀ a, P (Event.write a)) (alpha mi1 mi2 p0 inc n : Int)
    (b : Buffer) :
    Buffer.Appends P b (StackBlurLineOperation.pass alpha mi1 mi2 p0 inc n b) := by
  have hs := StackBlurLineOperation.seedLoop_appends hr hg mi1 mi2
    { p := p0, rgba := fun _ => 0, buffer := b }
  exact forRangeInt_induction 1 n
    (fun _ st => StackBlurLineOperation.pixelStep alpha mi1 mi2 inc st)
    (fun _ t => Buffer.Appends P b t.buffer) _ hs
    (fun _ t _ _ h =>
      Buffer.Appends.trans h (StackBlurLineOperation.pixelStep_appends hr hg hw alpha mi1 mi2 inc t))

/-- On a line of at most one pixel a pass only seeds its accumulators: it adds byte
reads and `rgba` accesses to the trace and leaves the bytes as they are. -/
theorem StackBlurLineOperation.pass_short {P : Event → Prop} (hr : ∀ a, P (Event.read a))
    (hg : ∀ i, P (Event.rgba i)) (alpha mi1 mi2 p0 inc n : Int) (hn : n ≤ 1) (b : Buffer) :
    Buffer.Appends P b (StackBlurLineOperation.pass alpha mi1 mi2 p0 inc n b) ∧
      (StackBlurLineOperation.pass alpha mi1 mi2 p0 inc n b).bits = b.bits := by
  have hs := StackBlurLineOperation.seedLoop_appends hr hg mi1 mi2
    { p := p0, rgba := fun _ => 0, buffer := b }
  obtain ⟨_, sb, _⟩ := StackBlurLineOperation.seedLoop_spec mi1 mi2
    { p := p0, rgba := fun _ => 0, buffer := b }
  simp only [StackBlurLineOperation.pass]
  rw [forRangeInt_empty 1 n hn]
  exact ⟨hs, sb⟩

/-- The trace of a block of a line operation, from the trace of each call. -/
theorem ProcessBlockUsingLineOperation.call_appends {P : Event → Prop} (op : LineOperation)
    (block : ImageBlock) (img : QImage)
    (hl : ∀ ref, P (Event.lineOp ref (block.lineLength : Int) (img.bytesPerLine : Int)))
    (hc : ∀ ref b, Buffer.Appends P b
      (op.call ref (block.lineLength : Int) (img.bytesPerLine : Int) b)) :
    Buffer.Appends P img.buffer (ProcessBlockUsingLineOperation.call op block img).buffer := by
  rw [ProcessBlockUsingLineOperation.call_buffer]
  have h := forRange_induction block.beginLine block.endLine (fun k b =>
      op.invoke (lineRef op.direction img.bytesPerLine k) block.lineLength
        (img.bytesPerLine : Int) b)
    (fun _ t => Buffer.Appends P img.buffer t) img.buffer (Buffer.Appends.refl P _)
    (fun k t _ _ h => Buffer.Appends.trans h
      (Buffer.Appends.trans (Buffer.Appends.by_log t _ (hl _)) (hc _ _)))
  exact h

/-- The bytes after a block of a line operation whose calls leave the bytes as they are. -/
theorem ProcessBlockUsingLineOperation.call_bits_of_id (op : LineOperation)
    (block : ImageBlock) (img : QImage)
    (hc : ∀ ref b, (op.call ref (block.lineLength : Int) (img.bytesPerLine : Int) b).bits = b.bits) :
    (ProcessBlockUsingLineOperation.call op block img).buffer.bits = img.buffer.bits := by
  rw [ProcessBlockUsingLineOperation.call_buffer]
  have h := forRange_induction block.beginLine block.endLine (fun k b =>
      op.invoke (lineRef op.direction img.bytesPerLine k) block.lineLength
        (img.bytesPerLine : Int) b)
    (fun _ t => t.bits = img.buffer.bits) img.buffer rfl
    (fun k t _ _ h => by
      show (op.call _ _ _ _).bits = _
      rw [hc]
      exact h)
  exact h


/-! ## The pass computes the recurrence of its accumulators -/

theorem addr_inj' (s k k' c c' : Int) (hs : 4 ≤ s ∨ s ≤ -4) (hc1 : 0 ≤ c) (hc2 : c ≤ 3)
    (hc1' : 0 ≤ c') (hc2' : c' ≤ 3) (h : k * s + c = k' * s + c') : k = k' ∧ c = c' := by
  rcases hs with hs | hs
  · exact addr_inj s k k' c c' hs hc1 hc2 hc1' hc2' h
  · have h' : (-k) * (-s) + c = (-k') * (-s) + c' := by
      have e1 : (-k) * (-s) = k * s := by ring
      have e2 : (-k') * (-s) = k' * s := by ring
      rw [e1, e2]
      exact h
    obtain ⟨q1, q2⟩ := addr_inj (-s) (-k) (-k') c c' (by omega) hc1 hc2 hc1' hc2' h'
    exact ⟨by omega, q2⟩

/-- The state of a pass after its first `m` steps: the pointer is on pixel `m + 1`, the
accumulators and the bytes of pixels `1..m` follow the recurrence, every other byte is
as it was. -/
theorem StackBlurLineOperation.pass_invariant (alpha mi1 mi2 p0 inc : Int) (b : Buffer)
    (h1 : 0 ≤ mi1) (h2 : mi2 ≤ 3) (hinc : 4 ≤ inc ∨ inc ≤ -4) (m : Nat) :
    let st := forFromInt (fun _ st => StackBlurLineOperation.pixelStep alpha mi1 mi2 inc st) m 1
      { forRangeInt mi1 (mi2 + 1) StackBlurLineOperation.seed
          { p := p0, rgba := fun _ => 0, buffer := b } with
        p := (forRangeInt mi1 (mi2 + 1) StackBlurLineOperation.seed
          { p := p0, rgba := fun _ => 0, buffer := b }).p + inc }
    st.p = p0 + ((m : Int) + 1) * inc ∧
      (∀ i, mi1 ≤ i → i ≤ mi2 →
        st.rgba i = accCode alpha (fun k => (b.bits (p0 + (k : Int) * inc + i) : Int)) m) ∧
      (∀ (j : Nat) (i : Int), 1 ≤ j → j ≤ m → mi1 ≤ i → i ≤ mi2 →
        st.buffer.bits (p0 + (j : Int) * inc + i)
          = accByte (accCode alpha (fun k => (b.bits (p0 + (k : Int) * inc + i) : Int)) j)) ∧
      (∀ a, (∀ (j : Nat) (i : Int), 1 ≤ j → j ≤ m → mi1 ≤ i → i ≤ mi2 →
          a ≠ p0 + (j : Int) * inc + i) → st.buffer.bits a = b.bits a) := by
  obtain ⟨sp, sb, sr⟩ := StackBlurLineOperation.seedLoop_spec mi1 mi2
    { p := p0, rgba := fun _ => 0, buffer := b }
  apply forFromInt_induction (fun _ st => StackBlurLineOperation.pixelStep alpha mi1 mi2 inc st)
    (fun m st => st.p = p0 + ((m : Int) + 1) * inc ∧
      (∀ i, mi1 ≤ i → i ≤ mi2 →
        st.rgba i = accCode alpha (fun k => (b.bits (p0 + (k : Int) * inc + i) : Int)) m) ∧
      (∀ (j : Nat) (i : Int), 1 ≤ j → j ≤ m → mi1 ≤ i → i ≤ mi2 →
        st.buffer.bits (p0 + (j : Int) * inc + i)
          = accByte (accCode alpha (fun k => (b.bits (p0 + (k : Int) * inc + i) : Int)) j)) ∧
      (∀ a, (∀ (j : Nat) (i : Int), 1 ≤ j → j ≤ m → mi1 ≤ i → i ≤ mi2 →
          a ≠ p0 + (j : Int) * inc + i) → st.buffer.bits a = b.bits a))
  · refine ⟨?_, ?_, ?_, ?_⟩
    · show _ + inc = _
      rw [sp]
      simp
    · intro i hi1 hi2
      show (forRangeInt mi1 (mi2 + 1) StackBlurLineOperation.seed _).rgba i = _
      rw [sr i, if_pos ⟨hi1, hi2⟩]
      simp [accCode]
    · intro j i hj1 hj2
      omega
    · intro a _
      show (forRangeInt mi1 (mi2 + 1) StackBlurLineOperation.seed _).buffer.bits a = _
      rw [sb]
  · intro k t hk ⟨hp, hr, hb, hf⟩
    obtain ⟨qp, qr, qb⟩ := StackBlurLineOperation.pixelStep_spec alpha mi1 mi2 inc t
    have hread : ∀ i, mi1 ≤ i → i ≤ mi2 →
        t.buffer.bits (t.p + i) = b.bits (p0 + ((k + 1 : Nat) : Int) * inc + i) := by
      intro i hi1 hi2
      have e : t.p + i = p0 + ((k + 1 : Nat) : Int) * inc + i := by rw [hp]; push_cast; ring
      rw [e]
      apply hf
      intro j i' hj1 hj2 hi1' hi2' heq
      have := addr_inj' inc ((k + 1 : Nat) : Int) (j : Int) i i' hinc (by omega) (by omega)
        (by omega) (by omega) (by omega)
      omega
    refine ⟨?_, ?_, ?_, ?_⟩
    · rw [qp, hp]
      push_cast
      ring
    · intro i hi1 hi2
      rw [qr i, if_pos ⟨hi1, hi2⟩, hr i hi1 hi2, hread i hi1 hi2]
      rfl
    · intro j i hj1 hj2 hi1 hi2
      rw [qb]
      by_cases hjk : j = k + 1
      · subst hjk
        have e : p0 + ((k + 1 : Nat) : Int) * inc + i - t.p = i := by rw [hp]; push_cast; ring
        rw [e, if_pos ⟨hi1, hi2⟩, hr i hi1 hi2]
        have e2 : p0 + ((k + 1 : Nat) : Int) * inc + i = t.p + i := by rw [hp]; push_cast; ring
        rw [e2, hread i hi1 hi2]
        rfl
      · rw [if_neg, hb j i hj1 (by omega) hi1 hi2]
        intro hc
        have e : p0 + (j : Int) * inc + i - t.p = ((j : Int) - ((k : Int) + 1)) * inc + i := by
          rw [hp]; ring
        rw [e] at hc
        have := addr_inj' inc ((j : Int) - ((k : Int) + 1)) 0 i
          (((j : Int) - ((k : Int) + 1)) * inc + i) hinc (by omega) (by omega) (by omega)
          (by omega) (by ring)
        omega
    · intro a ha
      rw [qb, if_neg, hf a (fun j i hj1 hj2 hi1 hi2 => ha j i hj1 (by omega) hi1 hi2)]
      intro hc
      apply ha (k + 1) (a - t.p) (by omega) (le_refl _) hc.1 hc.2
      rw [hp]
      push_cast
      ring


/-- After a pass over `n` pixels, the bytes of the selected channels of the pixels
`1..n-1` hold the recurrence of the accumulators, and every other byte is as it was. -/
theorem StackBlurLineOperation.pass_spec (alpha mi1 mi2 p0 inc : Int) (n : Nat) (b : Buffer)
    (h1 : 0 ≤ mi1) (h2 : mi2 ≤ 3) (hinc : 4 ≤ inc ∨ inc ≤ -4) :
    (∀ (j : Nat) (i : Int), 1 ≤ j → j < n → mi1 ≤ i → i ≤ mi2 →
      (StackBlurLineOperation.pass alpha mi1 mi2 p0 inc n b).bits (p0 + (j : Int) * inc + i)
        = accByte (accCode alpha (fun k => (b.bits (p0 + (k : Int) * inc + i) : Int)) j)) ∧
    (∀ a, (∀ (j : Nat) (i : Int), 1 ≤ j → j < n → mi1 ≤ i → i ≤ mi2 →
        a ≠ p0 + (j : Int) * inc + i) →
      (StackBlurLineOperation.pass alpha mi1 mi2 p0 inc n b).bits a = b.bits a) := by
  obtain ⟨_, _, hb, hf⟩ :=
    StackBlurLineOperation.pass_invariant alpha mi1 mi2 p0 inc b h1 h2 hinc (((n : Int) - 1).toNat)
  refine ⟨?_, ?_⟩
  · intro j i hj1 hj2 hi1 hi2
    exact hb j i hj1 (by omega) hi1 hi2
  · intro a ha
    exact hf a (fun j i hj1 hj2 hi1 hi2 => ha j i hj1 (by omega) hi1 hi2)

/-- The selected channel `i` of the `j`-th pixel met by a pass holds `channelCode`. -/
theorem StackBlurLineOperation.pass_channel (alpha mi1 mi2 p0 inc : Int) (n : Nat) (b : Buffer)
    (h1 : 0 ≤ mi1) (h2 : mi2 ≤ 3) (hinc : 4 ≤ inc ∨ inc ≤ -4) (j : Nat) (i : Int) (hj : j < n)
    (hi1 : mi1 ≤ i) (hi2 : i ≤ mi2) :
    (StackBlurLineOperation.pass alpha mi1 mi2 p0 inc n b).bits (p0 + (j : Int) * inc + i)
      = channelCode alpha (fun k => b.bits (p0 + (k : Int) * inc + i)) j := by
  obtain ⟨hb, hf⟩ := StackBlurLineOperation.pass_spec alpha mi1 mi2 p0 inc n b h1 h2 hinc
  unfold channelCode
  by_cases hj0 : j = 0
  · subst hj0
    rw [if_pos rfl]
    apply hf
    intro j' i' hj1 _ hi1' hi2' heq
    have := addr_inj' inc ((0 : Nat) : Int) (j' : Int) i i' hinc (by omega) (by omega)
      (by omega) (by omega) (by omega)
    omega
  · rw [if_neg hj0]
    exact hb j i (by omega) hj hi1 hi2

theorem accCode_congr (alpha : Int) (inp inp' : Nat → Int) (j : Nat)
    (h : ∀ k, k ≤ j → inp k = inp' k) : accCode alpha inp j = accCode alpha inp' j := by
  induction j with
  | zero => simp [accCode, h 0 (le_refl _)]
  | succ j ih =>
    simp only [accCode]
    rw [ih (fun k hk => h k (by omega)), h (j + 1) (le_refl _)]

theorem channelCode_congr (alpha : Int) (inp inp' : Nat → Nat) (j : Nat)
    (h : ∀ k, k ≤ j → inp k = inp' k) : channelCode alpha inp j = channelCode alpha inp' j := by
  unfold channelCode
  rw [h 0 (Nat.zero_le _), accCode_congr alpha _ _ j (fun k hk => by rw [h k hk])]

theorem StackBlurLineOperation.rank_lt (op : StackBlurLineOperation) (n k : Nat) (hk : k < n) :
    op.rank n k < n := by
  unfold StackBlurLineOperation.rank
  split <;> omega

theorem StackBlurLineOperation.rank_rank (op : StackBlurLineOperation) (n k : Nat) (hk : k < n) :
    op.rank n (op.rank n k) = k := by
  unfold StackBlurLineOperation.rank
  split <;> omega

/-- The address of pixel `k` of a line, from the pointer a pass starts from. -/
theorem StackBlurLineOperation.start_add (op : StackBlurLineOperation) (ref bpl : Int)
    (n k : Nat) (hk : k < n) :
    op.start ref n bpl + ((op.rank n k : Nat) : Int) * op.increment bpl
      = ref + (k : Int) * op.stride bpl := by
  unfold StackBlurLineOperation.start StackBlurLineOperation.increment StackBlurLineOperation.rank
  cases op.mForwardDirection with
  | true => simp
  | false =>
    have e : ((n - 1 - k : Nat) : Int) = (n : Int) - 1 - (k : Int) := by omega
    simp only [Bool.false_eq_true, if_false, e]
    ring

/-- After a call on a line of `n` pixels, the selected channel `i` of pixel `k` of the
line holds `channelCode` of the channel values in the order of the pass. -/
theorem StackBlurLineOperation.call_channel (op : StackBlurLineOperation) (ref : Int) (n : Nat)
    (bpl : Int) (b : Buffer) (h1 : 0 ≤ op.mi1) (h2 : op.mi2 ≤ 3) (hs : 4 ≤ op.stride bpl)
    (k : Nat) (i : Int) (hk : k < n) (hi1 : op.mi1 ≤ i) (hi2 : i ≤ op.mi2) :
    (op.call ref (n : Int) bpl b).bits (ref + (k : Int) * op.stride bpl + i)
      = channelCode op.mAlpha
          (fun j => b.bits (ref + ((op.rank n j : Nat) : Int) * op.stride bpl + i))
          (op.rank n k) := by
  rw [StackBlurLineOperation.call_eq_pass]
  have hinc : 4 ≤ op.increment bpl ∨ op.increment bpl ≤ -4 := by
    unfold StackBlurLineOperation.increment
    split
    · exact Or.inl hs
    · exact Or.inr (by omega)
  have h := StackBlurLineOperation.pass_channel op.mAlpha op.mi1 op.mi2 (op.start ref n bpl)
    (op.increment bpl) n b h1 h2 hinc (op.rank n k) i (op.rank_lt n k hk) hi1 hi2
  rw [op.start_add ref bpl n k hk] at h
  rw [h]
  apply channelCode_congr
  intro j hj
  have hjn : j < n := lt_of_le_of_lt hj (op.rank_lt n k hk)
  have := op.start_add ref bpl n (op.rank n j) (op.rank_lt n j hjn)
  rw [op.rank_rank n j hjn] at this
  rw [this]



/-! ## Blocks of a partition in any order -/

theorem Buffer.ActsWithin.bits_congr {S : Int → Prop} {f : Buffer → Buffer}
    (h : Buffer.ActsWithin S f) (b b' : Buffer) (hb : b.bits = b'.bits) :
    (f b).bits = (f b').bits := by
  funext a
  by_cases hs : S a
  · exact h.2 b b' (fun c _ => by rw [hb]) a hs
  · rw [h.1 b a hs, h.1 b' a hs, hb]

theorem Buffer.ActsWithin.foldl_congr {ι : Type} (g : ι → Buffer → Buffer) (S : ι → Int → Prop)
    (l : List ι) (h : ∀ i, i ∈ l → Buffer.ActsWithin (S i) (g i)) (b b' : Buffer)
    (hb : b.bits = b'.bits) :
    (l.foldl (fun buf i => g i buf) b).bits = (l.foldl (fun buf i => g i buf) b').bits := by
  induction l generalizing b b' with
  | nil => exact hb
  | cons x l ih =>
    simp only [List.foldl_cons]
    exact ih (fun i hi => h i (List.mem_cons_of_mem _ hi)) _ _
      ((h x (List.mem_cons_self _ _)).bits_congr b b' hb)

/-- Functions that act within pairwise disjoint byte sets give the same bytes in whatever
order they are run. -/
theorem Buffer.ActsWithin.foldl_perm {ι : Type} (g : ι → Buffer → Buffer) (S : ι → Int → Prop)
    {l l' : List ι} (hp : l.Perm l') (h : ∀ i, i ∈ l → Buffer.ActsWithin (S i) (g i))
    (hd : l.Pairwise (fun i j => ∀ a, ¬ (S i a ∧ S j a))) (b b' : Buffer)
    (hb : b.bits = b'.bits) :
    (l.foldl (fun buf i => g i buf) b).bits = (l'.foldl (fun buf i => g i buf) b').bits := by
  have hsymm : ∀ i j : ι, (∀ a, ¬ (S i a ∧ S j a)) → ∀ a, ¬ (S j a ∧ S i a) :=
    fun i j hij a ha => hij a ⟨ha.2, ha.1⟩
  induction hp generalizing b b' with
  | nil => exact hb
  | cons x _ ih =>
    simp only [List.foldl_cons]
    exact ih (fun i hi => h i (List.mem_cons_of_mem _ hi)) (List.pairwise_cons.mp hd).2 _ _
      ((h x (List.mem_cons_self _ _)).bits_congr b b' hb)
  | swap x y l0 =>
    simp only [List.foldl_cons]
    have hx := h x (List.mem_cons_of_mem _ (List.mem_cons_self _ _))
    have hy := h y (List.mem_cons_self _ _)
    have hxy : ∀ a, ¬ (S y a ∧ S x a) :=
      (List.pairwise_cons.mp hd).1 x (List.mem_cons_self _ _)
    apply Buffer.ActsWithin.foldl_congr g S l0
      (fun i hi => h i (List.mem_cons_of_mem _ (List.mem_cons_of_mem _ hi)))
    rw [Buffer.ActsWithin.commute_of_disjoint hx hy (fun a hxa hya => hxy a ⟨hya, hxa⟩) b]
    exact hy.bits_congr _ _ (hx.bits_congr b b' hb)
  | trans hp1 hp2 ih1 ih2 =>
    rw [ih1 h hd b b rfl]
    exact ih2 (fun i hi => h i ((hp1.mem_iff).mpr hi))
      ((hp1.pairwise_iff (fun {i j} hij => hsymm i j hij)).mp hd) b b' hb

theorem IsPartition.begin_ge {bs : List ImageBlock} {lo hi len : Nat}
    (h : IsPartition bs lo hi len) (c : ImageBlock) (hc : c ∈ bs) :
    lo ≤ c.beginLine ∧ c.endLine ≤ hi ∧ c.lineLength = len := by
  induction bs generalizing lo with
  | nil => cases hc
  | cons b bs ih =>
    obtain ⟨h1, h2, h3, h4⟩ := h
    rcases List.mem_cons.mp hc with rfl | hc'
    · exact ⟨by omega, IsPartition.le h4, h3⟩
    · have := ih h4 hc'
      exact ⟨by omega, this.2.1, this.2.2⟩

theorem IsPartition.pairwise_disjoint {bs : List ImageBlock} {lo hi len : Nat}
    (h : IsPartition bs lo hi len) : bs.Pairwise ImageBlock.Disjoint := by
  induction bs generalizing lo with
  | nil => exact List.Pairwise.nil
  | cons b bs ih =>
    obtain ⟨h1, h2, h3, h4⟩ := h
    refine List.pairwise_cons.mpr ⟨?_, ih h4⟩
    intro c hc k hk
    have := (IsPartition.begin_ge h4 c hc).1
    omega

theorem ProcessBlockUsingPixelOperation.pixelFoldl_buffer (op : Nat → Nat → Nat → Nat)
    (blocks : List ImageBlock) (img : QImage) :
    blocks.foldl (fun im b => ProcessBlockUsingPixelOperation.call op b im) img
      = { img with buffer := (blocks.foldl (fun buf b =>
            (ProcessBlockUsingPixelOperation.call op b { img with buffer := buf }).buffer)
          img.buffer) } := by
  have key : ∀ buf : Buffer,
      blocks.foldl (fun im b => ProcessBlockUsingPixelOperation.call op b im)
          { img with buffer := buf }
        = { img with buffer := (blocks.foldl (fun buf b =>
              (ProcessBlockUsingPixelOperation.call op b { img with buffer := buf }).buffer)
            buf) } := by
    induction blocks with
    | nil => intro buf; rfl
    | cons b bs ih =>
      intro buf
      simp only [List.foldl_cons]
      exact ih _
  exact key img.buffer

theorem ProcessBlockUsingLineOperation.lineFoldl_buffer (op : LineOperation)
    (blocks : List ImageBlock) (img : QImage) :
    blocks.foldl (fun im b => ProcessBlockUsingLineOperation.call op b im) img
      = { img with buffer := (blocks.foldl (fun buf b =>
            (ProcessBlockUsingLineOperation.call op b { img with buffer := buf }).buffer)
          img.buffer) } := by
  have key : ∀ buf : Buffer,
      blocks.foldl (fun im b => ProcessBlockUsingLineOperation.call op b im)
          { img with buffer := buf }
        = { img with buffer := (blocks.foldl (fun buf b =>
              (ProcessBlockUsingLineOperation.call op b { img with buffer := buf }).buffer)
            buf) } := by
    induction blocks with
    | nil => intro buf; rfl
    | cons b bs ih =>
      intro buf
      simp only [List.foldl_cons]
      have e : ProcessBlockUsingLineOperation.call op b { img with buffer := buf }
          = { img with buffer :=
                (ProcessBlockUsingLineOperation.call op b { img with buffer := buf }).buffer } := by
        rw [ProcessBlockUsingLineOperation.call_eq]
      rw [e]
      exact ih _
  exact key img.buffer

theorem ProcessBlockUsingPixelOperation.pixelFoldl_perm (op : Nat → Nat → Nat → Nat) (img : QImage)
    (S : ImageBlock → Int → Prop) (blocks blocks' : List ImageBlock) (hp : blocks'.Perm blocks)
    (h : ∀ blk, blk ∈ blocks → Buffer.ActsWithin (S blk)
      (fun buf => (ProcessBlockUsingPixelOperation.call op blk { img with buffer := buf }).buffer))
    (hd : blocks.Pairwise (fun i j => ∀ a, ¬ (S i a ∧ S j a))) :
    (blocks'.foldl (fun im b => ProcessBlockUsingPixelOperation.call op b im) img).SameBuffer
      (blocks.foldl (fun im b => ProcessBlockUsingPixelOperation.call op b im) img) := by
  rw [ProcessBlockUsingPixelOperation.pixelFoldl_buffer, ProcessBlockUsingPixelOperation.pixelFoldl_buffer]
  refine ⟨rfl, rfl, rfl, ?_⟩
  exact (Buffer.ActsWithin.foldl_perm
    (fun blk buf => (ProcessBlockUsingPixelOperation.call op blk { img with buffer := buf }).buffer)
    S hp.symm h hd img.buffer img.buffer rfl).symm

theorem ProcessBlockUsingLineOperation.lineFoldl_perm (op : LineOperation) (img : QImage)
    (S : ImageBlock → Int → Prop) (blocks blocks' : List ImageBlock) (hp : blocks'.Perm blocks)
    (h : ∀ blk, blk ∈ blocks → Buffer.ActsWithin (S blk)
      (fun buf => (ProcessBlockUsingLineOperation.call op blk { img with buffer := buf }).buffer))
    (hd : blocks.Pairwise (fun i j => ∀ a, ¬ (S i a ∧ S j a))) :
    (blocks'.foldl (fun im b => ProcessBlockUsingLineOperation.call op b im) img).SameBuffer
      (blocks.foldl (fun im b => ProcessBlockUsingLineOperation.call op b im) img) := by
  rw [ProcessBlockUsingLineOperation.lineFoldl_buffer, ProcessBlockUsingLineOperation.lineFoldl_buffer]
  refine ⟨rfl, rfl, rfl, ?_⟩
  exact (Buffer.ActsWithin.foldl_perm
    (fun blk buf => (ProcessBlockUsingLineOperation.call op blk { img with buffer := buf }).buffer)
    S hp.symm h hd img.buffer img.buffer rfl).symm

theorem IsPartition.pairwise_rowBytes {bs : List ImageBlock} {lo hi len : Nat}
    (h : IsPartition bs lo hi len) (bpl : Nat) :
    bs.Pairwise (fun i j => ∀ a, ¬ (rowBytes bpl i.beginLine i.endLine a ∧
      rowBytes bpl j.beginLine j.endLine a)) :=
  (IsPartition.pairwise_disjoint h).imp
    (fun hij a ha => rowBytes_disjoint bpl _ _ _ _ hij a ha.1 ha.2)

theorem IsPartition.pairwise_columnBytes {bs : List ImageBlock} {lo hi len : Nat}
    (h : IsPartition bs lo hi len) (bpl : Nat) :
    bs.Pairwise (fun i j => ∀ a, ¬ (columnBytes bpl i.beginLine i.endLine a ∧
      columnBytes bpl j.beginLine j.endLine a)) :=
  (IsPartition.pairwise_disjoint h).imp
    (fun hij a ha => columnBytes_disjoint bpl _ _ _ _ hij a ha.1 ha.2)

/-! ## The pass with `alpha = 16` -/

theorem StackBlurLineOperation.next_sixteen (acc v : Int) (hv0 : 0 ≤ v) (hv : v ≤ 255)
    (ha0 : 0 ≤ acc) (ha : acc ≤ 4080) : StackBlurLineOperation.next 16 acc v = v * 16 := by
  rw [StackBlurLineOperation.next_eq,
    wrapInt_of_fits (v * 16 - acc) (by unfold FitsInt; omega),
    wrapInt_of_fits ((v * 16 - acc) * 16) (by unfold FitsInt; omega),
    Int.mul_tdiv_cancel _ (by decide),
    wrapInt_of_fits (acc + (v * 16 - acc)) (by unfold FitsInt; omega)]
  ring

theorem StackBlurLineOperation.pixelStep_sixteen (mi1 mi2 inc : Int)
    (st : StackBlurLineOperation.Locals) (hv : st.buffer.Valid)
    (hr : ∀ k, 0 ≤ st.rgba k ∧ st.rgba k ≤ 4080) :
    (StackBlurLineOperation.pixelStep 16 mi1 mi2 inc st).buffer.bits = st.buffer.bits ∧
      ∀ k, 0 ≤ (StackBlurLineOperation.pixelStep 16 mi1 mi2 inc st).rgba k ∧
        (StackBlurLineOperation.pixelStep 16 mi1 mi2 inc st).rgba k ≤ 4080 := by
  obtain ⟨_, qr, qb⟩ := StackBlurLineOperation.pixelStep_spec 16 mi1 mi2 inc st
  constructor
  · funext a
    rw [qb a]
    split
    · have hb := hv a
      rw [StackBlurLineOperation.next_sixteen _ _ (by omega) (by omega) (hr _).1 (hr _).2,
        shiftRight_four]
      omega
    · rfl
  · intro k
    rw [qr k]
    split
    · have hb := hv (st.p + k)
      rw [StackBlurLineOperation.next_sixteen _ _ (by omega) (by omega) (hr _).1 (hr _).2]
      omega
    · exact hr k

theorem StackBlurLineOperation.pass_sixteen (mi1 mi2 p0 inc n : Int) (b : Buffer)
    (hv : b.Valid) : (StackBlurLineOperation.pass 16 mi1 mi2 p0 inc n b).bits = b.bits := by
  obtain ⟨_, sb, sr⟩ := StackBlurLineOperation.seedLoop_spec mi1 mi2
    { p := p0, rgba := fun _ => 0, buffer := b }
  have hseed : ∀ k, 0 ≤ (forRangeInt mi1 (mi2 + 1) StackBlurLineOperation.seed
        { p := p0, rgba := fun _ => 0, buffer := b }).rgba k ∧
      (forRangeInt mi1 (mi2 + 1) StackBlurLineOperation.seed
        { p := p0, rgba := fun _ => 0, buffer := b }).rgba k ≤ 4080 := by
    intro k
    rw [sr k]
    split
    · have hb := hv (p0 + k)
      rw [shiftLeft_four]
      constructor
      · show (0 : Int) ≤ (b.bits (p0 + k) : Int) * 16
        omega
      · show (b.bits (p0 + k) : Int) * 16 ≤ 4080
        omega
    · show (0 : Int) ≤ 0 ∧ (0 : Int) ≤ 4080
      exact ⟨le_refl _, by decide⟩
  have h := forRangeInt_induction 1 n
    (fun _ st => StackBlurLineOperation.pixelStep 16 mi1 mi2 inc st)
    (fun _ t => t.buffer.bits = b.bits ∧ ∀ k, 0 ≤ t.rgba k ∧ t.rgba k ≤ 4080)
    { forRangeInt mi1 (mi2 + 1) StackBlurLineOperation.seed
        { p := p0, rgba := fun _ => 0, buffer := b } with
      p := (forRangeInt mi1 (mi2 + 1) StackBlurLineOperation.seed
        { p := p0, rgba := fun _ => 0, buffer := b }).p + inc }
    ⟨sb, hseed⟩
    (fun _ t _ _ h => by
      have h' : t.buffer.bits = b.bits ∧ ∀ k, 0 ≤ t.rgba k ∧ t.rgba k ≤ 4080 := h
      have hs := StackBlurLineOperation.pixelStep_sixteen mi1 mi2 inc t
        (fun a => by rw [h'.1]; exact hv a) h'.2
      show (StackBlurLineOperation.pixelStep 16 mi1 mi2 inc t).buffer.bits = b.bits ∧ _
      exact ⟨hs.1.trans h'.1, hs.2⟩)
  exact h.1

/-! ## Bounds on the accumulators -/

theorem StackBlurLineOperation.call_eq_stateAfter (op : StackBlurLineOperation)
    (startRef lineLength bytesPerLine : Int) (b : Buffer) :
    op.call startRef lineLength bytesPerLine b
      = (op.stateAfter startRef lineLength bytesPerLine b (lineLength - 1).toNat).buffer := by
  rfl

/-- With `0 ≤ alpha ≤ 16` and values of at most 12 bits the new accumulator lies between
the old one and the value read; no result leaves the range of `int`. -/
theorem StackBlurLineOperation.next_between (alpha acc v lo hi : Int) (h0 : 0 ≤ alpha)
    (h16 : alpha ≤ 16) (hlo : 0 ≤ lo) (hhi : hi ≤ 4080) (ha1 : lo ≤ acc) (ha2 : acc ≤ hi)
    (hv1 : lo ≤ v * 16) (hv2 : v * 16 ≤ hi) :
    lo ≤ StackBlurLineOperation.next alpha acc v ∧
      StackBlurLineOperation.next alpha acc v ≤ hi := by
  rw [StackBlurLineOperation.next_eq, wrapInt_of_fits (v * 16 - acc) (by unfold FitsInt; omega)]
  rcases le_or_lt 0 (v * 16 - acc) with hd | hd
  · have e1 : 0 ≤ (v * 16 - acc) * alpha := mul_nonneg hd h0
    have e2 : (v * 16 - acc) * alpha ≤ (v * 16 - acc) * 16 :=
      mul_le_mul_of_nonneg_left h16 hd
    rw [wrapInt_of_fits ((v * 16 - acc) * alpha) (by unfold FitsInt; omega),
      Int.tdiv_eq_ediv e1 (by decide)]
    have hb : lo ≤ acc + (v * 16 - acc) * alpha / 16 ∧
        acc + (v * 16 - acc) * alpha / 16 ≤ hi := by
      constructor <;> omega
    rw [wrapInt_of_fits _ (by unfold FitsInt; omega)]
    exact hb
  · have e0 : (v * 16 - acc) * alpha = -((acc - v * 16) * alpha) := by ring
    have e1 : 0 ≤ (acc - v * 16) * alpha := mul_nonneg (by omega) h0
    have e2 : (acc - v * 16) * alpha ≤ (acc - v * 16) * 16 :=
      mul_le_mul_of_nonneg_left h16 (by omega)
    rw [e0, wrapInt_of_fits (-((acc - v * 16) * alpha)) (by unfold FitsInt; omega),
      Int.neg_tdiv, Int.tdiv_eq_ediv e1 (by decide)]
    have hb : lo ≤ acc + -((acc - v * 16) * alpha / 16) ∧
        acc + -((acc - v * 16) * alpha / 16) ≤ hi := by
      constructor <;> omega
    rw [wrapInt_of_fits _ (by unfold FitsInt; omega)]
    exact hb

theorem accCode_between (alpha : Int) (inp : Nat → Int) (lo hi : Int) (h0 : 0 ≤ alpha)
    (h16 : alpha ≤ 16) (hlo : 0 ≤ lo) (hhi : hi ≤ 255) (j : Nat)
    (h : ∀ k, k ≤ j → lo ≤ inp k ∧ inp k ≤ hi) :
    lo * 16 ≤ accCode alpha inp j ∧ accCode alpha inp j ≤ hi * 16 := by
  induction j with
  | zero =>
    simp only [accCode, shiftLeft_four]
    have := h 0 (le_refl _)
    constructor <;> omega
  | succ j ih =>
    have hj := ih (fun k hk => h k (by omega))
    have hv := h (j + 1) (le_refl _)
    exact StackBlurLineOperation.next_between alpha (accCode alpha inp j) (inp (j + 1))
      (lo * 16) (hi * 16) h0 h16 (by omega) (by omega) hj.1 hj.2 (by omega) (by omega)

/-- With `0 ≤ alpha ≤ 16` a step of the recurrence of the specification stays between the
old accumulator and the value read. -/
theorem recurrence_between (alpha acc v lo hi : Int) (h0 : 0 ≤ alpha) (h16 : alpha ≤ 16)
    (ha1 : lo ≤ acc) (ha2 : acc ≤ hi) (hv1 : lo ≤ v * 16) (hv2 : v * 16 ≤ hi) :
    lo ≤ acc + ((v * 16 - acc) * alpha).tdiv 16 ∧
      acc + ((v * 16 - acc) * alpha).tdiv 16 ≤ hi ∧
      -(hi - lo) * 16 ≤ (v * 16 - acc) * alpha ∧ (v * 16 - acc) * alpha ≤ (hi - lo) * 16 := by
  rcases le_or_lt 0 (v * 16 - acc) with hd | hd
  · have e1 : 0 ≤ (v * 16 - acc) * alpha := mul_nonneg hd h0
    have e2 : (v * 16 - acc) * alpha ≤ (v * 16 - acc) * 16 :=
      mul_le_mul_of_nonneg_left h16 hd
    rw [Int.tdiv_eq_ediv e1 (by decide)]
    refine ⟨?_, ?_, ?_, ?_⟩ <;> omega
  · have e0 : (v * 16 - acc) * alpha = -((acc - v * 16) * alpha) := by ring
    have e1 : 0 ≤ (acc - v * 16) * alpha := mul_nonneg (by omega) h0
    have e2 : (acc - v * 16) * alpha ≤ (acc - v * 16) * 16 :=
      mul_le_mul_of_nonneg_left h16 (by omega)
    rw [e0, Int.neg_tdiv, Int.tdiv_eq_ediv e1 (by decide)]
    refine ⟨?_, ?_, ?_, ?_⟩ <;> omega

theorem accSpec_between (alpha : Int) (inp : Nat → Int) (lo hi : Int) (h0 : 0 ≤ alpha)
    (h16 : alpha ≤ 16) (j : Nat) (h : ∀ k, k ≤ j → lo ≤ inp k ∧ inp k ≤ hi) :
    lo * 16 ≤ accSpec alpha inp j ∧ accSpec alpha inp j ≤ hi * 16 := by
  induction j with
  | zero =>
    simp only [accSpec, shiftLeft_four]
    have := h 0 (le_refl _)
    constructor <;> omega
  | succ j ih =>
    have hj := ih (fun k hk => h k (by omega))
    have hv := h (j + 1) (le_refl _)
    have hn := recurrence_between alpha (accSpec alpha inp j) (inp (j + 1))
      (lo * 16) (hi * 16) h0 h16 hj.1 hj.2 (by omega) (by omega)
    simp only [accSpec, shiftLeft_four]
    exact ⟨hn.1, hn.2.1⟩

/-- With `0 ≤ alpha ≤ 16` and channel values that are bytes, the recurrence of the
specification stays within `int`. -/
theorem recurrenceFits_of_alpha (alpha : Int) (inp : Nat → Int) (n : Nat) (h0 : 0 ≤ alpha)
    (h16 : alpha ≤ 16) (h : ∀ k, k < n → 0 ≤ inp k ∧ inp k ≤ 255) :
    RecurrenceFits alpha inp n := by
  intro j hj
  have hj' := accSpec_between alpha inp 0 255 h0 h16 j (fun k hk => h k (by omega))
  have hv := h (j + 1) (by omega)
  have hn := recurrence_between alpha (accSpec alpha inp j) (inp (j + 1)) 0 4080 h0 h16
    (by omega) (by omega) (by omega) (by omega)
  simp only [accSpec, shiftLeft_four]
  unfold FitsInt
  refine ⟨by omega, by omega, by omega⟩

/-- Where the recurrence of the specification stays within `int`, the accumulator of the
code is the accumulator of the specification. -/
theorem accCode_eq_accSpec (alpha : Int) (inp : Nat → Int) (n : Nat)
    (h : RecurrenceFits alpha inp n) (j : Nat) (hj : j < n) :
    accCode alpha inp j = accSpec alpha inp j := by
  induction j with
  | zero => rfl
  | succ j ih =>
    obtain ⟨f1, f2, f3⟩ := h j (by omega)
    have f3' : FitsInt (accSpec alpha inp j
        + (((inp (j + 1) <<< (4 : Int)) - accSpec alpha inp j) * alpha).tdiv 16) := f3
    show StackBlurLineOperation.next alpha (accCode alpha inp j) (inp (j + 1)) = _
    rw [ih (by omega)]
    unfold StackBlurLineOperation.next
    rw [wrapInt_of_fits _ f1, wrapInt_of_fits _ f2, wrapInt_of_fits _ f3']
    rfl

theorem accByte_between (acc : Int) (lo hi : Nat) (hhi : hi ≤ 255) (h1 : (lo : Int) * 16 ≤ acc)
    (h2 : acc ≤ (hi : Int) * 16) :
    (acc >>> (4 : Nat)) % 256 = acc >>> (4 : Nat) ∧ lo ≤ accByte acc ∧ accByte acc ≤ hi := by
  unfold accByte
  rw [shiftRight_four]
  omega

theorem channelCode_between (alpha : Int) (inp : Nat → Nat) (lo hi : Nat) (h0 : 0 ≤ alpha)
    (h16 : alpha ≤ 16) (hhi : hi ≤ 255) (j : Nat) (h : ∀ k, k ≤ j → lo ≤ inp k ∧ inp k ≤ hi) :
    lo ≤ channelCode alpha inp j ∧ channelCode alpha inp j ≤ hi := by
  unfold channelCode
  by_cases hj : j = 0
  · rw [if_pos hj]
    exact h 0 (Nat.zero_le _)
  · rw [if_neg hj]
    have hb := accCode_between alpha (fun k => (inp k : Int)) lo hi h0 h16
      (Int.ofNat_nonneg lo) (by omega) j
      (fun k hk => by
        have := h k hk
        show (lo : Int) ≤ (inp k : Int) ∧ (inp k : Int) ≤ (hi : Int)
        constructor <;> omega)
    exact (accByte_between _ lo hi hhi hb.1 hb.2).2

/-- The address of the `j`-th pixel met by a pass over a line of `n` pixels. -/
theorem StackBlurLineOperation.start_add_rank (op : StackBlurLineOperation) (ref bpl : Int)
    (n j : Nat) (hj : j < n) :
    op.start ref n bpl + (j : Int) * op.increment bpl
      = ref + ((op.rank n j : Nat) : Int) * op.stride bpl := by
  have h := op.start_add ref bpl n (op.rank n j) (op.rank_lt n j hj)
  rw [op.rank_rank n j hj] at h
  exact h

/-- The accumulator of a selected channel after `m` rounds is `accCode` for the channel
values in the order of the pass. -/
theorem StackBlurLineOperation.stateAfter_rgba (op : StackBlurLineOperation) (ref : Int)
    (n : Nat) (bpl : Int) (b : Buffer) (h1 : 0 ≤ op.mi1) (h2 : op.mi2 ≤ 3)
    (hs : 4 ≤ op.stride bpl) (m : Nat) (hm : m < n) (i : Int) (hi1 : op.mi1 ≤ i)
    (hi2 : i ≤ op.mi2) :
    (op.stateAfter ref (n : Int) bpl b m).rgba i
      = accCode op.mAlpha
          (fun j => (b.bits (ref + ((op.rank n j : Nat) : Int) * op.stride bpl + i) : Int)) m := by
  have hinc : 4 ≤ op.increment bpl ∨ op.increment bpl ≤ -4 := by
    unfold StackBlurLineOperation.increment
    split
    · exact Or.inl hs
    · exact Or.inr (by omega)
  obtain ⟨_, hr, _, _⟩ := StackBlurLineOperation.pass_invariant op.mAlpha op.mi1 op.mi2
    (op.start ref n bpl) (op.increment bpl) b h1 h2 hinc m
  have e := hr i hi1 hi2
  unfold StackBlurLineOperation.stateAfter
  rw [e]
  apply accCode_congr
  intro k hk
  rw [op.start_add_rank ref bpl n k (by omega)]

/-! ## One line of a block -/

/-- In a loop whose rounds act within pairwise disjoint byte sets, the bytes of the set of
round `k` after the loop are those round `k` alone leaves. -/
theorem Buffer.ActsWithin.forRange_bits (body : Nat → Buffer → Buffer) (S : Nat → Int → Prop)
    (lo hi : Nat) (h : ∀ k, lo ≤ k → k < hi → Buffer.ActsWithin (S k) (body k))
    (hd : ∀ j k, lo ≤ j → j < hi → lo ≤ k → k < hi → j ≠ k → ∀ a, ¬ (S j a ∧ S k a))
    (b : Buffer) (k : Nat) (hk1 : lo ≤ k) (hk2 : k < hi) (a : Int) (ha : S k a) :
    (QgsImageOperation.forRange lo hi body b).bits a = (body k b).bits a := by
  rw [forRange_split lo k hi hk1 (by omega), forRange_unfold k hi, if_pos hk2]
  have hafter : Buffer.ActsWithin (fun c => ∃ j, k + 1 ≤ j ∧ j < hi ∧ S j c)
      (QgsImageOperation.forRange (k + 1) hi body) :=
    Buffer.ActsWithin.forRange body (k + 1) hi (fun j hj1 hj2 =>
      (h j (by omega) hj2).mono (fun c hc => ⟨j, hj1, hj2, hc⟩))
  have hbefore : Buffer.ActsWithin (fun c => ∃ j, lo ≤ j ∧ j < k ∧ S j c)
      (QgsImageOperation.forRange lo k body) :=
    Buffer.ActsWithin.forRange body lo k (fun j hj1 hj2 =>
      (h j hj1 (by omega)).mono (fun c hc => ⟨j, hj1, hj2, hc⟩))
  rw [hafter.1 _ a (by
    rintro ⟨j, hj1, hj2, hj⟩
    exact hd j k (by omega) hj2 hk1 hk2 (by omega) a ⟨hj, ha⟩)]
  apply (h k hk1 hk2).2 _ _ _ a ha
  intro c hc
  apply hbefore.1 b c
  rintro ⟨j, hj1, hj2, hj⟩
  exact hd j k hj1 (by omega) hk1 hk2 (by omega) c ⟨hj, hc⟩

/-- In such a loop a byte outside every round's set is unchanged. -/
theorem Buffer.ActsWithin.forRange_frame (body : Nat → Buffer → Buffer) (S : Nat → Int → Prop)
    (lo hi : Nat) (h : ∀ k, lo ≤ k → k < hi → Buffer.ActsWithin (S k) (body k))
    (b : Buffer) (a : Int) (ha : ∀ k, lo ≤ k → k < hi → ¬ S k a) :
    (QgsImageOperation.forRange lo hi body b).bits a = b.bits a := by
  have hall : Buffer.ActsWithin (fun c => ∃ j, lo ≤ j ∧ j < hi ∧ S j c) (QgsImageOperation.forRange lo hi body) :=
    Buffer.ActsWithin.forRange body lo hi (fun j hj1 hj2 =>
      (h j hj1 hj2).mono (fun c hc => ⟨j, hj1, hj2, hc⟩))
  apply hall.1 b a
  rintro ⟨j, hj1, hj2, hj⟩
  exact ha j hj1 hj2 hj

/-! ## Pixel operations in scan order -/

theorem Buffer.pixel_congr (b b' : Buffer) (a : Int)
    (h : ∀ c : Int, 0 ≤ c → c ≤ 3 → b.bits (a + c) = b'.bits (a + c)) : b.pixel a = b'.pixel a := by
  unfold Buffer.pixel
  have h0 := h 0 (by decide) (by decide)
  rw [add_zero] at h0
  rw [h0, h 1 (by decide) (by decide), h 2 (by decide) (by decide), h 3 (by decide) (by decide)]

theorem Buffer.pixel_applyPixelOp (op : Nat → Nat → Nat → Nat) (a : Int) (x y : Nat)
    (b : Buffer) :
    (b.applyPixelOp op a x y).pixel a = op (b.pixel a) x y % 4294967296 := by
  simp only [Buffer.applyPixelOp, Buffer.pixel, Buffer.setPixel, Buffer.log]
  have e1 : ¬ (a + 1 = a) := by omega
  have e2 : ¬ (a + 2 = a) := by omega
  have e3 : ¬ (a + 2 = a + 1) := by omega
  have e4 : ¬ (a + 3 = a) := by omega
  have e5 : ¬ (a + 3 = a + 1) := by omega
  have e6 : ¬ (a + 3 = a + 2) := by omega
  simp only [if_true, e1, e2, e3, e4, e5, e6, if_false]
  omega

theorem forFrom_trace (body : Nat → Buffer → Buffer) (ev : Nat → List Event) (n i : Nat)
    (b : Buffer) (h : ∀ k t, (body k t).trace = t.trace ++ ev k) :
    (forFrom body n i b).trace = b.trace ++ (List.range' i n).flatMap ev := by
  induction n generalizing i b with
  | zero => simp [forFrom]
  | succ n ih =>
    simp only [forFrom]
    rw [ih, h, List.range'_succ, List.flatMap_cons, List.append_assoc]

theorem flatMap_singleton_eq_map {α β : Type} (f : α → β) (l : List α) :
    l.flatMap (fun x => [f x]) = l.map f := by
  induction l with
  | nil => rfl
  | cons x l ih => rw [List.flatMap_cons, ih, List.map_cons, List.singleton_append]

theorem ProcessBlockUsingPixelOperation.row_trace (op : Nat → Nat → Nat → Nat) (len : Nat)
    (ref : Int) (y : Nat) (b : Buffer) :
    (ProcessBlockUsingPixelOperation.row op len ref y b).trace
      = b.trace ++ (List.range' 0 len).map (fun (x : Nat) => Event.pixelOp (ref + 4 * (x : Int)) x y) := by
  unfold ProcessBlockUsingPixelOperation.row forRange
  rw [forFrom_trace _ (fun (x : Nat) => [Event.pixelOp (ref + 4 * (x : Int)) x y]) _ _ _
    (fun k t => rfl)]
  rw [flatMap_singleton_eq_map, Nat.sub_zero]

theorem ProcessBlockUsingPixelOperation.row_actsWithin (op : Nat → Nat → Nat → Nat) (len : Nat)
    (ref : Int) (y : Nat) (S : Int → Prop)
    (hS : ∀ (x : Nat) (c : Int), x < len → 0 ≤ c → c ≤ 3 → S (ref + 4 * (x : Int) + c)) :
    Buffer.ActsWithin S (ProcessBlockUsingPixelOperation.row op len ref y) := by
  unfold ProcessBlockUsingPixelOperation.row
  apply Buffer.ActsWithin.forRange
  intro x _ hx
  apply Buffer.ActsWithin.applyPixelOp
  · simpa using hS x 0 hx (by decide) (by decide)
  · simpa [add_assoc] using hS x 1 hx (by decide) (by decide)
  · simpa [add_assoc] using hS x 2 hx (by decide) (by decide)
  · simpa [add_assoc] using hS x 3 hx (by decide) (by decide)

/-- After the loop over a row, the bytes of pixel `x` are those the call on pixel `x`
alone leaves. -/
theorem ProcessBlockUsingPixelOperation.row_bits (op : Nat → Nat → Nat → Nat) (len : Nat)
    (ref : Int) (y : Nat) (b : Buffer) (x : Nat) (hx : x < len) (c : Int) (hc0 : 0 ≤ c)
    (hc3 : c ≤ 3) :
    (ProcessBlockUsingPixelOperation.row op len ref y b).bits (ref + 4 * (x : Int) + c)
      = (b.applyPixelOp op (ref + 4 * (x : Int)) x y).bits (ref + 4 * (x : Int) + c) := by
  unfold ProcessBlockUsingPixelOperation.row
  apply Buffer.ActsWithin.forRange_bits
    (fun x b => b.applyPixelOp op (ref + 4 * (x : Int)) x y)
    (fun x a => ref + 4 * (x : Int) ≤ a ∧ a < ref + 4 * (x : Int) + 4) 0 len
  · intro k _ _
    apply Buffer.ActsWithin.applyPixelOp <;> constructor <;> omega
  · intro j k _ _ _ _ hjk a ha
    omega
  · exact Nat.zero_le _
  · exact hx
  · constructor <;> omega

/-! ## The accesses of a pass -/

theorem line_ediv_emod (ref s k c : Int) (hs : 4 ≤ s) (hc0 : 0 ≤ c) (hc3 : c ≤ 3) :
    (ref + k * s + c - ref) / s = k ∧ (ref + k * s + c - ref) % s = c := by
  have e : ref + k * s + c - ref = c + k * s := by ring
  rw [e, Int.add_mul_ediv_right _ _ (by omega), Int.add_mul_emod_self,
    Int.ediv_eq_zero_of_lt hc0 (by omega), Int.emod_eq_of_lt hc0 (by omega)]
  omega

theorem reverseLine_pixel (ref s : Int) (n : Nat) (bits : Int → Nat) (k : Nat) (c : Int)
    (hs : 4 ≤ s) (hk : k < n) (hc0 : 0 ≤ c) (hc3 : c ≤ 3) :
    reverseLine ref s n bits (ref + (k : Int) * s + c)
      = bits (ref + ((n - 1 - k : Nat) : Int) * s + c) := by
  obtain ⟨e1, e2⟩ := line_ediv_emod ref s k c hs hc0 hc3
  unfold reverseLine
  rw [e1, e2, if_pos ⟨by omega, by omega, by omega⟩]
  have e3 : ((n - 1 - k : Nat) : Int) = (n : Int) - 1 - (k : Int) := by omega
  rw [e3]

theorem reverseLine_outside (ref s : Int) (n : Nat) (bits : Int → Nat) (a : Int)
    (h : ¬ (0 ≤ (a - ref) / s ∧ (a - ref) / s < (n : Int) ∧ (a - ref) % s < 4)) :
    reverseLine ref s n bits a = bits a := by
  unfold reverseLine
  rw [if_neg h]

/-- An address that is a channel byte of a pixel of the line. -/
theorem pixel_of_inside (ref s : Int) (n : Nat) (a : Int) (hs : 4 ≤ s)
    (h : 0 ≤ (a - ref) / s ∧ (a - ref) / s < (n : Int) ∧ (a - ref) % s < 4) :
    ∃ (k : Nat) (c : Int), k < n ∧ 0 ≤ c ∧ c ≤ 3 ∧ a = ref + (k : Int) * s + c := by
  refine ⟨((a - ref) / s).toNat, (a - ref) % s, by omega, Int.emod_nonneg _ (by omega),
    by omega, ?_⟩
  have e := Int.ediv_add_emod (a - ref) s
  have e2 : ((((a - ref) / s).toNat : Nat) : Int) = (a - ref) / s := by omega
  rw [e2]
  linarith

/-- The call of a line operation on one line leaves the bytes the call itself leaves. -/
theorem LineOperation.invoke_bits (op : LineOperation) (ref : Int) (n : Nat) (bpl : Int)
    (b : Buffer) (S : Int → Prop) (h : Buffer.ActsWithin S (op.call ref (n : Int) bpl)) :
    (op.invoke ref n bpl b).bits = (op.call ref (n : Int) bpl b).bits :=
  h.bits_congr _ _ rfl

/-- After a block of a line operation whose calls act within pairwise disjoint byte sets,
the bytes of the set of line `k` are those the call on line `k` alone leaves. -/
theorem ProcessBlockUsingLineOperation.line_bits (op : LineOperation) (block : ImageBlock)
    (img : QImage) (S : Nat → Int → Prop)
    (h : ∀ k, block.beginLine ≤ k → k < block.endLine → Buffer.ActsWithin (S k)
      (op.call (lineRef op.direction img.bytesPerLine k) (block.lineLength : Int)
        (img.bytesPerLine : Int)))
    (hd : ∀ j k, block.beginLine ≤ j → j < block.endLine → block.beginLine ≤ k →
      k < block.endLine → j ≠ k → ∀ a, ¬ (S j a ∧ S k a))
    (k : Nat) (hk1 : block.beginLine ≤ k) (hk2 : k < block.endLine) (a : Int) (ha : S k a) :
    (ProcessBlockUsingLineOperation.call op block img).buffer.bits a
      = (op.call (lineRef op.direction img.bytesPerLine k) (block.lineLength : Int)
          (img.bytesPerLine : Int) img.buffer).bits a := by
  rw [ProcessBlockUsingLineOperation.call_buffer,
    Buffer.ActsWithin.forRange_bits _ S block.beginLine block.endLine
      (fun j hj1 hj2 => LineOperation.invoke_actsWithin op _ _ _ _ (h j hj1 hj2)) hd img.buffer k
      hk1 hk2 a ha,
    LineOperation.invoke_bits op _ _ _ _ _ (h k hk1 hk2)]

/-- After such a block a byte outside the set of every line is unchanged. -/
theorem ProcessBlockUsingLineOperation.line_frame (op : LineOperation) (block : ImageBlock)
    (img : QImage) (S : Nat → Int → Prop)
    (h : ∀ k, block.beginLine ≤ k → k < block.endLine → Buffer.ActsWithin (S k)
      (op.call (lineRef op.direction img.bytesPerLine k) (block.lineLength : Int)
        (img.bytesPerLine : Int)))
    (a : Int) (ha : ∀ k, block.beginLine ≤ k → k < block.endLine → ¬ S k a) :
    (ProcessBlockUsingLineOperation.call op block img).buffer.bits a = img.buffer.bits a := by
  rw [ProcessBlockUsingLineOperation.call_buffer]
  exact Buffer.ActsWithin.forRange_frame _ S block.beginLine block.endLine
    (fun j hj1 hj2 => LineOperation.invoke_actsWithin op _ _ _ _ (h j hj1 hj2)) img.buffer a ha

theorem rowBytes_pairwise (bpl : Nat) (j k : Nat) (hjk : j ≠ k) (a : Int) :
    ¬ (rowBytes bpl j (j + 1) a ∧ rowBytes bpl k (k + 1) a) :=
  fun ha => rowBytes_disjoint bpl j (j + 1) k (k + 1) (fun t ht => by omega) a ha.1 ha.2

theorem columnBytes_pairwise (bpl : Nat) (j k : Nat) (hjk : j ≠ k) (a : Int) :
    ¬ (columnBytes bpl j (j + 1) a ∧ columnBytes bpl k (k + 1) a) :=
  fun ha => columnBytes_disjoint bpl j (j + 1) k (k + 1) (fun t ht => by omega) a ha.1 ha.2

theorem ProcessBlockUsingLineOperation.call_dims (op : LineOperation) (block : ImageBlock)
    (img : QImage) :
    (ProcessBlockUsingLineOperation.call op block img).width = img.width ∧
      (ProcessBlockUsingLineOperation.call op block img).height = img.height ∧
      (ProcessBlockUsingLineOperation.call op block img).bytesPerLine = img.bytesPerLine := by
  rw [ProcessBlockUsingLineOperation.call_eq]
  exact ⟨rfl, rfl, rfl⟩

theorem in_pixel_iff (ref s k a : Int) (hs : 4 ≤ s) :
    (ref + k * s ≤ a ∧ a < ref + k * s + 4) ↔ ((a - ref) / s = k ∧ (a - ref) % s < 4) := by
  constructor
  · intro h
    obtain ⟨e1, e2⟩ := line_ediv_emod ref s k (a - (ref + k * s)) hs (by omega) (by omega)
    have e : ref + k * s + (a - (ref + k * s)) = a := by ring
    rw [e] at e1 e2
    exact ⟨e1, by omega⟩
  · rintro ⟨h1, h2⟩
    have e := Int.ediv_add_emod (a - ref) s
    have h0 := Int.emod_nonneg (a - ref) (show s ≠ 0 by omega)
    rw [h1] at e
    have e' : s * k = k * s := by ring
    constructor <;> omega

theorem reversePart_zero (ref s : Int) (n : Nat) (bits : Int → Nat) :
    reversePart ref s n 0 bits = bits := by
  funext a
  unfold reversePart
  rw [if_neg (by omega)]

theorem reversePart_half (ref s : Int) (n : Nat) (bits : Int → Nat) :
    reversePart ref s n (n / 2) bits = reverseLine ref s n bits := by
  funext a
  unfold reversePart reverseLine
  by_cases h : 0 ≤ (a - ref) / s ∧ (a - ref) / s < (n : Int) ∧ (a - ref) % s < 4
  · rw [if_pos h]
    by_cases h2 : (a - ref) / s < ((n / 2 : Nat) : Int) ∨
        (n : Int) - ((n / 2 : Nat) : Int) ≤ (a - ref) / s
    · rw [if_pos ⟨h.1, h.2.1, h.2.2, h2⟩]
    · rw [if_neg (fun hc => h2 hc.2.2.2)]
      have hq : (n : Int) - 1 - (a - ref) / s = (a - ref) / s := by omega
      have e := Int.ediv_add_emod (a - ref) s
      rw [hq]
      congr 1
      linarith
  · rw [if_neg h, if_neg (fun hc => h ⟨hc.1, hc.2.1, hc.2.2.1⟩)]

/-- One exchange of the flip: pixel `m` and pixel `n - 1 - m` change places. -/
theorem FlipLineOperation.swapPixels_reversePart (ref s : Int) (n m : Nat) (b : Buffer)
    (bits : Int → Nat) (hs : 4 ≤ s) (hm : 2 * m + 2 ≤ n) (hb : b.bits = reversePart ref s n m bits) :
    (FlipLineOperation.swapPixels (ref + (m : Int) * s) (ref + ((n : Int) - 1 - (m : Int)) * s)
      b).bits = reversePart ref s n (m + 1) bits := by
  funext a
  have hp := in_pixel_iff ref s (m : Int) a hs
  have hq := in_pixel_iff ref s ((n : Int) - 1 - (m : Int)) a hs
  have e := Int.ediv_add_emod (a - ref) s
  simp only [FlipLineOperation.swapPixels, hb]
  by_cases h1 : ref + (m : Int) * s ≤ a ∧ a < ref + (m : Int) * s + 4
  · rw [if_pos h1]
    obtain ⟨q1, q2⟩ := hp.mp h1
    have ea : a - (ref + (m : Int) * s) + (ref + ((n : Int) - 1 - (m : Int)) * s)
        = ref + ((n : Int) - 1 - (m : Int)) * s + (a - ref) % s := by
      rw [q1] at e
      linarith
    obtain ⟨d1, d2⟩ := line_ediv_emod ref s ((n : Int) - 1 - (m : Int)) ((a - ref) % s) hs
      (Int.emod_nonneg _ (by omega)) (by omega)
    rw [ea]
    unfold reversePart
    rw [d1, d2, q1, if_neg (by omega), if_pos ⟨by omega, by omega, q2, Or.inl (by push_cast; omega)⟩]
  · rw [if_neg h1]
    by_cases h2 : ref + ((n : Int) - 1 - (m : Int)) * s ≤ a ∧
        a < ref + ((n : Int) - 1 - (m : Int)) * s + 4
    · rw [if_pos h2]
      obtain ⟨q1, q2⟩ := hq.mp h2
      have ea : a - (ref + ((n : Int) - 1 - (m : Int)) * s) + (ref + (m : Int) * s)
          = ref + (m : Int) * s + (a - ref) % s := by
        rw [q1] at e
        linarith
      obtain ⟨d1, d2⟩ := line_ediv_emod ref s (m : Int) ((a - ref) % s) hs
        (Int.emod_nonneg _ (by omega)) (by omega)
      rw [ea]
      unfold reversePart
      rw [d1, d2, q1, if_neg (by omega),
        if_pos ⟨by omega, by omega, q2, Or.inr (by push_cast; omega)⟩]
      congr 1
      ring
    · rw [if_neg h2]
      have n1 : ¬ ((a - ref) / s = (m : Int) ∧ (a - ref) % s < 4) := fun hc => h1 (hp.mpr hc)
      have n2 : ¬ ((a - ref) / s = (n : Int) - 1 - (m : Int) ∧ (a - ref) % s < 4) :=
        fun hc => h2 (hq.mpr hc)
      unfold reversePart
      by_cases hc : 0 ≤ (a - ref) / s ∧ (a - ref) / s < (n : Int) ∧ (a - ref) % s < 4 ∧
          ((a - ref) / s < (m : Int) ∨ (n : Int) - (m : Int) ≤ (a - ref) / s)
      · rw [if_pos hc, if_pos ⟨hc.1, hc.2.1, hc.2.2.1, by push_cast; omega⟩]
      · rw [if_neg hc, if_neg]
        rintro ⟨c1, c2, c3, c4⟩
        apply hc
        refine ⟨c1, c2, c3, ?_⟩
        push_cast at c4
        by_contra hcon
        have : (a - ref) / s = (m : Int) ∨ (a - ref) / s = (n : Int) - 1 - (m : Int) := by omega
        rcases this with t | t
        · exact n1 ⟨t, c3⟩
        · exact n2 ⟨t, c3⟩

/-- The flip of a line leaves its pixels in reverse order and every other byte as it was. -/
theorem FlipLineOperation.call_bits (op : FlipLineOperation) (ref : Int) (n : Nat) (bpl : Int)
    (b : Buffer) (hs : 4 ≤ op.stride bpl) :
    (op.call ref (n : Int) bpl b).bits = reverseLine ref (op.stride bpl) n b.bits := by
  have h := forRangeInt_induction 0 ((n : Int) / 2)
    (fun k b =>
      FlipLineOperation.swapPixels (ref + k * op.stride bpl)
        (ref + ((n : Int) - 1 - k) * op.stride bpl) b)
    (fun k t => t.bits = reversePart ref (op.stride bpl) n k.toNat b.bits) b
    (by
      show b.bits = reversePart ref (op.stride bpl) n 0 b.bits
      rw [reversePart_zero])
    (by
      intro k t hk1 hk2 ht
      have e1 : ((k.toNat : Nat) : Int) = k := by omega
      have e2 : (k + 1).toNat = k.toNat + 1 := by omega
      have hstep := FlipLineOperation.swapPixels_reversePart ref (op.stride bpl) n k.toNat t
        b.bits hs (by omega) ht
      rw [e1] at hstep
      show (FlipLineOperation.swapPixels _ _ t).bits = _
      rw [e2]
      exact hstep)
  have e3 : (max 0 ((n : Int) / 2)).toNat = n / 2 := by omega
  have h' : (forRangeInt 0 ((n : Int) / 2)
      (fun k b =>
        FlipLineOperation.swapPixels (ref + k * op.stride bpl)
          (ref + ((n : Int) - 1 - k) * op.stride bpl) b) b).bits
      = reversePart ref (op.stride bpl) n (max 0 ((n : Int) / 2)).toNat b.bits := h
  rw [e3, reversePart_half] at h'
  exact h'

theorem reverseLine_reverseLine (ref s : Int) (n : Nat) (bits : Int → Nat) (hs : 4 ≤ s) :
    reverseLine ref s n (reverseLine ref s n bits) = bits := by
  funext a
  by_cases hin : 0 ≤ (a - ref) / s ∧ (a - ref) / s < (n : Int) ∧ (a - ref) % s < 4
  · obtain ⟨k, c, hk, hc0, hc3, rfl⟩ := pixel_of_inside ref s n a hs hin
    rw [reverseLine_pixel ref s n _ k c hs hk hc0 hc3,
      reverseLine_pixel ref s n _ (n - 1 - k) c hs (by omega) hc0 hc3]
    have e : n - 1 - (n - 1 - k) = k := by omega
    rw [e]
  · rw [reverseLine_outside _ _ _ _ _ hin, reverseLine_outside _ _ _ _ _ hin]

/-- Flipping a line twice restores its bytes. -/
theorem FlipLineOperation.flip_flip (op : FlipLineOperation) (ref : Int) (n : Nat) (bpl : Int)
    (b : Buffer) (hs : 4 ≤ op.stride bpl) :
    (op.call ref (n : Int) bpl (op.call ref (n : Int) bpl b)).bits = b.bits := by
  rw [op.call_bits ref n bpl _ hs, op.call_bits ref n bpl b hs, reverseLine_reverseLine _ _ _ _ hs]

/-- The flip of a line acts within any byte set that holds the pixels of the line. -/
theorem FlipLineOperation.flip_actsWithin (op : FlipLineOperation) (ref : Int) (n : Nat)
    (bpl : Int) (S : Int → Prop) (hs : 4 ≤ op.stride bpl)
    (hS : ∀ (k : Nat) (c : Int), k < n → 0 ≤ c → c ≤ 3 → S (ref + (k : Int) * op.stride bpl + c)) :
    Buffer.ActsWithin S (op.call ref (n : Int) bpl) := by
  constructor
  · intro b a ha
    rw [op.call_bits ref n bpl b hs]
    apply reverseLine_outside
    intro hin
    obtain ⟨k, c, hk, hc0, hc3, rfl⟩ := pixel_of_inside ref _ n a hs hin
    exact ha (hS k c hk hc0 hc3)
  · intro b b' hag a _
    rw [op.call_bits ref n bpl b hs, op.call_bits ref n bpl b' hs]
    by_cases hin : 0 ≤ (a - ref) / op.stride bpl ∧ (a - ref) / op.stride bpl < (n : Int) ∧
        (a - ref) % op.stride bpl < 4
    · obtain ⟨k, c, hk, hc0, hc3, rfl⟩ := pixel_of_inside ref _ n a hs hin
      rw [reverseLine_pixel ref _ n _ k c hs hk hc0 hc3,
        reverseLine_pixel ref _ n _ k c hs hk hc0 hc3]
      exact hag _ (hS (n - 1 - k) c (by omega) hc0 hc3)
    · rw [reverseLine_outside _ _ _ _ _ hin, reverseLine_outside _ _ _ _ _ hin]
      exact hag a ‹S a›

/-- A block of a line operation whose calls act within pairwise disjoint byte sets and
restore the bytes when made twice restores the bytes when run twice. -/
theorem ProcessBlockUsingLineOperation.call_call (op : LineOperation) (block : ImageBlock)
    (img : QImage) (S : Nat → Int → Prop)
    (h : ∀ k, block.beginLine ≤ k → k < block.endLine → Buffer.ActsWithin (S k)
      (op.call (lineRef op.direction img.bytesPerLine k) (block.lineLength : Int)
        (img.bytesPerLine : Int)))
    (hd : ∀ j k, block.beginLine ≤ j → j < block.endLine → block.beginLine ≤ k →
      k < block.endLine → j ≠ k → ∀ a, ¬ (S j a ∧ S k a))
    (hinv : ∀ k, block.beginLine ≤ k → k < block.endLine → ∀ b,
      (op.call (lineRef op.direction img.bytesPerLine k) (block.lineLength : Int)
        (img.bytesPerLine : Int)
        (op.call (lineRef op.direction img.bytesPerLine k) (block.lineLength : Int)
          (img.bytesPerLine : Int) b)).bits = b.bits) :
    (ProcessBlockUsingLineOperation.call op block
      (ProcessBlockUsingLineOperation.call op block img)).SameBuffer img := by
  have hdim := ProcessBlockUsingLineOperation.call_dims op block img
  have hdim2 := ProcessBlockUsingLineOperation.call_dims op block
    (ProcessBlockUsingLineOperation.call op block img)
  refine ⟨by rw [hdim2.1, hdim.1], by rw [hdim2.2.1, hdim.2.1], by rw [hdim2.2.2, hdim.2.2], ?_⟩
  have h' : ∀ k, block.beginLine ≤ k → k < block.endLine → Buffer.ActsWithin (S k)
      (op.call
        (lineRef op.direction (ProcessBlockUsingLineOperation.call op block img).bytesPerLine k)
        (block.lineLength : Int)
        ((ProcessBlockUsingLineOperation.call op block img).bytesPerLine : Int)) := by
    rw [hdim.2.2]
    exact h
  funext a
  by_cases ha : ∃ k, block.beginLine ≤ k ∧ k < block.endLine ∧ S k a
  · obtain ⟨k, hk1, hk2, hS⟩ := ha
    rw [ProcessBlockUsingLineOperation.line_bits op block _ S h' hd k hk1 hk2 a hS, hdim.2.2,
      ← hinv k hk1 hk2 img.buffer]
    apply (h k hk1 hk2).2 _ _ _ a hS
    intro c hc
    exact ProcessBlockUsingLineOperation.line_bits op block img S h hd k hk1 hk2 c hc
  · have hno : ∀ k, block.beginLine ≤ k → k < block.endLine → ¬ S k a :=
      fun k hk1 hk2 hS => ha ⟨k, hk1, hk2, hS⟩
    rw [ProcessBlockUsingLineOperation.line_frame op block _ S h' a hno,
      ProcessBlockUsingLineOperation.line_frame op block img S h a hno]

theorem minUpTo_le (g : Nat → ℚ) (m p : Nat) (hp : p ≤ m) : minUpTo g m ≤ g p := by
  induction m with
  | zero =>
      have : p = 0 := by omega
      subst this
      exact le_refl _
  | succ m ih =>
      simp only [minUpTo]
      by_cases h : p = m + 1
      · subst h
        exact min_le_right _ _
      · exact le_trans (min_le_left _ _) (ih (by omega))

theorem le_minUpTo (g : Nat → ℚ) (m : Nat) (y : ℚ) (h : ∀ p, p ≤ m → y ≤ g p) :
    y ≤ minUpTo g m := by
  induction m with
  | zero => exact h 0 (le_refl _)
  | succ m ih =>
      simp only [minUpTo]
      exact le_min (ih (fun p hp => h p (by omega))) (h (m + 1) (le_refl _))

theorem minUpTo_eq (g : Nat → ℚ) (m p : Nat) (hp : p ≤ m) (h : ∀ r, r ≤ m → g p ≤ g r) :
    g p = minUpTo g m :=
  le_antisymm (le_minUpTo g m _ h) (minUpTo_le g m p hp)

theorem parabolaIntersection_le_iff (f : Nat → ℚ) (p q : Nat) (hpq : p < q) (x : ℚ) :
    parabolaIntersection f p q ≤ x ↔ envelopeLine f q x ≤ envelopeLine f p x := by
  have hd : (0 : ℚ) < 2 * (q : ℚ) - 2 * (p : ℚ) := by
    have : (p : ℚ) < (q : ℚ) := by exact_mod_cast hpq
    linarith
  unfold parabolaIntersection envelopeLine
  rw [div_le_iff₀ hd]
  constructor <;> intro h <;> nlinarith

theorem le_parabolaIntersection_iff (f : Nat → ℚ) (p q : Nat) (hpq : p < q) (x : ℚ) :
    x ≤ parabolaIntersection f p q ↔ envelopeLine f p x ≤ envelopeLine f q x := by
  have hd : (0 : ℚ) < 2 * (q : ℚ) - 2 * (p : ℚ) := by
    have : (p : ℚ) < (q : ℚ) := by exact_mod_cast hpq
    linarith
  unfold parabolaIntersection envelopeLine
  rw [le_div_iff₀ hd]
  constructor <;> intro h <;> nlinarith

theorem neg_inf_lt_parabolaIntersection (inf : ℚ) (f : Nat → ℚ) (p q : Nat) (hpq : p < q)
    (hq : -inf ≤ f q) (hp : f p ≤ inf) (hinf : 0 ≤ inf) :
    -inf < parabolaIntersection f p q := by
  have hlt : (p : ℚ) + 1 ≤ (q : ℚ) := by exact_mod_cast hpq
  have hp0 : (0 : ℚ) ≤ (p : ℚ) := Nat.cast_nonneg p
  have hd : (0 : ℚ) < 2 * (q : ℚ) - 2 * (p : ℚ) := by linarith
  have h1 : 0 ≤ inf * ((q : ℚ) - (p : ℚ) - 1) := mul_nonneg hinf (by linarith)
  have h2 : 0 < ((q : ℚ) - (p : ℚ)) * ((q : ℚ) + (p : ℚ)) := mul_pos (by linarith) (by linarith)
  unfold parabolaIntersection
  rw [lt_div_iff₀ hd]
  nlinarith

theorem envelopeLine_add_sq (f : Nat → ℚ) (p : Nat) (x : ℚ) :
    envelopeLine f p x + x ^ 2 = f p + (x - (p : ℚ)) ^ 2 := by
  unfold envelopeLine
  ring

theorem Envelope.Lowest.chain {inf : ℚ} {f : Nat → ℚ} {q : Nat} {e : Envelope}
    (h : e.Lowest inf f q) (j i : Nat) (hji : j ≤ i) (hi : i ≤ e.k) : e.z j ≤ e.z i := by
  induction i with
  | zero =>
      have : j = 0 := by omega
      subst this
      exact le_refl _
  | succ i ih =>
      by_cases hj : j = i + 1
      · subst hj
        exact le_refl _
      · exact le_trans (ih (by omega) (by omega)) (h.2.2.2.1 i (by omega))

theorem lowerIndex_spec (inf : ℚ) (f : Nat → ℚ) (v : Nat → Nat) (z : Nat → ℚ) (q K : Nat)
    (hv : ∀ j, j ≤ K → v j < q)
    (hlow : ∀ j, j ≤ K → ∀ x, z j ≤ x → x ≤ z (j + 1) → x ≤ inf → ∀ p, p < q →
      envelopeLine f (v j) x ≤ envelopeLine f p x)
    (hguard : ¬ parabolaIntersection f (v 0) q ≤ z 0) (k : Nat) (hk : k ≤ K)
    (hW : ∀ x, z k ≤ x → x ≤ inf → ∀ p, p < q →
      envelopeLine f (v k) x ≤ envelopeLine f p x ∨ envelopeLine f q x ≤ envelopeLine f p x) :
    ∃ k', lowerIndex f v z q k = some k' ∧ k' ≤ k ∧
      ¬ parabolaIntersection f (v k') q ≤ z k' ∧
      ∀ x, z k' ≤ x → x ≤ inf → ∀ p, p < q →
        envelopeLine f (v k') x ≤ envelopeLine f p x ∨
          envelopeLine f q x ≤ envelopeLine f p x := by
  induction k with
  | zero =>
      refine ⟨0, ?_, le_refl _, hguard, hW⟩
      simp only [lowerIndex, if_neg hguard]
  | succ k ih =>
      by_cases hs : parabolaIntersection f (v (k + 1)) q ≤ z (k + 1)
      · have hW' : ∀ x, z k ≤ x → x ≤ inf → ∀ p, p < q →
            envelopeLine f (v k) x ≤ envelopeLine f p x ∨
              envelopeLine f q x ≤ envelopeLine f p x := by
          intro x hx hxi p hp
          by_cases hxz : x ≤ z (k + 1)
          · exact Or.inl (hlow k (by omega) x hx hxz hxi p hp)
          · have hxz' : z (k + 1) ≤ x := le_of_lt (not_le.mp hxz)
            have hqx : envelopeLine f q x ≤ envelopeLine f (v (k + 1)) x :=
              (parabolaIntersection_le_iff f (v (k + 1)) q (hv (k + 1) hk) x).mp
                (le_trans hs hxz')
            rcases hW x hxz' hxi p hp with h | h
            · exact Or.inr (le_trans hqx h)
            · exact Or.inr h
        obtain ⟨k', h1, h2, h3, h4⟩ := ih (by omega) hW'
        refine ⟨k', ?_, by omega, h3, h4⟩
        simp only [lowerIndex, if_pos hs]
        exact h1
      · refine ⟨k + 1, ?_, le_refl _, hs, hW⟩
        simp only [lowerIndex, if_neg hs]

theorem Envelope.Lowest.insert {inf : ℚ} {f : Nat → ℚ} {q : Nat} {e : Envelope}
    (h : e.Lowest inf f q) (hq : -inf ≤ f q) (hf : ∀ p, p < q → f p ≤ inf) (hinf : 0 ≤ inf) :
    ∃ e', e.insert inf f q = some e' ∧ e'.Lowest inf f (q + 1) := by
  obtain ⟨hz0, hztop, hv, hmono, hlow⟩ := h
  have hall : e.Lowest inf f q := ⟨hz0, hztop, hv, hmono, hlow⟩
  have hguard : ¬ parabolaIntersection f (e.v 0) q ≤ e.z 0 := by
    rw [hz0]
    exact not_le.mpr (neg_inf_lt_parabolaIntersection inf f (e.v 0) q (hv 0 (Nat.zero_le _)) hq
      (hf _ (hv 0 (Nat.zero_le _))) hinf)
  have hW : ∀ x, e.z e.k ≤ x → x ≤ inf → ∀ p, p < q →
      envelopeLine f (e.v e.k) x ≤ envelopeLine f p x ∨
        envelopeLine f q x ≤ envelopeLine f p x := by
    intro x hx hxi p hp
    exact Or.inl (hlow e.k (le_refl _) x hx (by rw [hztop]; exact hxi) hxi p hp)
  obtain ⟨k, hk1, hk2, hk3, hk4⟩ :=
    lowerIndex_spec inf f e.v e.z q e.k hv hlow hguard e.k (le_refl _) hW
  have hs : e.z k < parabolaIntersection f (e.v k) q := not_le.mp hk3
  have hvk : e.v k < q := hv k hk2
  refine ⟨_, by simp only [Envelope.insert, hk1, Option.map_some']; rfl, ?_⟩
  have hzold : ∀ j, j ≤ k → (if j = k + 1 then parabolaIntersection f (e.v k) q
      else if j = k + 2 then inf else e.z j) = e.z j := by
    intro j hj
    rw [if_neg (by omega), if_neg (by omega)]
  have hvold : ∀ j, j ≤ k → (if j = k + 1 then q else e.v j) = e.v j := by
    intro j hj
    rw [if_neg (by omega)]
  refine ⟨?_, ?_, ?_, ?_, ?_⟩
  · show (if 0 = k + 1 then parabolaIntersection f (e.v k) q
        else if 0 = k + 2 then inf else e.z 0) = -inf
    rw [hzold 0 (Nat.zero_le _)]
    exact hz0
  · show (if k + 1 + 1 = k + 1 then parabolaIntersection f (e.v k) q
        else if k + 1 + 1 = k + 2 then inf else e.z (k + 1 + 1)) = inf
    rw [if_neg (by omega), if_pos rfl]
  · intro j hj
    show (if j = k + 1 then q else e.v j) < q + 1
    by_cases hjk : j = k + 1
    · rw [if_pos hjk]
      omega
    · rw [if_neg hjk]
      have : j ≤ k + 1 := hj
      have := hv j (by omega)
      omega
  · intro j hj
    have hj' : j < k + 1 := hj
    show (if j = k + 1 then parabolaIntersection f (e.v k) q
        else if j = k + 2 then inf else e.z j) ≤
      (if j + 1 = k + 1 then parabolaIntersection f (e.v k) q
        else if j + 1 = k + 2 then inf else e.z (j + 1))
    rw [hzold j (by omega)]
    by_cases hjk : j = k
    · subst hjk
      rw [if_pos rfl]
      exact le_of_lt hs
    · rw [if_neg (by omega), if_neg (by omega)]
      exact hmono j (by omega)
  · intro j hj x hx1 hx2 hxi p hp
    have hj' : j ≤ k + 1 := hj
    have hx1' : (if j = k + 1 then parabolaIntersection f (e.v k) q
        else if j = k + 2 then inf else e.z j) ≤ x := hx1
    have hx2' : x ≤ (if j + 1 = k + 1 then parabolaIntersection f (e.v k) q
        else if j + 1 = k + 2 then inf else e.z (j + 1)) := hx2
    show envelopeLine f (if j = k + 1 then q else e.v j) x ≤ envelopeLine f p x
    by_cases hpq : p = q
    · subst hpq
      by_cases hjk : j = k + 1
      · rw [if_pos hjk]
      · rw [if_neg hjk]
        by_cases hjk' : j = k
        · subst hjk'
          rw [if_pos rfl] at hx2'
          exact (le_parabolaIntersection_iff f (e.v j) p hvk x).mp hx2'
        · rw [if_neg (by omega), if_neg (by omega)] at hx2'
          rw [hzold j (by omega)] at hx1'
          have hxk : x ≤ parabolaIntersection f (e.v k) p :=
            le_trans hx2' (le_trans (hall.chain (j + 1) k (by omega) hk2) (le_of_lt hs))
          have h1 : envelopeLine f (e.v k) x ≤ envelopeLine f p x :=
            (le_parabolaIntersection_iff f (e.v k) p hvk x).mp hxk
          exact le_trans (hlow j (by omega) x hx1' hx2' hxi (e.v k) hvk) h1
    · have hp' : p < q := by omega
      by_cases hjk : j = k + 1
      · rw [if_pos hjk]
        rw [if_pos hjk] at hx1'
        have hqx : envelopeLine f q x ≤ envelopeLine f (e.v k) x :=
          (parabolaIntersection_le_iff f (e.v k) q hvk x).mp hx1'
        rcases hk4 x (le_trans (le_of_lt hs) hx1') hxi p hp' with h | h
        · exact le_trans hqx h
        · exact h
      · rw [if_neg hjk]
        rw [hzold j (by omega)] at hx1'
        by_cases hjk' : j = k
        · subst hjk'
          rw [if_pos rfl] at hx2'
          have hvx : envelopeLine f (e.v j) x ≤ envelopeLine f q x :=
            (le_parabolaIntersection_iff f (e.v j) q hvk x).mp hx2'
          rcases hk4 x hx1' hxi p hp' with h | h
          · exact h
          · exact le_trans hvx h
        · rw [if_neg (by omega), if_neg (by omega)] at hx2'
          exact hlow j (by omega) x hx1' hx2' hxi p hp'

theorem Envelope.init_lowest (inf : ℚ) (f : Nat → ℚ) : (Envelope.init inf).Lowest inf f 1 := by
  refine ⟨rfl, rfl, ?_, ?_, ?_⟩
  · intro j _
    exact Nat.zero_lt_one
  · intro j hj
    exact absurd hj (Nat.not_lt_zero _)
  · intro j _ x _ _ _ p hp
    have : p = 0 := by omega
    subst this
    exact le_refl _

theorem envelope_lowest (inf : ℚ) (f : Nat → ℚ) (n : Nat) (hn : 1 ≤ n)
    (hf : ∀ p, p < n → -inf ≤ f p ∧ f p ≤ inf) (hinf : 0 ≤ inf) :
    ∃ e, envelope inf f n = some e ∧ e.Lowest inf f n := by
  have h := forRange_induction 1 n (fun q st => st.bind (Envelope.insert inf f q))
    (fun q st => ∃ e, st = some e ∧ e.Lowest inf f q) (some (Envelope.init inf))
    ⟨_, rfl, Envelope.init_lowest inf f⟩
    (by
      intro q st _ hq hst
      obtain ⟨e, he, hlow⟩ := hst
      obtain ⟨e', he', hlow'⟩ :=
        hlow.insert (hf q hq).1 (fun p hp => (hf p (by omega)).2) hinf
      exact ⟨e', by rw [he]; exact he', hlow'⟩)
  rw [max_eq_right hn] at h
  exact h

theorem raiseIndex_spec (inf : ℚ) (z : Nat → ℚ) (q K : Nat) (htop : z (K + 1) = inf)
    (hq : (q : ℚ) ≤ inf) (fuel k : Nat) (hk : k + fuel = K) (hz : z k ≤ (q : ℚ)) :
    ∃ k', raiseIndex z q fuel k = some k' ∧ k' ≤ K ∧ z k' ≤ (q : ℚ) ∧
      (q : ℚ) ≤ z (k' + 1) := by
  induction fuel generalizing k with
  | zero =>
      have hkK : k = K := by omega
      have hnot : ¬ z (k + 1) < (q : ℚ) := by
        rw [hkK, htop]
        exact not_lt.mpr hq
      refine ⟨k, ?_, by omega, hz, not_lt.mp hnot⟩
      simp only [raiseIndex, if_neg hnot]
  | succ fuel ih =>
      by_cases hlt : z (k + 1) < (q : ℚ)
      · obtain ⟨k', h1, h2, h3, h4⟩ := ih (k + 1) (by omega) (le_of_lt hlt)
        refine ⟨k', ?_, h2, h3, h4⟩
        simp only [raiseIndex, if_pos hlt]
        exact h1
      · refine ⟨k, ?_, by omega, hz, not_lt.mp hlt⟩
        simp only [raiseIndex, if_neg hlt]

theorem raiseIndex_ge (z : Nat → ℚ) (q : Nat) (fuel k k' : Nat)
    (h : raiseIndex z q fuel k = some k') : k ≤ k' := by
  induction fuel generalizing k with
  | zero =>
      simp only [raiseIndex] at h
      split at h
      · exact absurd h (by simp)
      · have := Option.some.inj h
        omega
  | succ fuel ih =>
      simp only [raiseIndex] at h
      split at h
      · have := ih (k + 1) h
        omega
      · have := Option.some.inj h
        omega

theorem Envelope.Lowest.value {inf : ℚ} {f : Nat → ℚ} {n : Nat} {e : Envelope}
    (h : e.Lowest inf f n) (hn : 1 ≤ n) (q k : Nat) (hk : k ≤ e.k) (hq : (q : ℚ) ≤ inf)
    (h1 : e.z k ≤ (q : ℚ)) (h2 : (q : ℚ) ≤ e.z (k + 1)) :
    ((q : ℚ) - (e.v k : ℚ)) ^ 2 + f (e.v k) = distanceReference f n q := by
  have hv : e.v k < n := h.2.2.1 k hk
  have key := minUpTo_eq (fun p => f p + ((q : ℚ) - (p : ℚ)) ^ 2) (n - 1) (e.v k) (by omega)
    (by
      intro r hr
      have hl := h.2.2.2.2 k hk (q : ℚ) h1 h2 hq r (by omega)
      have e1 := envelopeLine_add_sq f (e.v k) (q : ℚ)
      have e2 := envelopeLine_add_sq f r (q : ℚ)
      show f (e.v k) + ((q : ℚ) - (e.v k : ℚ)) ^ 2 ≤ f r + ((q : ℚ) - (r : ℚ)) ^ 2
      linarith)
  unfold distanceReference
  rw [← key]
  ring

theorem cast_le_of_sq_lt (inf : ℚ) (n q : Nat) (hq : q < n)
    (hinf : ((n : ℚ) - 1) ^ 2 < inf) : (q : ℚ) ≤ inf := by
  have h1 : (q : ℚ) + 1 ≤ (n : ℚ) := by exact_mod_cast hq
  have h0 : (0 : ℚ) ≤ (q : ℚ) := Nat.cast_nonneg q
  by_cases hz : q = 0
  · subst hz
    have : (0 : ℚ) ≤ ((n : ℚ) - 1) ^ 2 := sq_nonneg _
    simp only [Nat.cast_zero]
    linarith
  · have hq1 : (1 : ℚ) ≤ (q : ℚ) := by exact_mod_cast Nat.one_le_iff_ne_zero.mpr hz
    nlinarith

/-! ## Lines of no pixel -/

theorem forRange_id {σ : Type} (lo hi : Nat) (body : Nat → σ → σ) (s : σ)
    (h : ∀ k t, lo ≤ k → k < hi → body k t = t) : forRange lo hi body s = s :=
  forRange_induction lo hi body (fun _ t => t = s) s rfl
    (fun k t hk1 hk2 ht => by rw [h k t hk1 hk2, ht])

/-- What holds on a block with `lineLength = 0` (and any line range):
`ProcessBlockUsingPixelOperation` reads and writes no pixel and leaves the image as it is,
trace included; `ProcessBlockUsingLineOperation` with a stack blur pass in either direction
leaves the buffer (dimensions, row stride and bytes) unchanged and adds no byte write and
no pixel operation to the trace. -/
theorem zero_lineLength_writes_nothing (img : QImage) (block : ImageBlock)
    (h0 : block.lineLength = 0) :
    (∀ op : Nat → Nat → Nat → Nat, ProcessBlockUsingPixelOperation.call op block img = img) ∧
    (∀ op : StackBlurLineOperation,
      (ProcessBlockUsingLineOperation.call op.toLineOperation block img).SameBuffer img ∧
      Buffer.Appends Event.IsNoWrite img.buffer
        (ProcessBlockUsingLineOperation.call op.toLineOperation block img).buffer) := by
  constructor
  · intro op
    unfold ProcessBlockUsingPixelOperation.call
    have e : forRange block.beginLine block.endLine
        (fun y b => ProcessBlockUsingPixelOperation.row op block.lineLength (img.scanLine y) y b)
        img.buffer = img.buffer := by
      apply forRange_id
      intro k t _ _
      unfold ProcessBlockUsingPixelOperation.row
      rw [h0]
      rfl
    simp only [e]
  · intro op
    have hshort : ∀ ref b,
        Buffer.Appends Event.IsNoWrite b
            (op.toLineOperation.call ref (block.lineLength : Int) (img.bytesPerLine : Int) b) ∧
          (op.toLineOperation.call ref (block.lineLength : Int) (img.bytesPerLine : Int) b).bits
            = b.bits := by
      intro ref b
      show Buffer.Appends Event.IsNoWrite b (op.call ref _ _ b) ∧ (op.call ref _ _ b).bits = b.bits
      rw [StackBlurLineOperation.call_eq_pass]
      exact StackBlurLineOperation.pass_short (fun _ => trivial) (fun _ => trivial) _ _ _ _ _ _
        (by rw [h0]; decide) b
    refine ⟨⟨?_, ?_, ?_, ?_⟩, ?_⟩
    · rw [ProcessBlockUsingLineOperation.call_eq]
    · rw [ProcessBlockUsingLineOperation.call_eq]
    · rw [ProcessBlockUsingLineOperation.call_eq]
    · exact ProcessBlockUsingLineOperation.call_bits_of_id _ block img (fun ref b => (hshort ref b).2)
    · exact ProcessBlockUsingLineOperation.call_appends _ block img (fun _ => trivial)
        (fun ref b => (hshort ref b).1)

/-! ## The claims -/

/-- C1: for every image of `W` columns and `H` rows, every pixel operation that is a
function of its arguments and every partition of the row range `[0, H)` into contiguous
blocks without gap or overlap, each of line length `W`, running
`ProcessBlockUsingPixelOperation` on the blocks one after the other yields exactly the
image (dimensions, bytes and trace) that running it once on the single block `[0, H)`
yields; and, the row stride being at least 4 bytes per column, running the blocks of the
partition in any other order yields the same buffer (dimensions, row stride and bytes). -/
theorem pixelOperation_partition_eq_single (op : Nat → Nat → Nat → Nat) (img : QImage)
    (blocks : List ImageBlock) (h : IsPartition blocks 0 img.height img.width) :
    blocks.foldl (fun im b => ProcessBlockUsingPixelOperation.call op b im) img
        = ProcessBlockUsingPixelOperation.call op ⟨0, img.height, img.width⟩ img ∧
      (img.WellFormed → ∀ blocks' : List ImageBlock, blocks'.Perm blocks →
        (blocks'.foldl (fun im b => ProcessBlockUsingPixelOperation.call op b im) img).SameBuffer
          (ProcessBlockUsingPixelOperation.call op ⟨0, img.height, img.width⟩ img)) := by
  have hord := ProcessBlockUsingPixelOperation.pixelFoldl_partition op blocks 0 img.height
    img.width img h
  refine ⟨hord, fun hwf blocks' hp => ?_⟩
  unfold QImage.WellFormed at hwf
  rw [← hord]
  apply ProcessBlockUsingPixelOperation.pixelFoldl_perm op img
    (fun blk => rowBytes img.bytesPerLine blk.beginLine blk.endLine) blocks blocks' hp
  · intro blk hblk
    have := (IsPartition.begin_ge h blk hblk).2.2
    exact ProcessBlockUsingPixelOperation.pixelRows_actsWithin op blk img (by omega)
  · exact IsPartition.pairwise_rowBytes h img.bytesPerLine

theorem pixelOperation_partition_eq_single_witness :
    IsPartition [⟨0, 1, 2⟩, ⟨1, 2, 2⟩, ⟨2, 3, 2⟩, ⟨3, 4, 2⟩] 0 exampleImage.height
        exampleImage.width ∧
      ([⟨0, 1, 2⟩, ⟨1, 2, 2⟩, ⟨2, 3, 2⟩, ⟨3, 4, 2⟩] : List ImageBlock).foldl
          (fun im b => ProcessBlockUsingPixelOperation.call examplePixelOp b im) exampleImage
        = ProcessBlockUsingPixelOperation.call examplePixelOp
            ⟨0, exampleImage.height, exampleImage.width⟩ exampleImage ∧
      (([⟨1, 2, 2⟩, ⟨0, 1, 2⟩, ⟨2, 3, 2⟩, ⟨3, 4, 2⟩] : List ImageBlock).foldl
          (fun im b => ProcessBlockUsingPixelOperation.call examplePixelOp b im)
          exampleImage).SameBuffer
        (ProcessBlockUsingPixelOperation.call examplePixelOp
          ⟨0, exampleImage.height, exampleImage.width⟩ exampleImage) :=
  have hp : IsPartition [⟨0, 1, 2⟩, ⟨1, 2, 2⟩, ⟨2, 3, 2⟩, ⟨3, 4, 2⟩] 0 exampleImage.height
      exampleImage.width := by simp [IsPartition, exampleImage]
  have h := pixelOperation_partition_eq_single examplePixelOp exampleImage _ hp
  ⟨hp, h.1, h.2 (by unfold QImage.WellFormed; decide) _ (List.Perm.swap _ _ _)⟩

/-- C2: for every image, every stack blur line pass (any alpha, forward or backward, any
channel range) and every partition of the line range (the rows, of line length the width,
when the pass is by row; the columns, of line length the height, when it is by column)
into contiguous blocks without gap or overlap, running `ProcessBlockUsingLineOperation`
on the blocks one after the other yields exactly the image (dimensions, bytes and trace)
that running it once on the single block covering the whole range yields; and, the row
stride being at least 4 bytes per column and the channel range within 0..3, running the
blocks of the partition in any other order yields the same buffer (dimensions, row stride
and bytes). -/
theorem stackBlur_partition_eq_single (op : StackBlurLineOperation) (img : QImage)
    (blocks : List ImageBlock)
    (h : IsPartition blocks 0 (img.lineCount op.mDirection) (img.lineLength op.mDirection)) :
    blocks.foldl (fun im b => ProcessBlockUsingLineOperation.call op.toLineOperation b im) img
        = ProcessBlockUsingLineOperation.call op.toLineOperation
            ⟨0, img.lineCount op.mDirection, img.lineLength op.mDirection⟩ img ∧
      (img.WellFormed → 0 ≤ op.mi1 → op.mi2 ≤ 3 →
        ∀ blocks' : List ImageBlock, blocks'.Perm blocks →
          (blocks'.foldl (fun im b => ProcessBlockUsingLineOperation.call op.toLineOperation b im)
              img).SameBuffer
            (ProcessBlockUsingLineOperation.call op.toLineOperation
              ⟨0, img.lineCount op.mDirection, img.lineLength op.mDirection⟩ img)) := by
  have hord := ProcessBlockUsingLineOperation.lineFoldl_partition op.toLineOperation blocks 0 _ _
    img h
  refine ⟨hord, fun hwf h1 h2 blocks' hp => ?_⟩
  unfold QImage.WellFormed at hwf
  rw [← hord]
  cases hdir : op.mDirection with
  | ByRow =>
    rw [hdir] at h
    apply ProcessBlockUsingLineOperation.lineFoldl_perm op.toLineOperation img
      (fun blk => rowBytes img.bytesPerLine blk.beginLine blk.endLine) blocks blocks' hp
    · intro blk hblk
      have := (IsPartition.begin_ge h blk hblk).2.2
      simp only [QImage.lineLength] at this
      exact StackBlurLineOperation.rows_actsWithin op hdir h1 h2 blk img (by omega)
    · exact IsPartition.pairwise_rowBytes h img.bytesPerLine
  | ByColumn =>
    rw [hdir] at h
    apply ProcessBlockUsingLineOperation.lineFoldl_perm op.toLineOperation img
      (fun blk => columnBytes img.bytesPerLine blk.beginLine blk.endLine) blocks blocks' hp
    · intro blk hblk
      have := (IsPartition.begin_ge h blk hblk).2.1
      simp only [QImage.lineCount] at this
      exact StackBlurLineOperation.columns_actsWithin op hdir h1 h2 blk img (by omega)
    · exact IsPartition.pairwise_columnBytes h img.bytesPerLine

theorem stackBlur_partition_eq_single_witness :
    IsPartition [⟨0, 1, 4⟩, ⟨1, 1, 4⟩, ⟨1, 2, 4⟩]
        0 (exampleImage.lineCount exampleColumnBlur.mDirection)
        (exampleImage.lineLength exampleColumnBlur.mDirection) ∧
      ([⟨0, 1, 4⟩, ⟨1, 1, 4⟩, ⟨1, 2, 4⟩] : List ImageBlock).foldl
          (fun im b => ProcessBlockUsingLineOperation.call exampleColumnBlur.toLineOperation b im)
          exampleImage
        = ProcessBlockUsingLineOperation.call exampleColumnBlur.toLineOperation
            ⟨0, exampleImage.lineCount exampleColumnBlur.mDirection,
              exampleImage.lineLength exampleColumnBlur.mDirection⟩ exampleImage ∧
      (([⟨1, 1, 4⟩, ⟨0, 1, 4⟩, ⟨1, 2, 4⟩] : List ImageBlock).foldl
          (fun im b => ProcessBlockUsingLineOperation.call exampleColumnBlur.toLineOperation b im)
          exampleImage).SameBuffer
        (ProcessBlockUsingLineOperation.call exampleColumnBlur.toLineOperation
          ⟨0, exampleImage.lineCount exampleColumnBlur.mDirection,
            exampleImage.lineLength exampleColumnBlur.mDirection⟩ exampleImage) :=
  have hp : IsPartition [⟨0, 1, 4⟩, ⟨1, 1, 4⟩, ⟨1, 2, 4⟩]
      0 (exampleImage.lineCount exampleColumnBlur.mDirection)
      (exampleImage.lineLength exampleColumnBlur.mDirection) := by
    simp [IsPartition, exampleImage, exampleColumnBlur, QImage.lineCount, QImage.lineLength]
  have h := stackBlur_partition_eq_single exampleColumnBlur exampleImage _ hp
  ⟨hp, h.1, h.2 (by unfold QImage.WellFormed; decide) (by decide) (by decide) _
    (List.Perm.swap _ _ _)⟩

/-- C3 (as amended): for every line of `n ≥ 1` pixels (channel bytes 0..3 in each pixel,
pixels at least 4 bytes apart), every integer alpha and every selected channel `i`
(`0 ≤ mi1 ≤ i ≤ mi2 ≤ 3`), a forward pass leaves channel `i` of pixel 0 unchanged; where
the recurrence `acc_0 = in_0 << 4`, `acc_j = acc_(j-1) + ((in_j << 4) - acc_(j-1)) * alpha / 16`
(division truncating toward zero, `in_j` the value channel `i` of pixel `j` had before the
pass) stays within a 32-bit `int` along the line, the pass stores in channel `i` of every
pixel `j` with `1 ≤ j < n` the byte `(acc_j >> 4) mod 256`; and the recurrence does stay
within `int` whenever `0 ≤ alpha ≤ 16` and the channel values are bytes. -/
theorem stackBlur_forward_recurrence (op : StackBlurLineOperation) (startRef : Int) (n : Nat)
    (bytesPerLine : Int) (b : Buffer) (hn : 1 ≤ n) (hfwd : op.mForwardDirection = true)
    (h1 : 0 ≤ op.mi1) (h2 : op.mi2 ≤ 3)
    (hs : op.mDirection = LineOperationDirection.ByColumn → 4 ≤ bytesPerLine)
    (i : Int) (hi1 : op.mi1 ≤ i) (hi2 : i ≤ op.mi2) :
    (op.call startRef (n : Int) bytesPerLine b).bits (startRef + i) = b.bits (startRef + i) ∧
      (RecurrenceFits op.mAlpha
          (fun k => (b.bits (startRef + (k : Int) * op.stride bytesPerLine + i) : Int)) n →
        ∀ j : Nat, 1 ≤ j → j < n →
          (op.call startRef (n : Int) bytesPerLine b).bits
              (startRef + (j : Int) * op.stride bytesPerLine + i)
            = accByte (accSpec op.mAlpha
                (fun k => (b.bits (startRef + (k : Int) * op.stride bytesPerLine + i) : Int))
                j)) ∧
      (0 ≤ op.mAlpha → op.mAlpha ≤ 16 →
        (∀ k : Nat, k < n → b.bits (startRef + (k : Int) * op.stride bytesPerLine + i) ≤ 255) →
        RecurrenceFits op.mAlpha
          (fun k => (b.bits (startRef + (k : Int) * op.stride bytesPerLine + i) : Int)) n) := by
  have hs4 : 4 ≤ op.stride bytesPerLine := by
    unfold StackBlurLineOperation.stride
    cases hd : op.mDirection with
    | ByRow => simp
    | ByColumn => simpa using hs hd
  have hrank : ∀ k, op.rank n k = k := by
    intro k
    simp [StackBlurLineOperation.rank, hfwd]
  refine ⟨?_, ?_, ?_⟩
  · have h := op.call_channel startRef n bytesPerLine b h1 h2 hs4 0 i (by omega) hi1 hi2
    simp only [hrank, channelCode, if_true] at h
    simpa using h
  · intro hfit j hj1 hj2
    have h := op.call_channel startRef n bytesPerLine b h1 h2 hs4 j i hj2 hi1 hi2
    simp only [hrank, channelCode] at h
    rw [if_neg (by omega)] at h
    rw [h, accCode_eq_accSpec op.mAlpha _ n hfit j hj2]
  · intro h0 h16 hbytes
    apply recurrenceFits_of_alpha op.mAlpha _ n h0 h16
    intro k hk
    have := hbytes k hk
    show (0 : Int) ≤ (b.bits _ : Int) ∧ (b.bits _ : Int) ≤ 255
    constructor <;> omega

theorem stackBlur_forward_recurrence_witness :
    RecurrenceFits exampleRowBlur.mAlpha
        (fun k => (exampleImage.buffer.bits (0 + (k : Int) * exampleRowBlur.stride 8 + 1) : Int))
        2 ∧
      (exampleRowBlur.call 0 ((2 : Nat) : Int) 8 exampleImage.buffer).bits (0 + 1)
        = exampleImage.buffer.bits (0 + 1) ∧
      ∀ j : Nat, 1 ≤ j → j < 2 →
        (exampleRowBlur.call 0 ((2 : Nat) : Int) 8 exampleImage.buffer).bits
            (0 + (j : Int) * exampleRowBlur.stride 8 + 1)
          = accByte (accSpec exampleRowBlur.mAlpha
              (fun k =>
                (exampleImage.buffer.bits (0 + (k : Int) * exampleRowBlur.stride 8 + 1) : Int))
              j) :=
  have h := stackBlur_forward_recurrence exampleRowBlur 0 2 8 exampleImage.buffer (by decide) rfl
    (by decide) (by decide) (by intro h; cases h) 1 (by decide) (by decide)
  have hf := h.2.2 (by decide) (by decide) (by decide)
  ⟨hf, h.1, h.2.1 hf⟩

/-- C3 (as stated) fails where a product leaves the range of `int`: with `alpha = 1000003`
on the first column of the example image (channel 0 holding 0, 40, 80, 120) the forward
pass stores 248 in channel 0 of pixel 3, and the recurrence over the integers gives 182. -/
theorem stackBlur_forward_recurrence_overflows :
    (exampleSteepBlur.call 0 ((4 : Nat) : Int) 8 exampleImage.buffer).bits (0 + (3 : Int) * 8 + 0)
        = 248 ∧
      accByte (accSpec exampleSteepBlur.mAlpha
          (fun k => (exampleImage.buffer.bits (0 + (k : Int) * 8 + 0) : Int)) 3) = 182 ∧
      (exampleSteepBlur.call 0 ((4 : Nat) : Int) 8 exampleImage.buffer).bits
          (0 + (3 : Int) * 8 + 0)
        ≠ accByte (accSpec exampleSteepBlur.mAlpha
            (fun k => (exampleImage.buffer.bits (0 + (k : Int) * 8 + 0) : Int)) 3) := by
  decide

/-- C4: the order in which two blocks are processed is unobservable.  For every image
(row stride at least 4 bytes per column) and every two blocks `A` and `B` of the image
whose line ranges have no line in common, processing `A` then `B` gives the same buffer
(dimensions, row stride and bytes) as processing `B` then `A`: for
`ProcessBlockUsingPixelOperation` with a pixel operation that is a function of its
arguments, and for `ProcessBlockUsingLineOperation` with a stack blur pass on channels
within 0..3, by row or by column. -/
theorem block_order_unobservable (img : QImage) (A B : ImageBlock) (hwf : img.WellFormed)
    (hdisj : A.Disjoint B) :
    (∀ op : Nat → Nat → Nat → Nat, A.lineLength ≤ img.width → B.lineLength ≤ img.width →
      (ProcessBlockUsingPixelOperation.call op B
          (ProcessBlockUsingPixelOperation.call op A img)).SameBuffer
        (ProcessBlockUsingPixelOperation.call op A
          (ProcessBlockUsingPixelOperation.call op B img))) ∧
    (∀ op : StackBlurLineOperation, 0 ≤ op.mi1 → op.mi2 ≤ 3 →
      (op.mDirection = LineOperationDirection.ByRow →
        A.lineLength ≤ img.width → B.lineLength ≤ img.width →
        (ProcessBlockUsingLineOperation.call op.toLineOperation B
            (ProcessBlockUsingLineOperation.call op.toLineOperation A img)).SameBuffer
          (ProcessBlockUsingLineOperation.call op.toLineOperation A
            (ProcessBlockUsingLineOperation.call op.toLineOperation B img))) ∧
      (op.mDirection = LineOperationDirection.ByColumn →
        A.endLine ≤ img.width → B.endLine ≤ img.width →
        (ProcessBlockUsingLineOperation.call op.toLineOperation B
            (ProcessBlockUsingLineOperation.call op.toLineOperation A img)).SameBuffer
          (ProcessBlockUsingLineOperation.call op.toLineOperation A
            (ProcessBlockUsingLineOperation.call op.toLineOperation B img)))) := by
  unfold QImage.WellFormed at hwf
  refine ⟨fun op hA hB => ?_, fun op h1 h2 => ⟨fun hdir hA hB => ?_, fun hdir hA hB => ?_⟩⟩
  · exact ProcessBlockUsingPixelOperation.commute_blocks op img A B hdisj (by omega) (by omega)
  · exact StackBlurLineOperation.commute_rows op img A B hdisj hdir h1 h2 (by omega) (by omega)
  · exact StackBlurLineOperation.commute_columns op img A B hdisj hdir h1 h2 (by omega) (by omega)

theorem block_order_unobservable_witness :
    exampleImage.WellFormed ∧ ImageBlock.Disjoint ⟨0, 1, 2⟩ ⟨1, 2, 2⟩ ∧
      (ProcessBlockUsingPixelOperation.call examplePixelOp ⟨1, 2, 2⟩
          (ProcessBlockUsingPixelOperation.call examplePixelOp ⟨0, 1, 2⟩ exampleImage)).SameBuffer
        (ProcessBlockUsingPixelOperation.call examplePixelOp ⟨0, 1, 2⟩
          (ProcessBlockUsingPixelOperation.call examplePixelOp ⟨1, 2, 2⟩ exampleImage)) ∧
      (ProcessBlockUsingLineOperation.call exampleRowBlur.toLineOperation ⟨1, 2, 2⟩
          (ProcessBlockUsingLineOperation.call exampleRowBlur.toLineOperation ⟨0, 1, 2⟩
            exampleImage)).SameBuffer
        (ProcessBlockUsingLineOperation.call exampleRowBlur.toLineOperation ⟨0, 1, 2⟩
          (ProcessBlockUsingLineOperation.call exampleRowBlur.toLineOperation ⟨1, 2, 2⟩
            exampleImage)) ∧
      (ProcessBlockUsingLineOperation.call exampleColumnBlur.toLineOperation ⟨1, 2, 2⟩
          (ProcessBlockUsingLineOperation.call exampleColumnBlur.toLineOperation ⟨0, 1, 2⟩
            exampleImage)).SameBuffer
        (ProcessBlockUsingLineOperation.call exampleColumnBlur.toLineOperation ⟨0, 1, 2⟩
          (ProcessBlockUsingLineOperation.call exampleColumnBlur.toLineOperation ⟨1, 2, 2⟩
            exampleImage)) :=
  have hwf : exampleImage.WellFormed := by unfold QImage.WellFormed; decide
  have hd : ImageBlock.Disjoint ⟨0, 1, 2⟩ ⟨1, 2, 2⟩ := by
    intro k hk
    simp only at hk
    omega
  have h := block_order_unobservable exampleImage ⟨0, 1, 2⟩ ⟨1, 2, 2⟩ hwf hd
  ⟨hwf, hd, h.1 examplePixelOp (by decide) (by decide),
    (h.2 exampleRowBlur (by decide) (by decide)).1 rfl (by decide) (by decide),
    (h.2 exampleColumnBlur (by decide) (by decide)).2 rfl (by decide) (by decide)⟩

/-- C5: processing one block touches only the pixels of that block.  For every image (row
stride at least 4 bytes per column) and every block of the image,
`ProcessBlockUsingPixelOperation` and `ProcessBlockUsingLineOperation` with a by-row stack
blur pass leave every byte of every row outside `[beginLine, endLine)` unchanged (block of
line length at most the width), and `ProcessBlockUsingLineOperation` with a by-column
stack blur pass leaves every pixel byte of every column outside `[beginLine, endLine)`
unchanged (block with `endLine` at most the width); the passes are on channels within
0..3. -/
theorem block_touches_only_its_lines (img : QImage) (block : ImageBlock)
    (hwf : img.WellFormed) :
    (∀ op : Nat → Nat → Nat → Nat, block.lineLength ≤ img.width →
      ∀ (y : Nat) (c : Int), ¬ (block.beginLine ≤ y ∧ y < block.endLine) → 0 ≤ c →
        c < (img.bytesPerLine : Int) →
        (ProcessBlockUsingPixelOperation.call op block img).buffer.bits (img.scanLine y + c)
          = img.buffer.bits (img.scanLine y + c)) ∧
    (∀ op : StackBlurLineOperation, 0 ≤ op.mi1 → op.mi2 ≤ 3 →
      (op.mDirection = LineOperationDirection.ByRow → block.lineLength ≤ img.width →
        ∀ (y : Nat) (c : Int), ¬ (block.beginLine ≤ y ∧ y < block.endLine) → 0 ≤ c →
          c < (img.bytesPerLine : Int) →
          (ProcessBlockUsingLineOperation.call op.toLineOperation block img).buffer.bits
              (img.scanLine y + c)
            = img.buffer.bits (img.scanLine y + c)) ∧
      (op.mDirection = LineOperationDirection.ByColumn → block.endLine ≤ img.width →
        ∀ (x y : Nat) (c : Int), ¬ (block.beginLine ≤ x ∧ x < block.endLine) → x < img.width →
          0 ≤ c → c ≤ 3 →
          (ProcessBlockUsingLineOperation.call op.toLineOperation block img).buffer.bits
              (img.scanLine y + 4 * (x : Int) + c)
            = img.buffer.bits (img.scanLine y + 4 * (x : Int) + c))) := by
  unfold QImage.WellFormed at hwf
  have hrow : ∀ (y : Nat) (c : Int), ¬ (block.beginLine ≤ y ∧ y < block.endLine) → 0 ≤ c →
      c < (img.bytesPerLine : Int) →
      ¬ rowBytes img.bytesPerLine block.beginLine block.endLine (img.scanLine y + c) := by
    intro y c hy hc0 hc1
    exact rowBytes_disjoint img.bytesPerLine y (y + 1) block.beginLine block.endLine
      (fun k hk => hy (by omega)) _
      (rowBytes_of img.bytesPerLine y (y + 1) y c (le_refl _) (by omega) hc0 hc1)
  refine ⟨fun op hlen y c hy hc0 hc1 => ?_, fun op h1 h2 =>
    ⟨fun hdir hlen y c hy hc0 hc1 => ?_, fun hdir hend x y c hx hxw hc0 hc3 => ?_⟩⟩
  · exact (ProcessBlockUsingPixelOperation.pixelRows_actsWithin op block img (by omega)).1
      img.buffer _ (hrow y c hy hc0 hc1)
  · exact (StackBlurLineOperation.rows_actsWithin op hdir h1 h2 block img (by omega)).1
      img.buffer _ (hrow y c hy hc0 hc1)
  · have hcol : ¬ columnBytes img.bytesPerLine block.beginLine block.endLine
        (img.scanLine y + 4 * (x : Int) + c) := by
      have e : img.scanLine y + 4 * (x : Int) + c
          = 4 * (x : Int) + (y : Int) * (img.bytesPerLine : Int) + c := by
        unfold QImage.scanLine
        ring
      rw [e]
      exact columnBytes_disjoint img.bytesPerLine x (x + 1) block.beginLine block.endLine
        (fun k hk => hx (by omega)) _
        (columnBytes_of img.bytesPerLine x (x + 1) x (y : Int) c (le_refl _) (by omega)
          (by omega) hc0 hc3)
    exact (StackBlurLineOperation.columns_actsWithin op hdir h1 h2 block img (by omega)).1
      img.buffer _ hcol

theorem block_touches_only_its_lines_witness :
    exampleImage.WellFormed ∧
      (ProcessBlockUsingPixelOperation.call examplePixelOp ⟨1, 3, 2⟩ exampleImage).buffer.bits
          (exampleImage.scanLine 3 + 5)
        = exampleImage.buffer.bits (exampleImage.scanLine 3 + 5) ∧
      (ProcessBlockUsingLineOperation.call exampleRowBlur.toLineOperation ⟨1, 3, 2⟩
          exampleImage).buffer.bits (exampleImage.scanLine 0 + 7)
        = exampleImage.buffer.bits (exampleImage.scanLine 0 + 7) ∧
      (ProcessBlockUsingLineOperation.call exampleColumnBlur.toLineOperation ⟨1, 2, 4⟩
          exampleImage).buffer.bits (exampleImage.scanLine 2 + 4 * ((0 : Nat) : Int) + 3)
        = exampleImage.buffer.bits (exampleImage.scanLine 2 + 4 * ((0 : Nat) : Int) + 3) :=
  have hwf : exampleImage.WellFormed := by unfold QImage.WellFormed; decide
  have h := block_touches_only_its_lines exampleImage
  ⟨hwf,
    (h ⟨1, 3, 2⟩ hwf).1 examplePixelOp (by decide) 3 5 (by decide) (by decide) (by decide),
    ((h ⟨1, 3, 2⟩ hwf).2 exampleRowBlur (by decide) (by decide)).1 rfl (by decide) 0 7
      (by decide) (by decide) (by decide),
    ((h ⟨1, 2, 4⟩ hwf).2 exampleColumnBlur (by decide) (by decide)).2 rfl (by decide) 0 2 3
      (by decide) (by decide) (by decide) (by decide)⟩


/-- C6: for every line (channel bytes 0..3 in each pixel, pixels at least 4 bytes apart),
every alpha and every direction of the pass, every channel byte whose index lies outside
the selected range `[mi1, mi2]` (itself within 0..3) is unchanged in every pixel; so when
only the alpha channel is selected (`mi1 = mi2`) the three other channel bytes of every
pixel are unchanged. -/
theorem stackBlur_unselected_channels_unchanged (op : StackBlurLineOperation) (startRef : Int)
    (n : Nat) (bytesPerLine : Int) (b : Buffer) (h1 : 0 ≤ op.mi1) (h2 : op.mi2 ≤ 3)
    (hs : op.mDirection = LineOperationDirection.ByColumn → 4 ≤ bytesPerLine)
    (k : Nat) (c : Int) (hc0 : 0 ≤ c) (hc3 : c ≤ 3) (hc : c < op.mi1 ∨ op.mi2 < c) :
    (op.call startRef (n : Int) bytesPerLine b).bits
        (startRef + (k : Int) * op.stride bytesPerLine + c)
      = b.bits (startRef + (k : Int) * op.stride bytesPerLine + c) := by
  have hs4 : 4 ≤ op.stride bytesPerLine := by
    unfold StackBlurLineOperation.stride
    cases hd : op.mDirection with
    | ByRow => simp
    | ByColumn => simpa using hs hd
  have h := op.call_actsWithin startRef n bytesPerLine
    (fun a => ∃ k' i : Int, op.mi1 ≤ i ∧ i ≤ op.mi2 ∧
      a = startRef + k' * op.stride bytesPerLine + i)
    (fun k' i _ _ hi1 hi2 => ⟨k', i, hi1, hi2, rfl⟩)
  apply h.1
  rintro ⟨k', i, hi1, hi2, heq⟩
  have := addr_inj (op.stride bytesPerLine) (k : Int) k' c i hs4 hc0 hc3 (by omega) (by omega)
    (by omega)
  omega

theorem stackBlur_unselected_channels_unchanged_witness :
    (exampleAlphaBlur.call 8 ((2 : Nat) : Int) 8 exampleImage.buffer).bits
        (8 + ((1 : Nat) : Int) * exampleAlphaBlur.stride 8 + 2)
      = exampleImage.buffer.bits (8 + ((1 : Nat) : Int) * exampleAlphaBlur.stride 8 + 2) :=
  stackBlur_unselected_channels_unchanged exampleAlphaBlur 8 2 8 exampleImage.buffer
    (by decide) (by decide) (by intro h; cases h) 1 2 (by decide) (by decide)
    (Or.inl (by decide))

/-- C7: with all four channels selected (`mi1 = 0`, `mi2 = 3`) a pass processes the
channels identically and independently: for every channel `i` and every two lines of the
same length whose pixels agree on channel `i`, the two output lines agree on channel `i`;
and channel `i` of the output equals channel `i` of the output of the single-channel pass
(`mi1 = mi2 = i`) with the same alpha and direction. -/
theorem stackBlur_channels_independent (op : StackBlurLineOperation) (startRef startRef' : Int)
    (n : Nat) (bytesPerLine bytesPerLine' : Int) (b b' : Buffer)
    (hm1 : op.mi1 = 0) (hm2 : op.mi2 = 3)
    (hs : op.mDirection = LineOperationDirection.ByColumn → 4 ≤ bytesPerLine)
    (hs' : op.mDirection = LineOperationDirection.ByColumn → 4 ≤ bytesPerLine')
    (i : Int) (hi0 : 0 ≤ i) (hi3 : i ≤ 3) :
    ((∀ k : Nat, k < n →
        b.bits (startRef + (k : Int) * op.stride bytesPerLine + i)
          = b'.bits (startRef' + (k : Int) * op.stride bytesPerLine' + i)) →
      ∀ k : Nat, k < n →
        (op.call startRef (n : Int) bytesPerLine b).bits
            (startRef + (k : Int) * op.stride bytesPerLine + i)
          = (op.call startRef' (n : Int) bytesPerLine' b').bits
            (startRef' + (k : Int) * op.stride bytesPerLine' + i)) ∧
    (∀ k : Nat, k < n →
      (op.call startRef (n : Int) bytesPerLine b).bits
          (startRef + (k : Int) * op.stride bytesPerLine + i)
        = (StackBlurLineOperation.call { op with mi1 := i, mi2 := i } startRef (n : Int)
            bytesPerLine b).bits (startRef + (k : Int) * op.stride bytesPerLine + i)) := by
  have hs4 : ∀ bpl : Int, (op.mDirection = LineOperationDirection.ByColumn → 4 ≤ bpl) →
      4 ≤ op.stride bpl := by
    intro bpl h
    unfold StackBlurLineOperation.stride
    cases hd : op.mDirection with
    | ByRow => simp
    | ByColumn => simpa using h hd
  constructor
  · intro hag k hk
    rw [op.call_channel startRef n bytesPerLine b (by omega) (by omega) (hs4 _ hs) k i hk
        (by omega) (by omega),
      op.call_channel startRef' n bytesPerLine' b' (by omega) (by omega) (hs4 _ hs') k i hk
        (by omega) (by omega)]
    apply channelCode_congr
    intro j hj
    exact hag (op.rank n j) (op.rank_lt n j (lt_of_le_of_lt hj (op.rank_lt n k hk)))
  · intro k hk
    rw [op.call_channel startRef n bytesPerLine b (by omega) (by omega) (hs4 _ hs) k i hk
        (by omega) (by omega)]
    have h := StackBlurLineOperation.call_channel { op with mi1 := i, mi2 := i } startRef n
      bytesPerLine b hi0 hi3 (hs4 _ hs) k i hk (le_refl _) (le_refl _)
    exact h.symm

theorem stackBlur_channels_independent_witness :
    (∀ k : Nat, k < 2 →
      (exampleRowBlur.call 8 ((2 : Nat) : Int) 8 exampleImage.buffer).bits
          (8 + (k : Int) * exampleRowBlur.stride 8 + 2)
        = (exampleRowBlur.call 8 ((2 : Nat) : Int) 8 exampleChannelBuffer).bits
          (8 + (k : Int) * exampleRowBlur.stride 8 + 2)) ∧
    (∀ k : Nat, k < 2 →
      (exampleRowBlur.call 8 ((2 : Nat) : Int) 8 exampleImage.buffer).bits
          (8 + (k : Int) * exampleRowBlur.stride 8 + 2)
        = (StackBlurLineOperation.call { exampleRowBlur with mi1 := 2, mi2 := 2 } 8
            ((2 : Nat) : Int) 8 exampleImage.buffer).bits
          (8 + (k : Int) * exampleRowBlur.stride 8 + 2)) :=
  have h := stackBlur_channels_independent exampleRowBlur 8 8 2 8 8 exampleImage.buffer
    exampleChannelBuffer rfl rfl (by intro h; cases h) (by intro h; cases h) 2 (by decide)
    (by decide)
  ⟨h.1 (by
      intro k hk
      have hk' : k = 0 ∨ k = 1 := by omega
      rcases hk' with rfl | rfl <;> decide), h.2⟩


/-- C9: a degenerate block is skipped.  For every image and every block with
`beginLine = endLine`, `ProcessBlockUsingPixelOperation` and
`ProcessBlockUsingLineOperation` (with any line operation, by row or by column) return
the image as it is: no byte changes and the trace gains no event, so the operation is
invoked zero times. -/
theorem degenerate_block_skipped (img : QImage) (block : ImageBlock)
    (h : block.beginLine = block.endLine) :
    (∀ op : Nat → Nat → Nat → Nat, ProcessBlockUsingPixelOperation.call op block img = img) ∧
    (∀ op : LineOperation, ProcessBlockUsingLineOperation.call op block img = img) :=
  ⟨fun op => ProcessBlockUsingPixelOperation.pixelCall_empty op block img (by omega),
    fun op => ProcessBlockUsingLineOperation.lineCall_empty op block img (by omega)⟩

theorem degenerate_block_skipped_witness :
    (ProcessBlockUsingPixelOperation.call examplePixelOp ⟨2, 2, 2⟩ exampleImage = exampleImage) ∧
      (ProcessBlockUsingLineOperation.call exampleRowBlur.toLineOperation ⟨2, 2, 2⟩ exampleImage
        = exampleImage) ∧
      (ProcessBlockUsingLineOperation.call exampleColumnBlur.toLineOperation ⟨2, 2, 4⟩ exampleImage
        = exampleImage) :=
  have h := degenerate_block_skipped exampleImage
  ⟨(h ⟨2, 2, 2⟩ rfl).1 examplePixelOp, (h ⟨2, 2, 2⟩ rfl).2 exampleRowBlur.toLineOperation,
    (h ⟨2, 2, 4⟩ rfl).2 exampleColumnBlur.toLineOperation⟩

/-- C11: flip is an involution.  For every image (row stride at least 4 bytes per column),
applying `flipImage` with `FlipHorizontal` twice, or with `FlipVertical` twice, restores
the original buffer exactly (dimensions, row stride and bytes): the flip of a line
reverses the order of its pixels by exchanging them from both ends, and reversing twice
is the identity. -/
theorem flipImage_involution (img : QImage) (type : FlipType) (hwf : img.WellFormed) :
    (flipImage (flipImage img type) type).SameBuffer img := by
  unfold QImage.WellFormed at hwf
  cases type with
  | FlipHorizontal =>
    have hd := ProcessBlockUsingLineOperation.call_dims
      (FlipLineOperation.mk LineOperationDirection.ByRow).toLineOperation
      ⟨0, img.height, img.width⟩ img
    show (ProcessBlockUsingLineOperation.call _
      ⟨0, (ProcessBlockUsingLineOperation.call _ ⟨0, img.height, img.width⟩ img).height,
        (ProcessBlockUsingLineOperation.call _ ⟨0, img.height, img.width⟩ img).width⟩
      (ProcessBlockUsingLineOperation.call _ ⟨0, img.height, img.width⟩ img)).SameBuffer img
    rw [hd.1, hd.2.1]
    apply ProcessBlockUsingLineOperation.call_call _ _ _
      (fun k => rowBytes img.bytesPerLine k (k + 1))
    · intro k _ _
      apply FlipLineOperation.flip_actsWithin (FlipLineOperation.mk LineOperationDirection.ByRow) _ _
        (img.bytesPerLine : Int) _ (le_refl (4 : Int))
      intro j c hj hc0 hc3
      have e : (k : Int) * (img.bytesPerLine : Int) + (j : Int) * 4 + c
          = (k : Int) * (img.bytesPerLine : Int) + ((j : Int) * 4 + c) := by ring
      show rowBytes _ _ _ ((k : Int) * (img.bytesPerLine : Int) + (j : Int) * 4 + c)
      rw [e]
      exact rowBytes_of _ _ _ k _ (le_refl _) (by omega) (by omega)
        (by
          have hj' : j < img.width := hj
          omega)
    · intro j k _ _ _ _ hjk a
      exact rowBytes_pairwise _ j k hjk a
    · intro k _ _ b
      exact FlipLineOperation.flip_flip (FlipLineOperation.mk LineOperationDirection.ByRow) _ _
        (img.bytesPerLine : Int) b (le_refl (4 : Int))
  | FlipVertical =>
    have hd := ProcessBlockUsingLineOperation.call_dims
      (FlipLineOperation.mk LineOperationDirection.ByColumn).toLineOperation
      ⟨0, img.width, img.height⟩ img
    show (ProcessBlockUsingLineOperation.call _
      ⟨0, (ProcessBlockUsingLineOperation.call _ ⟨0, img.width, img.height⟩ img).width,
        (ProcessBlockUsingLineOperation.call _ ⟨0, img.width, img.height⟩ img).height⟩
      (ProcessBlockUsingLineOperation.call _ ⟨0, img.width, img.height⟩ img)).SameBuffer img
    rw [hd.1, hd.2.1]
    have hst : ∀ k : Nat, k < img.width →
        4 ≤ (FlipLineOperation.mk LineOperationDirection.ByColumn).stride
          (img.bytesPerLine : Int) := by
      intro k hk
      show (4 : Int) ≤ (img.bytesPerLine : Int)
      omega
    apply ProcessBlockUsingLineOperation.call_call _ _ _
      (fun k => columnBytes img.bytesPerLine k (k + 1))
    · intro k _ hk
      apply FlipLineOperation.flip_actsWithin (FlipLineOperation.mk LineOperationDirection.ByColumn) _
        _ (img.bytesPerLine : Int) _ (hst k hk)
      intro j c _ hc0 hc3
      exact columnBytes_of _ _ _ k j c (le_refl _) (by omega)
        (by
          have hk' : k < img.width := hk
          omega) hc0 hc3
    · intro j k _ _ _ _ hjk a
      exact columnBytes_pairwise _ j k hjk a
    · intro k _ hk b
      exact FlipLineOperation.flip_flip (FlipLineOperation.mk LineOperationDirection.ByColumn) _ _
        (img.bytesPerLine : Int) b (hst k hk)

theorem flipImage_involution_witness :
    (flipImage (flipImage exampleImage FlipType.FlipHorizontal)
        FlipType.FlipHorizontal).SameBuffer exampleImage ∧
      (flipImage (flipImage exampleImage FlipType.FlipVertical)
        FlipType.FlipVertical).SameBuffer exampleImage :=
  ⟨flipImage_involution exampleImage FlipType.FlipHorizontal (by decide),
    flipImage_involution exampleImage FlipType.FlipVertical (by decide)⟩


/-- C12: `distanceTransform1d` is exact: for every field `f` of length `n ≥ 1` whose values
are finite (between `-inf` and `inf`, the sentinel), the sentinel being larger than
`(n-1)²`, the largest squared distance within the line, the routine returns (no scratch
index leaves its array)
and its output at every index `q < n` is the minimum over `p < n` of `f(p) + (q-p)²`, the
result of the naive quadratic scan. -/
theorem distanceTransform1d_exact (inf : ℚ) (f : Nat → ℚ) (n : Nat) (hn : 1 ≤ n)
    (hf : ∀ p, p < n → -inf ≤ f p ∧ f p ≤ inf) (hinf : ((n : ℚ) - 1) ^ 2 < inf) :
    ∃ d, distanceTransform1d inf f n = some d ∧
      ∀ q, q < n → d q = distanceReference f n q := by
  have hinf0 : 0 ≤ inf := le_trans (sq_nonneg _) (le_of_lt hinf)
  obtain ⟨e, he, hlow⟩ := envelope_lowest inf f n hn hf hinf0
  have h := forRange_induction 0 n
    (fun q st => st.bind (fun (kd : Nat × (Nat → ℚ)) =>
      (raiseIndex e.z q (e.k - kd.1) kd.1).map (fun k =>
        (k, fun i => if i = q then ((q : ℚ) - (e.v k : ℚ)) ^ 2 + f (e.v k) else kd.2 i))))
    (fun q st => ∃ k d, st = some (k, d) ∧ k ≤ e.k ∧ e.z k ≤ (q : ℚ) ∧
      ∀ i, i < q → d i = distanceReference f n i)
    (some (0, fun _ => 0))
    ⟨0, fun _ => 0, rfl, Nat.zero_le _, by
      rw [hlow.1]
      simp only [Nat.cast_zero]
      linarith, fun i hi => absurd hi (Nat.not_lt_zero _)⟩
    (by
      intro q st _ hq hst
      obtain ⟨k, d, hst, hk, hz, hd⟩ := hst
      have hqi : (q : ℚ) ≤ inf := cast_le_of_sq_lt inf n q hq hinf
      obtain ⟨k', hk1, hk2, hk3, hk4⟩ :=
        raiseIndex_spec inf e.z q e.k hlow.2.1 hqi (e.k - k) k (by omega) hz
      refine ⟨k', fun i => if i = q then ((q : ℚ) - (e.v k' : ℚ)) ^ 2 + f (e.v k') else d i,
        ?_, hk2, ?_, ?_⟩
      · rw [hst]
        show (raiseIndex e.z q (e.k - k) k).map (fun k =>
          (k, fun i => if i = q then ((q : ℚ) - (e.v k : ℚ)) ^ 2 + f (e.v k) else d i)) = _
        rw [hk1]
        rfl
      · have : (q : ℚ) ≤ ((q + 1 : Nat) : ℚ) := by exact_mod_cast Nat.le_succ q
        exact le_trans hk3 this
      · intro i hi
        show (if i = q then ((q : ℚ) - (e.v k' : ℚ)) ^ 2 + f (e.v k') else d i) = _
        by_cases hiq : i = q
        · rw [if_pos hiq, hiq]
          exact hlow.value hn q k' hk2 hqi hk3 hk4
        · rw [if_neg hiq]
          exact hd i (by omega))
  obtain ⟨k, d, hst, _, _, hd⟩ := h
  refine ⟨d, ?_, ?_⟩
  · unfold distanceTransform1d
    rw [he]
    show Option.map Prod.snd _ = _
    rw [hst]
    rfl
  · intro q hq
    exact hd q (by rw [max_eq_right (Nat.zero_le n)]; exact hq)

theorem distanceTransform1d_exact_witness :
    (∀ p, p < 6 → -1000 ≤ exampleField p ∧ exampleField p ≤ 1000) ∧
      ∃ d, distanceTransform1d 1000 exampleField 6 = some d ∧
        ∀ q, q < 6 → d q = distanceReference exampleField 6 q :=
  have hf : ∀ p, p < 6 → -1000 ≤ exampleField p ∧ exampleField p ≤ 1000 := by
    intro p _
    unfold exampleField
    split <;> norm_num
  ⟨hf, distanceTransform1d_exact 1000 exampleField 6 (by decide) hf (by norm_num)⟩

/-- C13: for every image (row stride at least 4 bytes per column), every pixel operation
that is a function of its arguments and every block of line length at most the width,
after `ProcessBlockUsingPixelOperation` every pixel `(x, y)` with
`beginLine ≤ y < endLine` and `x < lineLength` holds `op (original pixel at (x, y)) x y`
(as a 32-bit `QRgb`), whatever the other pixels are; and the operation is called exactly
once on each pixel of the block, in row-major scan order, with that pixel's own
coordinates: the trace gains exactly `pixelScan`. -/
theorem pixelOperation_applied_once_in_scan_order (op : Nat → Nat → Nat → Nat) (img : QImage)
    (block : ImageBlock) (hwf : img.WellFormed) (hlen : block.lineLength ≤ img.width) :
    (∀ x y : Nat, block.beginLine ≤ y → y < block.endLine → x < block.lineLength →
      (ProcessBlockUsingPixelOperation.call op block img).buffer.pixel
          (img.scanLine y + 4 * (x : Int))
        = op (img.buffer.pixel (img.scanLine y + 4 * (x : Int))) x y % 4294967296) ∧
    (ProcessBlockUsingPixelOperation.call op block img).buffer.trace
      = img.buffer.trace ++ pixelScan img.bytesPerLine block := by
  unfold QImage.WellFormed at hwf
  constructor
  · intro x y hy1 hy2 hx
    rw [← Buffer.pixel_applyPixelOp op (img.scanLine y + 4 * (x : Int)) x y img.buffer]
    apply Buffer.pixel_congr
    intro c hc0 hc3
    rw [← ProcessBlockUsingPixelOperation.row_bits op block.lineLength (img.scanLine y) y
      img.buffer x hx c hc0 hc3]
    show (forRange block.beginLine block.endLine
      (fun y b => ProcessBlockUsingPixelOperation.row op block.lineLength (img.scanLine y) y b)
      img.buffer).bits _ = _
    apply Buffer.ActsWithin.forRange_bits
      (fun y b => ProcessBlockUsingPixelOperation.row op block.lineLength (img.scanLine y) y b)
      (fun y a => rowBytes img.bytesPerLine y (y + 1) a) block.beginLine block.endLine
    · intro k _ _
      apply ProcessBlockUsingPixelOperation.row_actsWithin
      intro x' c' hx' hc0' hc3'
      have e : img.scanLine k + 4 * (x' : Int) + c'
          = (k : Int) * (img.bytesPerLine : Int) + (4 * (x' : Int) + c') := by
        unfold QImage.scanLine
        ring
      rw [e]
      exact rowBytes_of _ _ _ k _ (le_refl _) (by omega) (by omega) (by omega)
    · intro j k _ _ _ _ hjk a ha
      exact rowBytes_disjoint img.bytesPerLine j (j + 1) k (k + 1) (fun t ht => by omega) a
        ha.1 ha.2
    · exact hy1
    · exact hy2
    · have e : img.scanLine y + 4 * (x : Int) + c
          = (y : Int) * (img.bytesPerLine : Int) + (4 * (x : Int) + c) := by
        unfold QImage.scanLine
        ring
      rw [e]
      exact rowBytes_of _ _ _ y _ (le_refl _) (by omega) (by omega) (by omega)
  · exact forFrom_trace
      (fun y b => ProcessBlockUsingPixelOperation.row op block.lineLength (img.scanLine y) y b)
      (fun y => (List.range' 0 block.lineLength).map (fun (x : Nat) =>
        Event.pixelOp ((y : Int) * (img.bytesPerLine : Int) + 4 * (x : Int)) x y))
      (block.endLine - block.beginLine) block.beginLine img.buffer
      (fun k t => ProcessBlockUsingPixelOperation.row_trace op block.lineLength _ k t)

theorem pixelOperation_applied_once_in_scan_order_witness :
    (∀ x y : Nat, 1 ≤ y → y < 3 → x < 2 →
      (ProcessBlockUsingPixelOperation.call examplePixelOp ⟨1, 3, 2⟩ exampleImage).buffer.pixel
          (exampleImage.scanLine y + 4 * (x : Int))
        = examplePixelOp (exampleImage.buffer.pixel (exampleImage.scanLine y + 4 * (x : Int))) x y
          % 4294967296) ∧
    (ProcessBlockUsingPixelOperation.call examplePixelOp ⟨1, 3, 2⟩ exampleImage).buffer.trace
      = [Event.pixelOp 8 0 1, Event.pixelOp 12 1 1, Event.pixelOp 16 0 2, Event.pixelOp 20 1 2] :=
  have h := pixelOperation_applied_once_in_scan_order examplePixelOp exampleImage ⟨1, 3, 2⟩
    (by decide) (by decide)
  ⟨h.1, h.2.trans (by decide)⟩


/-- C14: for every decay parameter `0 ≤ alpha ≤ 16`, every line of pixels (channel range
within 0..3, pixels at least 4 bytes apart) and every selected channel whose input values
on the line lie between `lo` and `hi ≤ 255` (so between their minimum and maximum), every
output value of the pass lies between `lo` and `hi`; the accumulator stays between
`16 * lo` and `16 * hi`, hence within `[0, 4080]`, and the byte written back never wraps
around (`(acc >> 4) mod 256 = acc >> 4`); and a line that is constant in the channel
(`lo = hi`) is left unchanged in that channel. -/
theorem stackBlur_output_within_input_range (op : StackBlurLineOperation) (startRef : Int)
    (n : Nat) (bytesPerLine : Int) (b : Buffer) (i : Int) (lo hi : Nat)
    (ha0 : 0 ≤ op.mAlpha) (ha16 : op.mAlpha ≤ 16) (h1 : 0 ≤ op.mi1) (h2 : op.mi2 ≤ 3)
    (hs : op.mDirection = LineOperationDirection.ByColumn → 4 ≤ bytesPerLine)
    (hi1 : op.mi1 ≤ i) (hi2 : i ≤ op.mi2) (hhi : hi ≤ 255)
    (hin : ∀ k : Nat, k < n →
      lo ≤ b.bits (startRef + (k : Int) * op.stride bytesPerLine + i) ∧
        b.bits (startRef + (k : Int) * op.stride bytesPerLine + i) ≤ hi) :
    (∀ k : Nat, k < n →
      lo ≤ (op.call startRef (n : Int) bytesPerLine b).bits
          (startRef + (k : Int) * op.stride bytesPerLine + i) ∧
        (op.call startRef (n : Int) bytesPerLine b).bits
          (startRef + (k : Int) * op.stride bytesPerLine + i) ≤ hi) ∧
    (∀ m : Nat, m < n →
      (lo : Int) * 16 ≤ (op.stateAfter startRef (n : Int) bytesPerLine b m).rgba i ∧
        (op.stateAfter startRef (n : Int) bytesPerLine b m).rgba i ≤ (hi : Int) * 16 ∧
        0 ≤ (op.stateAfter startRef (n : Int) bytesPerLine b m).rgba i ∧
        (op.stateAfter startRef (n : Int) bytesPerLine b m).rgba i ≤ 4080 ∧
        ((op.stateAfter startRef (n : Int) bytesPerLine b m).rgba i >>> (4 : Nat)) % 256
          = (op.stateAfter startRef (n : Int) bytesPerLine b m).rgba i >>> (4 : Nat)) ∧
    (lo = hi → ∀ k : Nat, k < n →
      (op.call startRef (n : Int) bytesPerLine b).bits
          (startRef + (k : Int) * op.stride bytesPerLine + i)
        = b.bits (startRef + (k : Int) * op.stride bytesPerLine + i)) := by
  have hs4 : 4 ≤ op.stride bytesPerLine := by
    unfold StackBlurLineOperation.stride
    cases hd : op.mDirection with
    | ByRow => simp
    | ByColumn => simpa using hs hd
  have hout : ∀ k : Nat, k < n →
      lo ≤ (op.call startRef (n : Int) bytesPerLine b).bits
          (startRef + (k : Int) * op.stride bytesPerLine + i) ∧
        (op.call startRef (n : Int) bytesPerLine b).bits
          (startRef + (k : Int) * op.stride bytesPerLine + i) ≤ hi := by
    intro k hk
    rw [op.call_channel startRef n bytesPerLine b h1 h2 hs4 k i hk hi1 hi2]
    apply channelCode_between op.mAlpha _ lo hi ha0 ha16 hhi
    intro j hj
    exact hin (op.rank n j) (op.rank_lt n j (lt_of_le_of_lt hj (op.rank_lt n k hk)))
  refine ⟨hout, ?_, ?_⟩
  · intro m hm
    rw [op.stateAfter_rgba startRef n bytesPerLine b h1 h2 hs4 m hm i hi1 hi2]
    have hb := accCode_between op.mAlpha
      (fun j => (b.bits (startRef + ((op.rank n j : Nat) : Int) * op.stride bytesPerLine + i) : Int))
      lo hi ha0 ha16 (Int.ofNat_nonneg lo) (by omega) m
      (fun j hj => by
        have := hin (op.rank n j) (op.rank_lt n j (by omega))
        show (lo : Int) ≤ (b.bits _ : Int) ∧ (b.bits _ : Int) ≤ (hi : Int)
        constructor <;> omega)
    have hw := (accByte_between _ lo hi hhi hb.1 hb.2).1
    refine ⟨hb.1, hb.2, by omega, by omega, hw⟩
  · intro hlh k hk
    have h3 := hout k hk
    have h4 := hin k hk
    omega

theorem stackBlur_output_within_input_range_witness :
    (∀ k : Nat, k < 2 →
      37 ≤ (exampleRowBlur.call 0 ((2 : Nat) : Int) 8 exampleImage.buffer).bits
          (0 + (k : Int) * exampleRowBlur.stride 8 + 1) ∧
        (exampleRowBlur.call 0 ((2 : Nat) : Int) 8 exampleImage.buffer).bits
          (0 + (k : Int) * exampleRowBlur.stride 8 + 1) ≤ 185) ∧
    (∀ m : Nat, m < 2 →
      0 ≤ (exampleRowBlur.stateAfter 0 ((2 : Nat) : Int) 8 exampleImage.buffer m).rgba 1 ∧
        (exampleRowBlur.stateAfter 0 ((2 : Nat) : Int) 8 exampleImage.buffer m).rgba 1 ≤ 4080) :=
  have h := stackBlur_output_within_input_range exampleRowBlur 0 2 8 exampleImage.buffer 1 37 185
    (by decide) (by decide) (by decide) (by decide) (by intro h; cases h) (by decide) (by decide)
    (by decide)
    (by
      intro k hk
      have hk' : k = 0 ∨ k = 1 := by omega
      rcases hk' with rfl | rfl <;> decide)
  ⟨h.1, fun m hm => ⟨(h.2.1 m hm).2.2.1, (h.2.1 m hm).2.2.2.1⟩⟩


/-- C18: with decay parameter `alpha = 16` a pass is the identity: for every line, either
scan direction, either stride and any channel range, every byte of the buffer (so every
byte of every pixel of the line) is unchanged after the pass, the bytes being
`unsigned char` values. -/
theorem stackBlur_alpha_sixteen_identity (op : StackBlurLineOperation) (startRef : Int)
    (n : Nat) (bytesPerLine : Int) (b : Buffer) (halpha : op.mAlpha = 16) (hv : b.Valid) :
    (op.call startRef (n : Int) bytesPerLine b).bits = b.bits := by
  rw [StackBlurLineOperation.call_eq_pass, halpha]
  exact StackBlurLineOperation.pass_sixteen _ _ _ _ _ b hv

theorem stackBlur_alpha_sixteen_identity_witness :
    exampleImage.buffer.Valid ∧
      (exampleSharpBlur.call 8 ((2 : Nat) : Int) 8 exampleImage.buffer).bits
        = exampleImage.buffer.bits :=
  have hv : exampleImage.buffer.Valid := by
    intro a
    simp only [exampleImage]
    omega
  ⟨hv, stackBlur_alpha_sixteen_identity exampleSharpBlur 8 2 8 exampleImage.buffer rfl hv⟩

end QgsImageOperation
